import Mathlib

/-!
# ETF holdings updater (scripts/update.js): a shallow embedding

The definitions below transcribe the functions of `scripts/update.js`.

Modelling conventions:
* a JavaScript string is the list of its characters;
* a JavaScript number is a rational, or one of NaN, +Infinity, -Infinity; `parseFloat`,
  `JSNum.div100` and `normalizeWeight` compute with the exact rational, while `parseFloat64`,
  `JSNum.div64` and `normalizeWeight64` round every result to the nearest double (`toDouble`),
  overflow included, as the engine does;
* a raw cell is `undefined`, `null`, a number or a string;
* thrown errors are values of `Err`, returned through `Except`;
* the network, the spreadsheet library and `encodeURIComponent` are parameters (`World`);
* the file system is a parameter (`FileSystem`) of `saveCSVOn`, `mainStepOn` and `mainOn`;
  `saveCSV`, `mainStep` and `main` are the run on a file system that accepts every write.
-/

namespace ETFHoldings

/-! ## Strings and characters -/

/-- A JavaScript string, as the sequence of its characters. -/
abbrev JSString := List Char

/-- ECMAScript WhiteSpace and LineTerminator code points: what `trim`, `parseFloat` and the
regular-expression class `\s` treat as white space. -/
def isWhiteSpace (c : Char) : Bool :=
  c.toNat = 9 || c.toNat = 10 || c.toNat = 11 || c.toNat = 12 || c.toNat = 13 ||
  c.toNat = 32 || c.toNat = 0xA0 || c.toNat = 0x1680 ||
  (0x2000 ≤ c.toNat && c.toNat ≤ 0x200A) ||
  c.toNat = 0x2028 || c.toNat = 0x2029 || c.toNat = 0x202F || c.toNat = 0x205F ||
  c.toNat = 0x3000 || c.toNat = 0xFEFF

/-- ECMAScript LineTerminator code points: the characters the regular-expression `.` rejects. -/
def isLineTerminator (c : Char) : Bool :=
  c.toNat = 10 || c.toNat = 13 || c.toNat = 0x2028 || c.toNat = 0x2029

/-- Decimal digits `0`..`9`: the regular-expression class `\d` and the digits of `parseFloat`. -/
def isDigit (c : Char) : Bool := 48 ≤ c.toNat && c.toNat ≤ 57

/-- Leading white space removed. -/
def trimStart (s : JSString) : JSString := s.dropWhile isWhiteSpace

/-- Trailing white space removed. -/
def trimEnd (s : JSString) : JSString := (s.reverse.dropWhile isWhiteSpace).reverse

/-- `String.prototype.trim`. -/
def trim (s : JSString) : JSString := trimEnd (trimStart s)

/-- `String.prototype.toLowerCase`, on the ASCII letters (other case mappings are not modelled). -/
def toLowerCase (s : JSString) : JSString := s.map Char.toLower

/-- `String.prototype.toUpperCase`, on the ASCII letters (other case mappings are not modelled). -/
def toUpperCase (s : JSString) : JSString := s.map Char.toUpper

/-- `s.replace(c, by)` with a one-character string pattern: only the first occurrence of `c`
is replaced. -/
def replaceFirstChar (c : Char) (r : JSString) : JSString → JSString
  | [] => []
  | x :: xs => if x = c then r ++ xs else x :: replaceFirstChar c r xs

/-! ## Numbers -/

/-- A JavaScript number: a finite value (an exact rational here), NaN, or an infinity. -/
inductive JSNum where
  | fin (q : ℚ)
  | nan
  | posInf
  | negInf
deriving DecidableEq

/-- The relational operator `a > b` on numbers. -/
def JSNum.gt : JSNum → JSNum → Bool
  | .fin a, .fin b => decide (b < a)
  | .fin _, .negInf => true
  | .posInf, .fin _ => true
  | .posInf, .negInf => true
  | _, _ => false

/-- The quotient `a / 100`, exact (before rounding; `JSNum.div64` rounds it). -/
def JSNum.div100 : JSNum → JSNum
  | .fin q => .fin (q / 100)
  | .nan => .nan
  | .posInf => .posInf
  | .negInf => .negInf

/-- The global `isFinite` on a number. -/
def JSNum.isFinite : JSNum → Bool
  | .fin _ => true
  | _ => false

/-- Value of a run of decimal digits. -/
def digitsValue (ds : List Char) : Nat :=
  ds.foldl (fun acc c => 10 * acc + (c.toNat - 48)) 0

/-- The decimal `i.f` (integer digits `i`, fraction digits `f`) as a rational. -/
def decimalValue (i f : List Char) : ℚ :=
  (digitsValue (i ++ f) : ℚ) / ((10 : ℚ) ^ f.length)

/-- The exponent part of a decimal literal: `e` or `E`, an optional sign, at least one digit.
Absent or malformed exponent parts count as exponent 0 (they are not part of the literal). -/
def exponentValue (s : JSString) : Int :=
  match s with
  | [] => 0
  | c :: r =>
    if c = 'e' ∨ c = 'E' then
      match r with
      | '-' :: d => if (d.takeWhile isDigit).isEmpty then 0
                    else - (digitsValue (d.takeWhile isDigit) : Int)
      | '+' :: d => (digitsValue (d.takeWhile isDigit) : Int)
      | d => (digitsValue (d.takeWhile isDigit) : Int)
    else 0

/-- The unsigned part of `parseFloat`: `Infinity`, or the longest decimal literal
(`digits`, `digits.`, `digits.digits`, `.digits`, each with an optional exponent) that
starts the text; NaN when there is none. -/
def parseUnsigned (u : JSString) : JSNum :=
  if "Infinity".toList.isPrefixOf u then .posInf
  else
    let i := u.takeWhile isDigit
    let r1 := u.dropWhile isDigit
    match r1 with
    | '.' :: r =>
      let f := r.takeWhile isDigit
      if i.isEmpty && f.isEmpty then .nan
      else .fin (decimalValue i f * (10 : ℚ) ^ exponentValue (r.dropWhile isDigit))
    | _ =>
      if i.isEmpty then .nan
      else .fin (decimalValue i [] * (10 : ℚ) ^ exponentValue r1)

/-- Arithmetic negation of a number. -/
def JSNum.neg : JSNum → JSNum
  | .fin q => .fin (-q)
  | .nan => .nan
  | .posInf => .negInf
  | .negInf => .posInf

/-- The global `parseFloat` before the final rounding: skips leading white space, reads an
optional sign and the longest prefix that is a decimal literal, and gives the exact value of
that literal; NaN when no prefix is one. The function `parseFloat64` rounds the value. -/
def parseFloat (s : JSString) : JSNum :=
  match trimStart s with
  | '-' :: u => (parseUnsigned u).neg
  | '+' :: u => parseUnsigned u
  | u => parseUnsigned u

/-- Decimal digits of a natural number, most significant first. -/
def natDigits (n : Nat) : JSString := Nat.toDigits 10 n

/-- Number of decimal digits of a natural number. -/
def numDigits (n : Nat) : Nat := (natDigits n).length

/-- The decimal exponent `n` of a positive rational `a / b`: `10^(n-1) ≤ a/b < 10^n`. -/
def decimalExponent (a b : Nat) : Int :=
  let z : Int := (numDigits a : Int) - (numDigits b : Int)
  let atLeast : Bool :=
    if 0 ≤ z then decide (b * 10 ^ z.toNat ≤ a) else decide (b ≤ a * 10 ^ (-z).toNat)
  if atLeast then z + 1 else z

/-- Digits with the trailing zeros removed. -/
def stripTrailingZeros (ds : JSString) : JSString :=
  (ds.reverse.dropWhile (fun c => c = '0')).reverse

/-- The significant digits of a significand: its leading digit, followed by its other digits
without the trailing zeros. -/
def significantDigits (m : Nat) : JSString :=
  match natDigits m with
  | [] => ['0']
  | d :: ds => d :: stripTrailingZeros ds

/-- The positive rational `a / b` with decimal exponent `n`, scaled to 17 significant
digits and rounded to the nearest integer: `round (a / b * 10^(17 - n))`. -/
def roundedSignificand (a b : Nat) (n : Int) : Nat :=
  let e : Int := 17 - n
  let num : Nat := if 0 ≤ e then a * 10 ^ e.toNat else a
  let den : Nat := if 0 ≤ e then b else b * 10 ^ (-e).toNat
  (2 * num + den) / (2 * den)

/-- Number::toString (radix 10) for a positive value given by its significant digits `ds`
(`k` of them) and decimal exponent `n`, following the four cases of ECMAScript. -/
def formatDigits (ds : JSString) (n : Int) : JSString :=
  let k : Int := ds.length
  if k ≤ n ∧ n ≤ 21 then ds ++ List.replicate (n - k).toNat '0'
  else if 0 < n ∧ n ≤ 21 then ds.take n.toNat ++ '.' :: ds.drop n.toNat
  else if -6 < n ∧ n ≤ 0 then '0' :: '.' :: (List.replicate (-n).toNat '0' ++ ds)
  else
    let ex : JSString := (if 0 ≤ n - 1 then '+' else '-') :: natDigits (n - 1).natAbs
    if ds.length = 1 then ds ++ 'e' :: ex
    else ds.take 1 ++ '.' :: (ds.drop 1 ++ 'e' :: ex)

/-- Number::toString for a positive rational: its significant digits (at most 17, the value
being rounded to 17 significant digits) laid out by `formatDigits`. -/
def posToString (q : ℚ) : JSString :=
  let n := decimalExponent q.num.natAbs q.den
  let m := roundedSignificand q.num.natAbs q.den n
  formatDigits (significantDigits m) (if m = 10 ^ 17 then n + 1 else n)

/-- The conversion `String(n)` of a number (Number::toString, radix 10; finite values are
printed with at most 17 significant digits). -/
def numToString : JSNum → JSString
  | .nan => "NaN".toList
  | .posInf => "Infinity".toList
  | .negInf => "-Infinity".toList
  | .fin q =>
    if q = 0 then "0".toList
    else if q < 0 then '-' :: posToString (-q)
    else posToString q

/-! ## Values -/

/-- A raw cell value: absent (`undefined` or `null`), a number, or a string. -/
inductive Val where
  | undefined
  | null
  | num (n : JSNum)
  | str (s : JSString)
deriving DecidableEq

/-- The abstract operation ToString, as applied by `String(v)` and by template literals. -/
def Val.toStr : Val → JSString
  | .undefined => "undefined".toList
  | .null => "null".toList
  | .num n => numToString n
  | .str s => s

/-- Truthiness (ToBoolean): `undefined`, `null`, `0`, NaN and the empty string are falsy. -/
def Val.truthy : Val → Bool
  | .undefined => false
  | .null => false
  | .num (.fin q) => decide (q ≠ 0)
  | .num .nan => false
  | .num _ => true
  | .str s => !s.isEmpty

/-- The expression `x || ''`. -/
def Val.orEmpty (x : Val) : Val := if x.truthy then x else .str []

/-- The expression `x ?? ''`. -/
def Val.coalesceEmpty : Val → Val
  | .undefined => .str []
  | .null => .str []
  | x => x

/-! ## Regular expressions

A backtracking matcher in continuation-passing style, with the priorities of ECMAScript:
the left alternative first, greedy quantifiers longest first, lazy quantifiers shortest first.
Only the constructs used by the patterns of the program are present. -/

/-- Regular-expression syntax. -/
inductive Re where
  | eps
  | chr (c : Char)
  | dot
  | digit
  | space
  | bol
  | eol
  | seq (a b : Re)
  | alt (a b : Re)
  | opt (a : Re)
  | star (a : Re)
  | lazyStar (a : Re)
  | group (a : Re)

/-- The quantifier `a+`. -/
def Re.plus (a : Re) : Re := .seq a (.star a)

/-- A literal text: the sequence of its characters. -/
def Re.lit : List Char → Re
  | [] => .eps
  | [c] => .chr c
  | c :: cs => .seq (.chr c) (Re.lit cs)

/-- State of a match attempt: how many characters of the subject precede the current
position, the text from the current position on, and the text of capture group 1. -/
structure MState where
  pos : Nat
  rest : JSString
  cap : Option JSString

/-- Canonicalize (non-unicode mode): with the `i` flag characters are compared after
upper-casing. The patterns of the program consist of ASCII characters only, for which
upper-casing the ASCII letters gives the same comparison. -/
def Re.canon (ignoreCase : Bool) (c : Char) : Char := if ignoreCase then c.toUpper else c

/-- One character that satisfies `p` is consumed. -/
def Re.stepChar (p : Char → Bool) (s : MState) (k : MState → Option MState) : Option MState :=
  match s.rest with
  | [] => none
  | x :: xs => if p x then k { s with pos := s.pos + 1, rest := xs } else none

/-- Iteration of a quantified atom: `greedy` tries one more iteration before the
continuation, lazy tries the continuation first. An iteration that consumes nothing is
rejected. `fuel` bounds the number of iterations by the length of the remaining text. -/
def Re.loop (step : MState → (MState → Option MState) → Option MState) (greedy : Bool) :
    Nat → MState → (MState → Option MState) → Option MState
  | 0, s, k => k s
  | fuel + 1, s, k =>
    if greedy then
      (step s (fun s' =>
        if s'.rest.length < s.rest.length then Re.loop step greedy fuel s' k else none)).orElse
        (fun _ => k s)
    else
      (k s).orElse (fun _ =>
        step s (fun s' =>
          if s'.rest.length < s.rest.length then Re.loop step greedy fuel s' k else none))

/-- The matcher: `run ic r s k` matches `r` at state `s` and hands the state after the match
to the continuation `k`; the first success in priority order is the result. -/
def Re.run (ic : Bool) : Re → MState → (MState → Option MState) → Option MState
  | .eps, s, k => k s
  | .chr c, s, k => Re.stepChar (fun x => Re.canon ic x = Re.canon ic c) s k
  | .dot, s, k => Re.stepChar (fun x => !isLineTerminator x) s k
  | .digit, s, k => Re.stepChar isDigit s k
  | .space, s, k => Re.stepChar isWhiteSpace s k
  | .bol, s, k => if s.pos = 0 then k s else none
  | .eol, s, k => if s.rest.isEmpty then k s else none
  | .seq a b, s, k => Re.run ic a s (fun s' => Re.run ic b s' k)
  | .alt a b, s, k => (Re.run ic a s k).orElse (fun _ => Re.run ic b s k)
  | .opt a, s, k => (Re.run ic a s k).orElse (fun _ => k s)
  | .star a, s, k => Re.loop (fun t j => Re.run ic a t j) true s.rest.length s k
  | .lazyStar a, s, k => Re.loop (fun t j => Re.run ic a t j) false s.rest.length s k
  | .group a, s, k =>
    Re.run ic a s (fun s' =>
      k { s' with cap := some (s.rest.take (s.rest.length - s'.rest.length)) })

/-- A regular expression literal: its pattern and its `i` flag. -/
structure RegExp where
  re : Re
  ignoreCase : Bool

/-- RegExpBuiltinExec without the `g` flag: the match at the first start position
(`pos`, `pos + 1`, ...) at which the pattern matches; the result is that position and the
final matcher state. -/
def RegExp.execFrom (r : RegExp) : Nat → JSString → Option (Nat × MState)
  | pos, s =>
    match Re.run r.ignoreCase r.re { pos := pos, rest := s, cap := none } some with
    | some m => some (pos, m)
    | none =>
      match s with
      | [] => none
      | _ :: t => RegExp.execFrom r (pos + 1) t

/-- `re.test(s)`. -/
def RegExp.test (r : RegExp) (s : JSString) : Bool := (r.execFrom 0 s).isSome

/-- `s.replace(re, '$1')` for a pattern without the `g` flag: the first match is replaced by
the text of capture group 1; without a match the string is unchanged. -/
def RegExp.replaceWithGroup1 (r : RegExp) (s : JSString) : JSString :=
  match r.execFrom 0 s with
  | none => s
  | some (start, m) => s.take start ++ (m.cap.getD [] ++ m.rest)

/-- The pattern `/^(ticker|symbol|ticker symbol|code)$/i`. -/
def symbolHeaderRe : RegExp :=
  { re := .seq .bol (.seq (.group (.alt (Re.lit "ticker".toList) (.alt (Re.lit "symbol".toList)
      (.alt (Re.lit "ticker symbol".toList) (Re.lit "code".toList))))) .eol),
    ignoreCase := true }

/-- The alternative `^weight.*%$`. -/
def weightPercentRe : Re :=
  .seq .bol (.seq (Re.lit "weight".toList) (.seq (.star .dot) (.seq (.chr '%') .eol)))

/-- The alternative `^%?\s*weight\s*\(%\)$`. -/
def weightParenRe : Re :=
  .seq .bol (.seq (.opt (.chr '%')) (.seq (.star .space) (.seq (Re.lit "weight".toList)
    (.seq (.star .space) (.seq (Re.lit "(%)".toList) .eol)))))

/-- The alternative `^weight$`. -/
def weightOnlyRe : Re := .seq .bol (.seq (Re.lit "weight".toList) .eol)

/-- The pattern `/^weight.*%$|^%?\s*weight\s*\(%\)$|^weight$/i`. -/
def weightHeaderRe : RegExp :=
  { re := .alt weightPercentRe (.alt weightParenRe weightOnlyRe), ignoreCase := true }

/-- The pattern `/portfolio\s*weight/i`. -/
def portfolioWeightRe : RegExp :=
  { re := .seq (Re.lit "portfolio".toList) (.seq (.star .space) (Re.lit "weight".toList)),
    ignoreCase := true }

/-- The sub-pattern `\d+(?:\.\d+)?`. -/
def unsignedNumberRe : Re :=
  .seq (Re.plus .digit) (.opt (.seq (.chr '.') (Re.plus .digit)))

/-- The sub-pattern `-?\d+(?:\.\d+)?`. -/
def signedNumberRe : Re := .seq (.opt (.chr '-')) unsignedNumberRe

/-- The pattern `/.*?(-?\d+(?:\.\d+)?).*/`. -/
def firstNumberRe : RegExp :=
  { re := .seq (.lazyStar .dot) (.seq (.group signedNumberRe) (.star .dot)),
    ignoreCase := false }

/-! ## Weight normalisation -/

/-- The function `normalizeWeight` of `scripts/update.js`, computed with exact rationals
(`normalizeWeight64` below rounds as the engine does). The empty string is the "unknown"
result. -/
def normalizeWeight (v : Val) : Val :=
  match v with
  | .undefined => .str []
  | .null => .str []
  | .num n => .num (if n.gt (.fin 1) then n.div100 else n)
  | .str [] => .str []
  | .str (c :: cs) =>
    let s := replaceFirstChar ',' ['.'] (trim (c :: cs))
    let s := firstNumberRe.replaceWithGroup1 s
    let n := parseFloat (replaceFirstChar '%' [] s)
    if !n.isFinite then .str [] else .num (if n.gt (.fin 1) then n.div100 else n)

/-! ## Weight normalisation in binary64 arithmetic

The engine computes with doubles: the number parsed from a text and the quotient by 100 are
rounded to the nearest double. The definitions of this section are those of the sections
above with that rounding made explicit. -/

/-- The number of binary digits of `n`, with `fuel` at least that number. -/
def bitLengthAux : Nat → Nat → Nat
  | 0, _ => 0
  | fuel + 1, n => if n = 0 then 0 else bitLengthAux fuel (n / 2) + 1

/-- The number of binary digits of `n`. -/
def bitLength (n : Nat) : Nat := bitLengthAux n n

/-- The integer part of the binary logarithm of `n / d`, for positive `n` and `d`. -/
def binade (n d : Nat) : Int :=
  let e : Int := (bitLength n : Int) - (bitLength d : Int)
  if 0 ≤ e then (if d * 2 ^ e.toNat ≤ n then e else e - 1)
  else (if d ≤ n * 2 ^ (-e).toNat then e else e - 1)

/-- The integer nearest to `n / d`, the even one of two that are equally near. -/
def roundHalfEven (n d : Nat) : Nat :=
  let m := n / d
  let r := n % d
  if 2 * r < d then m else if d < 2 * r then m + 1 else if m % 2 = 0 then m else m + 1

/-- Rounding of the positive rational `n / d` to binary64: the significand `m` and the
exponent `k` of the nearest double `m * 2 ^ k` (the unit in the last place is `2 ^ k`, at
least `2 ^ (-1074)`), or nothing when the rounded value is `2 ^ 1024` or more. A quotient
whose numerator has over 1024 binary digits more than its denominator is at least
`2 ^ 1024`. -/
def roundPos (n d : Nat) : Option (Nat × Int) :=
  if 1024 < (bitLength n : Int) - (bitLength d : Int) then none
  else
    let e := max (binade n d) (-1022)
    let k := e - 52
    let m :=
      if 0 ≤ k then roundHalfEven n (d * 2 ^ k.toNat) else roundHalfEven (n * 2 ^ (-k).toNat) d
    if 1023 < e ∨ (e = 1023 ∧ m = 2 ^ 53) then none else some (m, k)

/-- The Number value for a rational: the nearest double, ties to even, and an infinity
when the rounded value is beyond the finite range. The two zeros are not distinguished. -/
def toDouble (q : ℚ) : JSNum :=
  if q = 0 then .fin 0
  else
    match roundPos q.num.natAbs q.den with
    | none => if 0 < q then .posInf else .negInf
    | some (m, k) => .fin ((if 0 < q then (m : ℚ) else -(m : ℚ)) * (2 : ℚ) ^ k)

/-- Rounding of an exactly computed result to a Number. -/
def JSNum.round : JSNum → JSNum
  | .fin q => toDouble q
  | .nan => .nan
  | .posInf => .posInf
  | .negInf => .negInf

/-- The quotient `a / 100` in binary64 arithmetic: the exact quotient, rounded. -/
def JSNum.div64 (a : JSNum) : JSNum := a.div100.round

/-- The product `100 * a` in binary64 arithmetic: the exact product, rounded. -/
def JSNum.times100 : JSNum → JSNum
  | .fin q => toDouble (100 * q)
  | .nan => .nan
  | .posInf => .posInf
  | .negInf => .negInf

/-- The global `parseFloat` in binary64 arithmetic: the number denoted by the longest decimal
literal, rounded to the nearest double. -/
def parseFloat64 (s : JSString) : JSNum := (parseFloat s).round

/-- The function `normalizeWeight` of `scripts/update.js` in binary64 arithmetic: as
`normalizeWeight`, with the parsed number and the quotient by 100 rounded to the nearest
double. -/
def normalizeWeight64 (v : Val) : Val :=
  match v with
  | .undefined => .str []
  | .null => .str []
  | .num n => .num (if n.gt (.fin 1) then n.div64 else n)
  | .str [] => .str []
  | .str (c :: cs) =>
    let s := replaceFirstChar ',' ['.'] (trim (c :: cs))
    let s := firstNumberRe.replaceWithGroup1 s
    let n := parseFloat64 (replaceFirstChar '%' [] s)
    if !n.isFinite then .str [] else .num (if n.gt (.fin 1) then n.div64 else n)

/-! ## Header resolution and row extraction -/

/-- Errors thrown by the program. -/
inductive Err where
  /-- The error `'no Ticker/Weight headers: ' + JSON.stringify(hdr)`, carrying `hdr`. -/
  | missingColumns (hdr : List JSString)
  /-- The error `'CSV url missing'`. -/
  | csvUrlMissing
  /-- The error `'unknown source ' + src`. -/
  | unknownSource (src : JSString)
  /-- The error `HTTP <status> <url>` of a response that is not ok. -/
  | http (status : Nat) (url : Option JSString)
  /-- A TypeError raised by the language runtime (a method called on an absent value). -/
  | typeError
  /-- An error raised by an external collaborator: a rejected fetch, an unreadable workbook. -/
  | external (msg : JSString)
deriving DecidableEq

deriving instance DecidableEq for Except

/-- A row of a raw table: absent, or a sequence of cells. -/
abbrev Row := Option (List Val)

/-- A holding record `{ Ticker, Weight }`. -/
structure Holding where
  Ticker : JSString
  Weight : Val
deriving DecidableEq

/-- The loop of `findHeader` from column `i` on: the first column whose text is accepted by
one of the patterns. -/
def findHeaderFrom (patterns : List RegExp) : Nat → List JSString → Option Nat
  | _, [] => none
  | i, h :: rest =>
    if patterns.any (fun re => re.test h) then some i
    else findHeaderFrom patterns (i + 1) rest

/-- The function `findHeader`; `none` stands for the result `-1`. -/
def findHeader (hdr : List JSString) (patterns : List RegExp) : Option Nat :=
  findHeaderFrom patterns 0 hdr

/-- The indexing expression `r[i]` on a row: `undefined` past the end. -/
def cellAt (r : List Val) (i : Nat) : Val := r.getD i .undefined

/-- The header texts `rows[0].map(x => String(x||'').trim())`. -/
def headerTexts (r0 : List Val) : List JSString := r0.map (fun x => trim x.orEmpty.toStr)

/-- The row loop of `pickTickerWeight`, at index `i` with `fuel` rows to go and the records
pushed so far in `out`. -/
def pickRows (rows : List Row) (tIdx wIdx : Nat) : Nat → Nat → List Holding → List Holding
  | 0, _, out => out
  | fuel + 1, i, out =>
    match rows.getD i none with
    | none => pickRows rows tIdx wIdx fuel (i + 1) out
    | some r =>
      let tick := trim (cellAt r tIdx).coalesceEmpty.toStr
      if tick.isEmpty then pickRows rows tIdx wIdx fuel (i + 1) out
      else
        pickRows rows tIdx wIdx fuel (i + 1)
          (out ++ [{ Ticker := tick, Weight := normalizeWeight (cellAt r wIdx) }])

/-- The function `pickTickerWeight`. -/
def pickTickerWeight (rows : List Row) : Except Err (List Holding) :=
  match rows with
  | [] => .ok []
  | none :: _ => .error .typeError
  | some r0 :: _ =>
    let hdr := headerTexts r0
    match findHeader hdr [symbolHeaderRe], findHeader hdr [weightHeaderRe, portfolioWeightRe] with
    | some tIdx, some wIdx => .ok (pickRows rows tIdx wIdx (rows.length - 1) 1 [])
    | _, _ => .error (.missingColumns hdr)

/-! ## Format adapters and output -/

/-- The function `csvToRows`: carriage returns removed, split at line feeds, empty lines
dropped, each line split at commas. Every cell is a string. -/
def csvToRows (text : JSString) : List Row :=
  let lines := ((text.filter (fun c => c ≠ '\r')).splitOn '\n').filter (fun l => !l.isEmpty)
  lines.map (fun line => some ((line.splitOn ',').map Val.str))

/-- The text and the file name computed by `saveCSV`: the pair (file name inside the data
directory, file content). -/
def saveCSV (ticker : JSString) (rows : List Holding) : JSString × JSString :=
  let csv := "\n".toList.intercalate
    ("Ticker,Weight".toList :: rows.map (fun r => r.Ticker ++ ',' :: r.Weight.toStr))
  (toUpperCase ticker ++ ".csv".toList, csv)

/-- A source descriptor of the configuration: `info.source` and `info.url`, each possibly
absent. -/
structure Info where
  source : Option JSString
  url : Option JSString

/-- A response of `fetch`: the `ok` flag, the status, and the body (the text, or the content
of the array buffer). -/
structure Response where
  ok : Bool
  status : Nat
  body : JSString

/-- The external collaborators: the network (`fetch`, which may reject), the spreadsheet
library behind `xlsxToRows`, and the built-in `encodeURIComponent`. -/
structure World where
  fetch : Option JSString → Except Err Response
  xlsxToRows : JSString → Except Err (List Row)
  encodeURIComponent : JSString → JSString

/-- The function `ssgaUrl`. -/
def ssgaUrl (t : JSString) : JSString :=
  "https://www.ssga.com/library-content/products/fund-data/etfs/us/holdings-daily-us-en-".toList
    ++ toLowerCase t ++ ".xlsx".toList

/-- The function `invescoUrl`. -/
def invescoUrl (w : World) (t : JSString) : JSString :=
  ("https://www.invesco.com/us/financial-products/etfs/holdings/main/holdings/0" ++
    "?action=download&audienceType=Investor&ticker=").toList ++ w.encodeURIComponent t

/-- The function `fetchArrayBuffer`: the body of the response, or the HTTP error when the
response is not ok. -/
def fetchArrayBuffer (w : World) (url : Option JSString) : Except Err JSString :=
  match w.fetch url with
  | .error e => .error e
  | .ok r => if !r.ok then .error (.http r.status url) else .ok r.body

/-- The function `fetchText`: the body of the response, or the HTTP error when the response
is not ok. -/
def fetchText (w : World) (url : Option JSString) : Except Err JSString :=
  match w.fetch url with
  | .error e => .error e
  | .ok r => if !r.ok then .error (.http r.status url) else .ok r.body

/-- Truthiness of `info.url`: an absent or empty url is falsy. -/
def urlPresent (url : Option JSString) : Bool :=
  match url with
  | none => false
  | some u => !u.isEmpty

/-- The expression `info.url || fallback`. -/
def urlOr (url : Option JSString) (fallback : JSString) : JSString :=
  if urlPresent url then url.getD [] else fallback

/-- What a call of `fetchHoldings` does: the arguments of its calls of `fetch`, in order, and
its result. -/
structure Outcome where
  fetched : List (Option JSString)
  result : Except Err (List Holding)

/-- The function `fetchHoldings`. -/
def fetchHoldings (w : World) (ticker : JSString) (info : Info) : Outcome :=
  let src := toLowerCase (info.source.getD [])
  if src = "ssga".toList ∨ src = "spdr".toList then
    let url := urlOr info.url (ssgaUrl ticker)
    { fetched := [some url],
      result := (fetchArrayBuffer w (some url)).bind (fun ab =>
        (w.xlsxToRows ab).bind (fun rows => pickTickerWeight rows)) }
  else if src = "invesco".toList then
    let url := urlOr info.url (invescoUrl w ticker)
    { fetched := [some url],
      result := (fetchArrayBuffer w (some url)).bind (fun ab =>
        (w.xlsxToRows ab).bind (fun rows => pickTickerWeight rows)) }
  else if src = "csv".toList then
    if !urlPresent info.url then { fetched := [], result := .error .csvUrlMissing }
    else
      { fetched := [info.url],
        result := (fetchText w info.url).bind (fun text => pickTickerWeight (csvToRows text)) }
  else if src = "ark".toList then
    { fetched := [info.url],
      result := (fetchText w info.url).bind (fun text => pickTickerWeight (csvToRows text)) }
  else { fetched := [], result := .error (.unknownSource src) }

/-! ## The run -/

/-- The manifest written to `index.json`. -/
structure Manifest where
  updatedAt : JSString
  tickers : List JSString

/-- State of the loop of `main`: the files written so far (name, content), in order, and the
list `ok`. -/
structure RunState where
  files : List (JSString × JSString)
  ok : List JSString

/-- One iteration of the loop of `main` when the write of the file succeeds: an error is
caught and logged, an empty result is skipped, otherwise the file is written and the ticker
pushed on `ok`. -/
def mainStep (w : World) (st : RunState) (entry : JSString × Info) : RunState :=
  match (fetchHoldings w entry.1 entry.2).result with
  | .error _ => st
  | .ok rows =>
    if rows.length = 0 then st
    else { files := st.files ++ [saveCSV entry.1 rows], ok := st.ok ++ [entry.1] }

/-- The function `main` on the configured `entries`, at time `now`, when every write
succeeds: the per-ticker files written and the manifest. -/
def main (w : World) (entries : List (JSString × Info)) (now : JSString) :
    List (JSString × JSString) × Manifest :=
  let st := entries.foldl (mainStep w) { files := [], ok := [] }
  (st.files, { updatedAt := now, tickers := st.ok })

/-! ## The run on a file system

In `main` the call of `saveCSV` stands inside the `try`: a write that throws is caught like an
error of `fetchHoldings`, and the ticker is not pushed on `ok`. -/

/-- The file system behind `fs`: whether `fs.mkdirSync` of the data directory succeeds,
whether `fs.writeFileSync` of a ticker file succeeds (given the name of the file inside the
data directory and its content), and whether `fs.writeFileSync` of `index.json` with the
serialised manifest succeeds. -/
structure FileSystem where
  mkdirSync : Except Err Unit
  writeFileSync : JSString → JSString → Except Err Unit
  writeManifest : Manifest → Except Err Unit

/-- The function `saveCSV` on a file system: the file written (name, content), or the error
thrown by `fs.writeFileSync`. -/
def saveCSVOn (fs : FileSystem) (ticker : JSString) (rows : List Holding) :
    Except Err (JSString × JSString) :=
  match fs.writeFileSync (saveCSV ticker rows).1 (saveCSV ticker rows).2 with
  | .error e => .error e
  | .ok _ => .ok (saveCSV ticker rows)

/-- One iteration of the loop of `main` on a file system: an error of `fetchHoldings` or of
`saveCSV` is caught and logged, an empty result is skipped, otherwise the file is written and
the ticker pushed on `ok`. -/
def mainStepOn (fs : FileSystem) (w : World) (st : RunState) (entry : JSString × Info) :
    RunState :=
  match (fetchHoldings w entry.1 entry.2).result with
  | .error _ => st
  | .ok rows =>
    if rows.length = 0 then st
    else
      match saveCSVOn fs entry.1 rows with
      | .error _ => st
      | .ok file => { files := st.files ++ [file], ok := st.ok ++ [entry.1] }

/-- The function `main` on a file system, on the `entries` in the order of the loop (that of
`Object.entries(cfg.tickers)`), at time `now`: the per-ticker files written and the manifest
written, or the error with which `main` rejects when the data directory or the manifest
cannot be written. -/
def mainOn (fs : FileSystem) (w : World) (entries : List (JSString × Info)) (now : JSString) :
    Except Err (List (JSString × JSString) × Manifest) :=
  match fs.mkdirSync with
  | .error e => .error e
  | .ok _ =>
    let st := entries.foldl (mainStepOn fs w) { files := [], ok := [] }
    match fs.writeManifest { updatedAt := now, tickers := st.ok } with
    | .error e => .error e
    | .ok _ => .ok (st.files, { updatedAt := now, tickers := st.ok })

/-! ## Specification vocabulary and auxiliary definitions -/

/-- Greedy iteration of a character class `p` before the continuation `k`, written as a
recursion on the remaining text: the longest run is tried first. -/
def starG (p : Char → Bool) (k : MState → Option MState) (cap : Option JSString) :
    Nat → JSString → Option MState
  | pos, [] => k ⟨pos, [], cap⟩
  | pos, x :: xs =>
    if p x then (starG p k cap (pos + 1) xs).orElse (fun _ => k ⟨pos, x :: xs, cap⟩)
    else k ⟨pos, x :: xs, cap⟩

/-- Lazy iteration of a character class `p` before the continuation `k`, written as a
recursion on the remaining text: the shortest run is tried first. -/
def starL (p : Char → Bool) (k : MState → Option MState) (cap : Option JSString) :
    Nat → JSString → Option MState
  | pos, [] => k ⟨pos, [], cap⟩
  | pos, x :: xs =>
    if p x then (k ⟨pos, x :: xs, cap⟩).orElse (fun _ => starL p k cap (pos + 1) xs)
    else k ⟨pos, x :: xs, cap⟩

/-- The text left after a literal prefix `w`, compared through `Re.canon`. -/
def litStrip (ic : Bool) : List Char → JSString → Option JSString
  | [], l => some l
  | _ :: _, [] => none
  | c :: cs, x :: xs => if Re.canon ic x = Re.canon ic c then litStrip ic cs xs else none

/-- Equality of two texts ignoring the case of the ASCII letters. -/
def eqIgnoreCase (a b : JSString) : Prop := toUpperCase a = toUpperCase b

instance (a b : JSString) : Decidable (eqIgnoreCase a b) :=
  inferInstanceAs (Decidable (toUpperCase a = toUpperCase b))

/-- The text is, ignoring letter case, one of the four symbol headers. -/
def isSymbolHeader (h : JSString) : Prop :=
  eqIgnoreCase h "ticker".toList ∨ eqIgnoreCase h "symbol".toList ∨
  eqIgnoreCase h "ticker symbol".toList ∨ eqIgnoreCase h "code".toList

instance (h : JSString) : Decidable (isSymbolHeader h) := by
  unfold isSymbolHeader; infer_instance

/-- Every character of the text is white space. -/
def allWhiteSpace (s : JSString) : Prop := ∀ c ∈ s, isWhiteSpace c = true

/-- No character of the text is a line terminator. -/
def noLineTerminator (s : JSString) : Prop := ∀ c ∈ s, isLineTerminator c = false

/-- The text is `weight` (ignoring letter case), then any characters other than line
terminators, then a final `%`. -/
def weightThenPercent (h : JSString) : Prop :=
  ∃ w mid, h = w ++ (mid ++ ['%']) ∧ eqIgnoreCase w "weight".toList ∧ noLineTerminator mid

/-- The text is an optional `%`, white space, `weight` (ignoring letter case), white space,
and a final `(%)`; either run of white space may be empty. -/
def weightParenPercent (h : JSString) : Prop :=
  ∃ p ws1 w ws2, h = p ++ (ws1 ++ (w ++ (ws2 ++ "(%)".toList))) ∧ (p = [] ∨ p = ['%']) ∧
    allWhiteSpace ws1 ∧ eqIgnoreCase w "weight".toList ∧ allWhiteSpace ws2

/-- The text contains `portfolio`, then white space (possibly none), then `weight`, ignoring
letter case. -/
def portfolioThenWeight (h : JSString) : Prop :=
  ∃ a p ws w b, h = a ++ (p ++ (ws ++ (w ++ b))) ∧ eqIgnoreCase p "portfolio".toList ∧
    allWhiteSpace ws ∧ eqIgnoreCase w "weight".toList

/-- The forms of header text accepted as weight header by the two weight patterns. -/
def isWeightHeader (h : JSString) : Prop :=
  weightThenPercent h ∨ weightParenPercent h ∨ eqIgnoreCase h "weight".toList ∨ portfolioThenWeight h

/-- The cell is absent, empty, or white space only. -/
def isBlankCell : Val → Bool
  | .undefined => true
  | .null => true
  | .num _ => false
  | .str s => s.all isWhiteSpace

/-- The record of one data row, for the resolved columns `t` and `w`. -/
def holdingOfRow (t w : Nat) : Row → Option Holding
  | none => none
  | some r =>
    if isBlankCell (cellAt r t) then none
    else some { Ticker := trim (cellAt r t).toStr, Weight := normalizeWeight (cellAt r w) }

/-- The fraction part of a numeral with a decimal point: nothing, or `.f`. -/
def dotFraction : Option JSString → JSString
  | none => []
  | some f => '.' :: f

/-- The digits of a numeral with a decimal point: `i` or `i.f`. -/
def dotDigits (i : JSString) (fo : Option JSString) : JSString := i ++ dotFraction fo

/-- The text of a numeral with a decimal point: an optional minus sign and the digits. -/
def dotNumeral (neg : Bool) (i : JSString) (fo : Option JSString) : JSString :=
  (if neg then ['-'] else []) ++ dotDigits i fo

/-- Shape of a numeral followed by text that does not continue it. -/
structure NumeralShape (i : JSString) (fo : Option JSString) (r : JSString) : Prop where
  int_ne : i ≠ []
  int_digits : ∀ c ∈ i, isDigit c = true
  frac_ok : ∀ f ∈ fo, f ≠ [] ∧ ∀ c ∈ f, isDigit c = true
  rest_head : ∀ c ∈ r.head?, isDigit c = false
  rest_dot : fo = none → ∀ c rest, r = '.' :: c :: rest → isDigit c = false

/-- The value of a numeral: the decimal `i.f`, negated under a minus sign. -/
def dotValue (neg : Bool) (i : JSString) (fo : Option JSString) : ℚ :=
  if neg then - decimalValue i (fo.getD []) else decimalValue i (fo.getD [])

/-- The fraction part of a numeral as written: nothing, or a separator and digits. -/
def fracText : Option (Char × JSString) → JSString
  | none => []
  | some (sep, f) => sep :: f

/-- The text of a decimal numeral: an optional minus sign, integer digits, and an optional
fraction part. -/
def numeralText (neg : Bool) (i : JSString) (frac : Option (Char × JSString)) : JSString :=
  (if neg then ['-'] else []) ++ (i ++ fracText frac)

/-- The number denoted by a decimal numeral. -/
def numeralValue (neg : Bool) (i : JSString) (frac : Option (Char × JSString)) : ℚ :=
  dotValue neg i (frac.map Prod.snd)

/-- The digits `i` and the optional fraction `frac` form a decimal numeral (digits, then
optionally `.` or `,` and digits) that is maximal before `trailing`: the trailing text
neither starts with a digit nor, when there is no fraction part yet, with a separator and a
digit. -/
structure LeadingNumeral (i : JSString) (frac : Option (Char × JSString))
    (trailing : JSString) : Prop where
  int_ne : i ≠ []
  int_digits : ∀ c ∈ i, isDigit c = true
  frac_ok : ∀ p ∈ frac, (p.1 = '.' ∨ p.1 = ',') ∧ p.2 ≠ [] ∧ ∀ c ∈ p.2, isDigit c = true
  no_digit_next : ∀ c ∈ trailing.head?, isDigit c = false
  no_fraction_next : frac = none → ∀ sep c rest, trailing = sep :: c :: rest →
    sep = '.' ∨ sep = ',' → isDigit c = false

/-- The "unknown" weight: the empty string. -/
def unknown : Val := .str []

/-- The value is a finite number lying in the interval [0, 1]. -/
def inUnitInterval (v : Val) : Prop := ∃ q : ℚ, v = .num (.fin q) ∧ 0 ≤ q ∧ q ≤ 1

/-- The weight-header forms as worded in the prose, read generously: the word "weight"
followed only by white space, percent signs and parentheses, or a text that contains
"portfolio weight"; letter case is ignored. -/
def proseWeightForm (h : JSString) : Bool :=
  (decide (eqIgnoreCase (h.take 6) "weight".toList) &&
    (h.drop 6).all (fun c => isWhiteSpace c || c = '%' || c = '(' || c = ')')) ||
  h.tails.any (fun t => decide (eqIgnoreCase (t.take 16) "portfolio weight".toList))

/-- The fetched text of the end-to-end scenario. -/
def scenarioText : JSString := "Ticker,Weight(%)\nAAA,5\nBBB,\n,10\n".toList

/-- The url of the end-to-end scenario. -/
def scenarioUrl : JSString := "http://x/h.csv".toList

/-- The configuration of the end-to-end scenario. -/
def scenarioConfig : List (JSString × Info) :=
  [("XYZ".toList, { source := some "csv".toList, url := some scenarioUrl })]

/-- The text that `saveCSV` writes for the records extracted from a delimited text. -/
def writtenText (ticker text : JSString) : Except Err JSString :=
  (pickTickerWeight (csvToRows text)).map (fun rows => (saveCSV ticker rows).2)

/-- A world whose every fetch answers 200 with the scenario text. -/
def scenarioWorld : World :=
  { fetch := fun _ => .ok { ok := true, status := 200, body := scenarioText },
    xlsxToRows := fun _ => .ok [],
    encodeURIComponent := fun t => t }

/-- The records that one configured entry contributes: those returned by `fetchHoldings` when
it returns normally with at least one record; nothing after an error or an empty result. -/
def savedRecords (w : World) (entry : JSString × Info) : Option (List Holding) :=
  match (fetchHoldings w entry.1 entry.2).result with
  | .error _ => none
  | .ok rows => if rows.length = 0 then none else some rows

/-- Processing the entry completes without raising an error. -/
def completes (w : World) (entry : JSString × Info) : Bool :=
  match (fetchHoldings w entry.1 entry.2).result with
  | .error _ => false
  | .ok _ => true

/-- A world whose every fetch answers 200 with a header line and no data row. -/
def headerOnlyWorld : World :=
  { fetch := fun _ => .ok { ok := true, status := 200, body := "Ticker,Weight\n".toList },
    xlsxToRows := fun _ => .ok [],
    encodeURIComponent := fun t => t }

/-- The source kinds that `fetchHoldings` recognises. -/
def knownSources : List JSString :=
  ["ssga".toList, "spdr".toList, "invesco".toList, "csv".toList, "ark".toList]

/-- The collaborators raise only errors of their own: a rejected fetch and an unreadable
workbook are external errors, never one of the errors thrown by the program itself. -/
def World.ownErrors (w : World) : Prop :=
  (∀ u e, w.fetch u = .error e → ∃ m, e = .external m) ∧
  (∀ b e, w.xlsxToRows b = .error e → ∃ m, e = .external m)

/-- A world whose fetch answers 200 with the scenario text at the scenario url and 404 to
every other request. -/
def notFoundWorld : World :=
  { fetch := fun u =>
      if u = some scenarioUrl then .ok { ok := true, status := 200, body := scenarioText }
      else .ok { ok := false, status := 404, body := [] },
    xlsxToRows := fun _ => .ok [],
    encodeURIComponent := fun t => t }

/-- A configured entry whose url the `notFoundWorld` answers with 404. -/
def missingEntry : JSString × Info :=
  ("BAD".toList, { source := some "csv".toList, url := some "http://x/missing.csv".toList })

/-- The text without its carriage returns. -/
def withoutCarriageReturns (text : JSString) : JSString := text.filter (fun c => c ≠ '\r')

/-- The non-empty lines of a text, a line ending at each line feed. -/
def nonEmptyLines (text : JSString) : List JSString :=
  (text.splitOn '\n').filter (fun l => !l.isEmpty)

/-- The cells of a row joined with commas; an absent row gives the empty text. -/
def rowText : Row → JSString
  | none => []
  | some cells => ",".toList.intercalate (cells.map Val.toStr)

/-- The weight field of an output line: the number as printed, or the empty text for
"unknown". -/
def weightField : Val → JSString
  | .num n => numToString n
  | _ => []

/-- The output line of a record: `symbol,weight`. -/
def recordLine (r : Holding) : JSString := r.Ticker ++ ',' :: weightField r.Weight

/-- The row is present and its cell in column `t` is not blank. -/
def hasSymbol (t : Nat) : Row → Bool
  | none => false
  | some cells => !isBlankCell (cellAt cells t)

/-- The rational is a double: rounding leaves it unchanged. -/
def isDouble (q : ℚ) : Prop := toDouble q = .fin q

instance (q : ℚ) : Decidable (isDouble q) := by
  unfold isDouble
  infer_instance

/-- The file that the run writes for a configured entry: the one of `saveCSV` when
`fetchHoldings` returns at least one record and the write succeeds; none when processing
raises an error, when there is no record, or when the write fails. -/
def updatedFile (fs : FileSystem) (w : World) (entry : JSString × Info) :
    Option (JSString × JSString) :=
  match savedRecords w entry with
  | none => none
  | some rows =>
    match saveCSVOn fs entry.1 rows with
    | .error _ => none
    | .ok file => some file

/-- A file system that accepts every write. -/
def acceptingFS : FileSystem :=
  { mkdirSync := .ok (), writeFileSync := fun _ _ => .ok (), writeManifest := fun _ => .ok () }

/-- A file system whose data directory has no sub-directory: writing a file whose name
contains a `/` fails, every other write succeeds. -/
def flatFS : FileSystem :=
  { mkdirSync := .ok (),
    writeFileSync := fun name _ => if '/' ∈ name then .error (.external "ENOENT".toList) else .ok (),
    writeManifest := fun _ => .ok () }

/-- A configuration of two tickers that fetch the scenario text: `BRK/B` and `XYZ`. -/
def slashConfig : List (JSString × Info) :=
  [("BRK/B".toList, { source := some "csv".toList, url := some scenarioUrl }),
   ("XYZ".toList, { source := some "csv".toList, url := some scenarioUrl })]

/-! ## Lemmas -/

theorem orElse_some' {α} (a : α) (f : Unit → Option α) : (some a).orElse f = some a := rfl

theorem orElse_none' {α} (f : Unit → Option α) : (none : Option α).orElse f = f () := rfl

theorem isSome_orElse' {α} (a : Option α) (f : Unit → Option α) :
    (a.orElse f).isSome = (a.isSome || (f ()).isSome) := by
  cases a <;> rfl

theorem loop_greedy_eq (p : Char → Bool) (k : MState → Option MState) (cap : Option JSString) :
    ∀ (fuel : Nat) (rest : JSString) (pos : Nat), rest.length ≤ fuel →
      Re.loop (Re.stepChar p) true fuel ⟨pos, rest, cap⟩ k = starG p k cap pos rest := by
  intro fuel
  induction fuel with
  | zero =>
    intro rest pos h
    have : rest = [] := List.length_eq_zero.mp (Nat.le_zero.mp h)
    subst this
    simp [Re.loop, starG]
  | succ n ih =>
    intro rest pos h
    cases rest with
    | nil => simp [Re.loop, starG, Re.stepChar]
    | cons x xs =>
      have hx : xs.length ≤ n := by simpa using h
      by_cases hp : p x = true
      · simp [Re.loop, starG, Re.stepChar, hp, ih xs (pos + 1) hx]
      · simp [Re.loop, starG, Re.stepChar, hp]

theorem loop_lazy_eq (p : Char → Bool) (k : MState → Option MState) (cap : Option JSString) :
    ∀ (fuel : Nat) (rest : JSString) (pos : Nat), rest.length ≤ fuel →
      Re.loop (Re.stepChar p) false fuel ⟨pos, rest, cap⟩ k = starL p k cap pos rest := by
  intro fuel
  induction fuel with
  | zero =>
    intro rest pos h
    have : rest = [] := List.length_eq_zero.mp (Nat.le_zero.mp h)
    subst this
    simp [Re.loop, starL]
  | succ n ih =>
    intro rest pos h
    cases rest with
    | nil => simp [Re.loop, starL, Re.stepChar]
    | cons x xs =>
      have hx : xs.length ≤ n := by simpa using h
      by_cases hp : p x = true
      · simp [Re.loop, starL, Re.stepChar, hp, ih xs (pos + 1) hx]
      · simp [Re.loop, starL, Re.stepChar, hp]

theorem run_lit_aux (ic : Bool) (k : MState → Option MState) (cap : Option JSString) :
    ∀ (w : List Char) (pos : Nat) (l : JSString),
      Re.run ic (Re.lit w) ⟨pos, l, cap⟩ k =
        (litStrip ic w l).bind (fun r => k ⟨pos + w.length, r, cap⟩) := by
  intro w
  induction w with
  | nil => intro pos l; simp [Re.lit, Re.run, litStrip]
  | cons c cs ih =>
    intro pos l
    cases cs with
    | nil =>
      cases l with
      | nil => simp [Re.lit, Re.run, litStrip, Re.stepChar]
      | cons x xs =>
        by_cases h : Re.canon ic x = Re.canon ic c
        · simp [Re.lit, Re.run, litStrip, Re.stepChar, h]
        · simp [Re.lit, Re.run, litStrip, Re.stepChar, h]
    | cons d ds =>
      cases l with
      | nil => simp [Re.lit, Re.run, litStrip, Re.stepChar]
      | cons x xs =>
        by_cases h : Re.canon ic x = Re.canon ic c
        · simp only [Re.lit, Re.run, Re.stepChar, h, litStrip, if_true, decide_True]
          rw [ih (pos + 1) xs]
          simp only [List.length_cons]
          cases litStrip ic (d :: ds) xs with
          | none => rfl
          | some r => simp [Nat.add_assoc, Nat.add_comm]
        · simp [Re.lit, Re.run, litStrip, Re.stepChar, h]

theorem run_lit (ic : Bool) (w : List Char) (s : MState) (k : MState → Option MState) :
    Re.run ic (Re.lit w) s k =
      (litStrip ic w s.rest).bind (fun r => k ⟨s.pos + w.length, r, s.cap⟩) :=
  run_lit_aux ic k s.cap w s.pos s.rest

theorem litStrip_eq_some (ic : Bool) :
    ∀ (w : List Char) (l r : JSString),
      litStrip ic w l = some r ↔
        ∃ a, l = a ++ r ∧ a.map (Re.canon ic) = w.map (Re.canon ic) := by
  intro w
  induction w with
  | nil =>
    intro l r
    simp [litStrip]
  | cons c cs ih =>
    intro l r
    cases l with
    | nil =>
      simp [litStrip]
    | cons x xs =>
      simp only [litStrip]
      constructor
      · intro h
        split at h
        · rename_i hc
          obtain ⟨a, ha, hm⟩ := (ih xs r).mp h
          exact ⟨x :: a, by simp [ha], by simp [hm, hc]⟩
        · cases h
      · rintro ⟨a, ha, hm⟩
        cases a with
        | nil => simp at hm
        | cons y ys =>
          simp at ha hm
          obtain ⟨rfl, hxs⟩ := ha
          rw [if_pos hm.1]
          exact (ih xs r).mpr ⟨ys, hxs, hm.2⟩

theorem starG_isSome (p : Char → Bool) (k : MState → Option MState) (cap : Option JSString) :
    ∀ (rest : JSString) (pos : Nat),
      (starG p k cap pos rest).isSome = true ↔
        ∃ a b, rest = a ++ b ∧ (∀ c ∈ a, p c = true) ∧
          (k ⟨pos + a.length, b, cap⟩).isSome = true := by
  intro rest
  induction rest with
  | nil =>
    intro pos
    simp only [starG]
    constructor
    · intro h
      exact ⟨[], [], rfl, by simp, by simpa using h⟩
    · rintro ⟨a, b, hab, -, hk⟩
      obtain ⟨rfl, rfl⟩ := List.append_eq_nil.mp hab.symm
      simpa using hk
  | cons x xs ih =>
    intro pos
    simp only [starG]
    by_cases hp : p x = true
    · rw [if_pos hp, isSome_orElse', Bool.or_eq_true, ih (pos + 1)]
      constructor
      · rintro (⟨a, b, hab, ha, hk⟩ | hk)
        · refine ⟨x :: a, b, by simp [hab], ?_, ?_⟩
          · intro c hc
            rcases List.mem_cons.mp hc with rfl | hc
            · exact hp
            · exact ha c hc
          · simpa [Nat.add_assoc, Nat.add_comm 1] using hk
        · exact ⟨[], x :: xs, rfl, by simp, by simpa using hk⟩
      · rintro ⟨a, b, hab, ha, hk⟩
        cases a with
        | nil =>
          right
          simp at hab
          subst hab
          simpa using hk
        | cons y ys =>
          left
          simp at hab
          refine ⟨ys, b, hab.2, fun c hc => ha c (List.mem_cons_of_mem _ hc), ?_⟩
          simpa [Nat.add_assoc, Nat.add_comm 1] using hk
    · rw [if_neg hp]
      constructor
      · intro hk
        exact ⟨[], x :: xs, rfl, by simp, by simpa using hk⟩
      · rintro ⟨a, b, hab, ha, hk⟩
        cases a with
        | nil =>
          simp at hab
          subst hab
          simpa using hk
        | cons y ys =>
          simp at hab
          exact absurd (ha y (List.mem_cons_self _ _)) (by rw [← hab.1]; exact hp)

theorem execFrom_isSome (r : RegExp) :
    ∀ (s : JSString) (pos : Nat),
      (r.execFrom pos s).isSome = true ↔
        ∃ a b, s = a ++ b ∧
          (Re.run r.ignoreCase r.re ⟨pos + a.length, b, none⟩ some).isSome = true := by
  intro s
  induction s with
  | nil =>
    intro pos
    rw [RegExp.execFrom]
    constructor
    · intro h
      refine ⟨[], [], rfl, ?_⟩
      cases hr : Re.run r.ignoreCase r.re ⟨pos, [], none⟩ some with
      | none => simp [hr] at h
      | some m => simp [hr]
    · rintro ⟨a, b, hab, hk⟩
      obtain ⟨rfl, rfl⟩ := List.append_eq_nil.mp hab.symm
      cases hr : Re.run r.ignoreCase r.re ⟨pos, [], none⟩ some with
      | none => simp [hr] at hk
      | some m => simp
  | cons x xs ih =>
    intro pos
    rw [RegExp.execFrom]
    cases hr : Re.run r.ignoreCase r.re ⟨pos, x :: xs, none⟩ some with
    | some m =>
      simp only [Option.isSome_some, true_iff]
      exact ⟨[], x :: xs, rfl, by simp [hr]⟩
    | none =>
      simp only
      rw [ih (pos + 1)]
      constructor
      · rintro ⟨a, b, hab, hk⟩
        exact ⟨x :: a, b, by simp [hab], by simpa [Nat.add_assoc, Nat.add_comm 1] using hk⟩
      · rintro ⟨a, b, hab, hk⟩
        cases a with
        | nil =>
          simp at hab
          subst hab
          simp [hr] at hk
        | cons y ys =>
          simp at hab
          exact ⟨ys, b, hab.2, by simpa [Nat.add_assoc, Nat.add_comm 1] using hk⟩

theorem test_iff (r : RegExp) (s : JSString) :
    r.test s = true ↔
      ∃ a b, s = a ++ b ∧
        (Re.run r.ignoreCase r.re ⟨a.length, b, none⟩ some).isSome = true := by
  unfold RegExp.test
  rw [execFrom_isSome]
  simp

theorem litStrip_eq_some_nil (w h : JSString) :
    litStrip true w h = some [] ↔ eqIgnoreCase h w := by
  rw [litStrip_eq_some]
  unfold eqIgnoreCase toUpperCase Re.canon
  simp

theorem run_seq (ic : Bool) (a b : Re) (s : MState) (k : MState → Option MState) :
    Re.run ic (.seq a b) s k = Re.run ic a s (fun s' => Re.run ic b s' k) := rfl

theorem run_alt (ic : Bool) (a b : Re) (s : MState) (k : MState → Option MState) :
    Re.run ic (.alt a b) s k = (Re.run ic a s k).orElse (fun _ => Re.run ic b s k) := rfl

theorem run_opt (ic : Bool) (a : Re) (s : MState) (k : MState → Option MState) :
    Re.run ic (.opt a) s k = (Re.run ic a s k).orElse (fun _ => k s) := rfl

theorem run_group (ic : Bool) (a : Re) (s : MState) (k : MState → Option MState) :
    Re.run ic (.group a) s k = Re.run ic a s (fun s' =>
      k { s' with cap := some (s.rest.take (s.rest.length - s'.rest.length)) }) := rfl

theorem run_bol (ic : Bool) (s : MState) (k : MState → Option MState) :
    Re.run ic .bol s k = if s.pos = 0 then k s else none := rfl

theorem run_eol (ic : Bool) (s : MState) (k : MState → Option MState) :
    Re.run ic .eol s k = if s.rest.isEmpty then k s else none := rfl

theorem run_chr (ic : Bool) (c : Char) (s : MState) (k : MState → Option MState) :
    Re.run ic (.chr c) s k = Re.stepChar (fun x => Re.canon ic x = Re.canon ic c) s k := rfl

theorem run_star_dot (ic : Bool) (s : MState) (k : MState → Option MState) :
    Re.run ic (.star .dot) s k =
      starG (fun x => !isLineTerminator x) k s.cap s.pos s.rest :=
  loop_greedy_eq _ k s.cap s.rest.length s.rest s.pos (Nat.le_refl _)

theorem run_star_digit (ic : Bool) (s : MState) (k : MState → Option MState) :
    Re.run ic (.star .digit) s k = starG isDigit k s.cap s.pos s.rest :=
  loop_greedy_eq _ k s.cap s.rest.length s.rest s.pos (Nat.le_refl _)

theorem run_star_space (ic : Bool) (s : MState) (k : MState → Option MState) :
    Re.run ic (.star .space) s k = starG isWhiteSpace k s.cap s.pos s.rest :=
  loop_greedy_eq _ k s.cap s.rest.length s.rest s.pos (Nat.le_refl _)

theorem run_lazyStar_dot (ic : Bool) (s : MState) (k : MState → Option MState) :
    Re.run ic (.lazyStar .dot) s k =
      starL (fun x => !isLineTerminator x) k s.cap s.pos s.rest :=
  loop_lazy_eq _ k s.cap s.rest.length s.rest s.pos (Nat.le_refl _)

theorem run_digit (ic : Bool) (s : MState) (k : MState → Option MState) :
    Re.run ic .digit s k = Re.stepChar isDigit s k := rfl

theorem bind_isSome {α β} (o : Option α) (f : α → Option β) :
    (o.bind f).isSome = true ↔ ∃ r, o = some r ∧ (f r).isSome = true := by
  cases o <;> simp

theorem ite_none_isSome {α} (c : Prop) [Decidable c] (o : Option α) :
    (if c then o else none).isSome = true ↔ c ∧ o.isSome = true := by
  by_cases h : c <;> simp [h]

theorem stepChar_isSome (p : Char → Bool) (s : MState) (k : MState → Option MState) :
    (Re.stepChar p s k).isSome = true ↔
      ∃ x xs, s.rest = x :: xs ∧ p x = true ∧ (k ⟨s.pos + 1, xs, s.cap⟩).isSome = true := by
  unfold Re.stepChar
  cases h : s.rest with
  | nil => simp
  | cons x xs =>
    by_cases hp : p x = true
    · simp only [hp, if_true]
      constructor
      · intro hk
        exact ⟨x, xs, rfl, hp, hk⟩
      · rintro ⟨y, ys, hy, -, hk⟩
        obtain ⟨rfl, rfl⟩ := List.cons.inj hy
        exact hk
    · simp only [hp]
      constructor
      · intro hk
        simp at hk
      · rintro ⟨y, ys, hy, hpy, -⟩
        obtain ⟨rfl, rfl⟩ := List.cons.inj hy
        exact absurd hpy hp

theorem lit_eol_isSome (w h : JSString) (f : JSString → MState) :
    ((litStrip true w h).bind (fun r => if r.isEmpty then some (f r) else none)).isSome = true ↔
      eqIgnoreCase h w := by
  rw [← litStrip_eq_some_nil]
  cases hl : litStrip true w h with
  | none => simp
  | some r =>
    cases r with
    | nil => simp
    | cons x xs => simp

theorem symbolHeaderRe_test (h : JSString) :
    symbolHeaderRe.test h = true ↔ isSymbolHeader h := by
  rw [test_iff]
  simp only [symbolHeaderRe, run_seq, run_alt, run_group, run_bol, run_eol, run_lit]
  constructor
  · rintro ⟨a, b, hab, hk⟩
    split at hk
    · rename_i h0
      have ha : a = [] := List.length_eq_zero.mp h0
      subst ha
      simp only [List.nil_append] at hab
      subst hab
      simpa only [isSome_orElse', Bool.or_eq_true, lit_eol_isSome] using hk
    · simp at hk
  · intro hs
    refine ⟨[], h, rfl, ?_⟩
    rw [if_pos List.length_nil]
    simpa only [isSome_orElse', Bool.or_eq_true, lit_eol_isSome] using hs

theorem findHeaderFrom_eq_some (patterns : List RegExp) (P : JSString → Prop)
    (hP : ∀ h, patterns.any (fun re => re.test h) = true ↔ P h) :
    ∀ (hdr : List JSString) (start i : Nat),
      findHeaderFrom patterns start hdr = some i ↔
        ∃ j, i = start + j ∧ (∃ h, hdr[j]? = some h ∧ P h) ∧
          ∀ j' h', j' < j → hdr[j']? = some h' → ¬ P h' := by
  intro hdr
  induction hdr with
  | nil => intro start i; simp [findHeaderFrom]
  | cons h t ih =>
    intro start i
    rw [findHeaderFrom]
    by_cases hh : P h
    · rw [if_pos ((hP h).mpr hh)]
      constructor
      · intro e
        refine ⟨0, by simpa using (Option.some.inj e).symm, ⟨h, by simp, hh⟩, ?_⟩
        intro j' h' hj
        omega
      · rintro ⟨j, hi, -, hmin⟩
        cases j with
        | zero => simp [hi]
        | succ j => exact absurd hh (hmin 0 h (Nat.succ_pos _) (by simp))
    · rw [if_neg (fun c => hh ((hP h).mp c)), ih (start + 1) i]
      constructor
      · rintro ⟨j, hi, ⟨x, hx, hPx⟩, hmin⟩
        refine ⟨j + 1, by omega, ⟨x, by simpa using hx, hPx⟩, ?_⟩
        intro j' h' hj hj'
        cases j' with
        | zero =>
          simp at hj'
          subst hj'
          exact hh
        | succ j' => exact hmin j' h' (by omega) (by simpa using hj')
      · rintro ⟨j, hi, ⟨x, hx, hPx⟩, hmin⟩
        cases j with
        | zero =>
          simp at hx
          subst hx
          exact absurd hPx hh
        | succ j =>
          refine ⟨j, by omega, ⟨x, by simpa using hx, hPx⟩, ?_⟩
          intro j' h' hj hj'
          exact hmin (j' + 1) h' (by omega) (by simpa using hj')

theorem findHeaderFrom_eq_none (patterns : List RegExp) (P : JSString → Prop)
    (hP : ∀ h, patterns.any (fun re => re.test h) = true ↔ P h) :
    ∀ (hdr : List JSString) (start : Nat),
      findHeaderFrom patterns start hdr = none ↔ ∀ h ∈ hdr, ¬ P h := by
  intro hdr
  induction hdr with
  | nil => intro start; simp [findHeaderFrom]
  | cons h t ih =>
    intro start
    rw [findHeaderFrom]
    by_cases hh : P h
    · rw [if_pos ((hP h).mpr hh)]
      simp [hh]
    · rw [if_neg (fun c => hh ((hP h).mp c)), ih (start + 1)]
      simp [hh]

theorem isSymbolHeader_orEmpty (x : Val) :
    isSymbolHeader (trim x.orEmpty.toStr) ↔ isSymbolHeader (trim x.toStr) := by
  cases x with
  | undefined => decide
  | null => decide
  | num n =>
    cases n with
    | fin q =>
      by_cases hq : q = 0
      · subst hq
        have h1 : (Val.num (JSNum.fin 0)).orEmpty.toStr = [] := by
          simp [Val.orEmpty, Val.truthy, Val.toStr]
        have h2 : (Val.num (JSNum.fin 0)).toStr = "0".toList := by
          simp [Val.toStr, numToString]
        rw [h1, h2]
        decide
      · simp [Val.orEmpty, Val.truthy, hq]
    | nan => decide
    | posInf => decide
    | negInf => decide
  | str s =>
    cases s with
    | nil => decide
    | cons c cs => simp [Val.orEmpty, Val.truthy]

theorem toUpper_eq_of_lt (x c : Char) (hc : c.toNat < 65) : x.toUpper = c ↔ x = c := by
  constructor
  · intro h
    by_cases hl : 97 ≤ x.toNat ∧ x.toNat ≤ 122
    · exfalso
      have hx : x = Char.ofNat x.toNat := (Char.ofNat_toNat x).symm
      obtain ⟨h1, h2⟩ := hl
      generalize x.toNat = n at hx h1 h2
      subst hx
      rw [← h] at hc
      revert hc
      interval_cases n <;> decide
    · have : x.toUpper = x := by
        unfold Char.toUpper
        simp only [ge_iff_le]
        rw [if_neg hl]
      rw [this] at h
      exact h
  · rintro rfl
    have hl : ¬ (97 ≤ x.toNat ∧ x.toNat ≤ 122) := by omega
    unfold Char.toUpper
    simp only [ge_iff_le]
    rw [if_neg hl]

theorem canon_eq_of_lt (x c : Char) (hc : c.toNat < 65) :
    Re.canon true x = Re.canon true c ↔ x = c := by
  have h1 : Re.canon true c = c := by
    simp only [Re.canon, if_true]
    exact (toUpper_eq_of_lt c c hc).mpr rfl
  rw [h1]
  simp only [Re.canon, if_true]
  exact toUpper_eq_of_lt x c hc

theorem map_canon_iff (a w : JSString) :
    List.map (Re.canon true) a = List.map (Re.canon true) w ↔ eqIgnoreCase a w := by
  unfold eqIgnoreCase toUpperCase Re.canon
  simp

theorem weightPercentRe_isSome (n : Nat) (h : JSString) :
    (Re.run true weightPercentRe ⟨n, h, none⟩ some).isSome = true ↔ n = 0 ∧ weightThenPercent h := by
  simp only [weightPercentRe, run_seq, run_chr, run_bol, run_eol, run_lit,
    run_star_dot, ite_none_isSome,
    bind_isSome, starG_isSome, stepChar_isSome, litStrip_eq_some, map_canon_iff,
    decide_eq_true_eq, canon_eq_of_lt _ '%' (by decide), Option.isSome_some, and_true,
    List.isEmpty_iff, Bool.not_eq_true', weightThenPercent]
  constructor
  · rintro ⟨h0, r, ⟨w, rfl, hw⟩, mid, b, rfl, hmid, x, xs, rfl, rfl, rfl⟩
    exact ⟨h0, w, mid, rfl, hw, hmid⟩
  · rintro ⟨h0, w, mid, rfl, hw, hmid⟩
    exact ⟨h0, _, ⟨w, rfl, hw⟩, mid, _, rfl, hmid, '%', [], rfl, rfl, rfl⟩

theorem eqIgnoreCase_paren (a : JSString) :
    eqIgnoreCase a "(%)".toList ↔ a = "(%)".toList := by
  have e : toUpperCase "(%)".toList = ['(', '%', ')'] := by decide
  unfold eqIgnoreCase
  rw [e]
  unfold toUpperCase
  constructor
  · intro h
    match a, h with
    | [], h => simp at h
    | [_], h => simp at h
    | [_, _], h => simp at h
    | [x, y, z], h =>
      simp only [List.map_cons, List.map_nil, List.cons.injEq, and_true] at h
      rw [toUpper_eq_of_lt x _ (by decide), toUpper_eq_of_lt y _ (by decide),
        toUpper_eq_of_lt z _ (by decide)] at h
      obtain ⟨rfl, rfl, rfl⟩ := h
      rfl
    | _ :: _ :: _ :: _ :: _, h => simp at h
  · rintro rfl
    decide

theorem weightParenRe_isSome (n : Nat) (h : JSString) :
    (Re.run true weightParenRe ⟨n, h, none⟩ some).isSome = true ↔ n = 0 ∧ weightParenPercent h := by
  simp only [weightParenRe, run_seq, run_chr, run_opt, run_bol, run_eol, run_lit,
    run_star_space, ite_none_isSome, isSome_orElse', Bool.or_eq_true,
    bind_isSome, starG_isSome, stepChar_isSome, litStrip_eq_some, map_canon_iff,
    decide_eq_true_eq, canon_eq_of_lt _ '%' (by decide), Option.isSome_some, and_true,
    List.isEmpty_iff, weightParenPercent, eqIgnoreCase_paren]
  constructor
  · rintro ⟨h0, hh⟩
    refine ⟨h0, ?_⟩
    rcases hh with ⟨x, xs, rfl, rfl, ws1, b, rfl, hws1, r, ⟨w, rfl, hw⟩, ws2, b2, rfl, hws2,
        r2, ⟨t, rfl, rfl⟩, rfl⟩ |
      ⟨ws1, b, rfl, hws1, r, ⟨w, rfl, hw⟩, ws2, b2, rfl, hws2, r2, ⟨t, rfl, rfl⟩, rfl⟩
    · exact ⟨['%'], ws1, w, ws2, by simp, Or.inr rfl, hws1, hw, hws2⟩
    · exact ⟨[], ws1, w, ws2, by simp, Or.inl rfl, hws1, hw, hws2⟩
  · rintro ⟨h0, p, ws1, w, ws2, rfl, hp, hws1, hw, hws2⟩
    refine ⟨h0, ?_⟩
    rcases hp with rfl | rfl
    · right
      exact ⟨ws1, _, rfl, hws1, _, ⟨w, rfl, hw⟩, ws2, _, rfl, hws2, [], ⟨_, by simp, rfl⟩, rfl⟩
    · left
      exact ⟨'%', _, rfl, rfl, ws1, _, rfl, hws1, _, ⟨w, rfl, hw⟩, ws2, _, rfl, hws2, [],
        ⟨_, by simp, rfl⟩, rfl⟩

theorem weightOnlyRe_isSome (n : Nat) (h : JSString) :
    (Re.run true weightOnlyRe ⟨n, h, none⟩ some).isSome = true ↔
      n = 0 ∧ eqIgnoreCase h "weight".toList := by
  simp only [weightOnlyRe, run_seq, run_bol, run_eol, run_lit, ite_none_isSome,
    bind_isSome, litStrip_eq_some, map_canon_iff, Option.isSome_some, and_true,
    List.isEmpty_iff]
  constructor
  · rintro ⟨h0, r, ⟨w, rfl, hw⟩, rfl⟩
    exact ⟨h0, by simpa using hw⟩
  · rintro ⟨h0, hw⟩
    exact ⟨h0, [], ⟨h, by simp, hw⟩, rfl⟩

theorem portfolioWeightRe_test (h : JSString) :
    portfolioWeightRe.test h = true ↔ portfolioThenWeight h := by
  rw [test_iff]
  simp only [portfolioWeightRe, run_seq, run_lit, run_star_space,
    bind_isSome, starG_isSome, litStrip_eq_some, map_canon_iff, Option.isSome_some, and_true,
    portfolioThenWeight]
  constructor
  · rintro ⟨a, b, rfl, r, ⟨p, rfl, hp⟩, ws, b2, rfl, hws, r2, ⟨w, rfl, hw⟩⟩
    exact ⟨a, p, ws, w, r2, rfl, hp, hws, hw⟩
  · rintro ⟨a, p, ws, w, b, rfl, hp, hws, hw⟩
    exact ⟨a, _, rfl, _, ⟨p, rfl, hp⟩, ws, _, rfl, hws, b, ⟨w, rfl, hw⟩⟩

theorem weightHeaderRe_test (h : JSString) :
    weightHeaderRe.test h = true ↔
      weightThenPercent h ∨ weightParenPercent h ∨ eqIgnoreCase h "weight".toList := by
  rw [test_iff]
  simp only [weightHeaderRe, run_alt, isSome_orElse', Bool.or_eq_true, weightPercentRe_isSome,
    weightParenRe_isSome, weightOnlyRe_isSome]
  constructor
  · rintro ⟨a, b, rfl, hh⟩
    have ha : a = [] → a ++ b = b := by rintro rfl; rfl
    rcases hh with ⟨h0, hf⟩ | ⟨h0, hf⟩ | ⟨h0, hf⟩
    · rw [ha (List.length_eq_zero.mp h0)]; exact Or.inl hf
    · rw [ha (List.length_eq_zero.mp h0)]; exact Or.inr (Or.inl hf)
    · rw [ha (List.length_eq_zero.mp h0)]; exact Or.inr (Or.inr hf)
  · intro hh
    refine ⟨[], h, rfl, ?_⟩
    rcases hh with hf | hf | hf
    · exact Or.inl ⟨rfl, hf⟩
    · exact Or.inr (Or.inl ⟨rfl, hf⟩)
    · exact Or.inr (Or.inr ⟨rfl, hf⟩)

theorem weightPatterns_any (h : JSString) :
    [weightHeaderRe, portfolioWeightRe].any (fun re => re.test h) = true ↔ isWeightHeader h := by
  simp only [List.any_cons, List.any_nil, Bool.or_false, Bool.or_eq_true, weightHeaderRe_test,
    portfolioWeightRe_test, isWeightHeader, or_assoc]

theorem trim_eq_nil_iff (s : JSString) : trim s = [] ↔ ∀ c ∈ s, isWhiteSpace c = true := by
  unfold trim trimEnd trimStart
  rw [List.reverse_eq_nil_iff, List.dropWhile_eq_nil_iff]
  constructor
  · intro h
    have h2 : List.dropWhile isWhiteSpace s = [] := by
      cases hd : List.dropWhile isWhiteSpace s with
      | nil => rfl
      | cons x xs =>
        exfalso
        have hx : isWhiteSpace x = true := h x (by rw [hd]; simp)
        have hne : List.dropWhile isWhiteSpace s ≠ [] := by rw [hd]; simp
        have := List.head_dropWhile_not isWhiteSpace s hne
        simp [hd] at this
        rw [this] at hx
        exact Bool.noConfusion hx
    exact List.dropWhile_eq_nil_iff.mp h2
  · intro h
    rw [List.dropWhile_eq_nil_iff.mpr h]
    simp

theorem digitChar_not_ws (k : Nat) (hk : k < 10) : isWhiteSpace (Nat.digitChar k) = false := by
  interval_cases k <;> decide

theorem toDigitsCore_not_ws :
    ∀ (fuel n : Nat) (ds : List Char), (∀ c ∈ ds, isWhiteSpace c = false) →
      ∀ c ∈ Nat.toDigitsCore 10 fuel n ds, isWhiteSpace c = false := by
  intro fuel
  induction fuel with
  | zero => intro n ds h; simpa [Nat.toDigitsCore] using h
  | succ f ih =>
    intro n ds h
    have h' : ∀ c ∈ Nat.digitChar (n % 10) :: ds, isWhiteSpace c = false := by
      intro c hc
      rcases List.mem_cons.mp hc with rfl | hc
      · exact digitChar_not_ws _ (Nat.mod_lt _ (by decide))
      · exact h c hc
    simp only [Nat.toDigitsCore]
    split_ifs
    · exact h'
    · exact ih _ _ h'

theorem natDigits_not_ws (m : Nat) : ∀ c ∈ natDigits m, isWhiteSpace c = false :=
  toDigitsCore_not_ws _ _ [] (by simp)

theorem stripTrailingZeros_subset (ds : JSString) : ∀ c ∈ stripTrailingZeros ds, c ∈ ds := by
  intro c hc
  unfold stripTrailingZeros at hc
  rw [List.mem_reverse] at hc
  exact List.mem_reverse.mp ((List.dropWhile_sublist _).subset hc)

theorem significantDigits_spec (m : Nat) :
    significantDigits m ≠ [] ∧ ∀ c ∈ significantDigits m, isWhiteSpace c = false := by
  unfold significantDigits
  have hn := natDigits_not_ws m
  cases hd : natDigits m with
  | nil => exact ⟨by simp, by decide⟩
  | cons d ds =>
    rw [hd] at hn
    refine ⟨by simp, ?_⟩
    intro c hc
    rcases List.mem_cons.mp hc with rfl | hc
    · exact hn _ (List.mem_cons_self _ _)
    · exact hn c (List.mem_cons_of_mem _ (stripTrailingZeros_subset ds c hc))

theorem formatDigits_not_blank (ds : JSString) (n : Int) (hne : ds ≠ [])
    (hds : ∀ c ∈ ds, isWhiteSpace c = false) :
    ∃ c ∈ formatDigits ds n, isWhiteSpace c = false := by
  obtain ⟨d, ds', rfl⟩ := List.exists_cons_of_ne_nil hne
  unfold formatDigits
  simp only
  split_ifs
  all_goals first
    | (refine ⟨'.', ?_, by decide⟩; simp; done)
    | (refine ⟨'e', ?_, by decide⟩; simp; done)
    | (refine ⟨'0', ?_, by decide⟩; simp; done)
    | (refine ⟨d, ?_, hds d (List.mem_cons_self _ _)⟩; simp)

theorem numToString_not_blank (n : JSNum) : ∃ c ∈ numToString n, isWhiteSpace c = false := by
  cases n with
  | nan => exact ⟨'N', by decide, by decide⟩
  | posInf => exact ⟨'I', by decide, by decide⟩
  | negInf => exact ⟨'I', by decide, by decide⟩
  | fin q =>
    simp only [numToString]
    split_ifs
    · exact ⟨'0', by decide, by decide⟩
    · exact ⟨'-', by simp, by decide⟩
    · unfold posToString
      exact formatDigits_not_blank _ _ (significantDigits_spec _).1 (significantDigits_spec _).2

theorem trim_numToString_ne_nil (n : JSNum) : trim (numToString n) ≠ [] := by
  intro h
  obtain ⟨c, hc, hw⟩ := numToString_not_blank n
  have := (trim_eq_nil_iff _).mp h c hc
  rw [this] at hw
  exact Bool.noConfusion hw

theorem tick_isEmpty (x : Val) : (trim x.coalesceEmpty.toStr).isEmpty = isBlankCell x := by
  cases x with
  | undefined => decide
  | null => decide
  | num n =>
    simp only [Val.coalesceEmpty, Val.toStr, isBlankCell]
    rw [List.isEmpty_eq_false.mpr (trim_numToString_ne_nil n)]
  | str s =>
    simp only [Val.coalesceEmpty, Val.toStr, isBlankCell]
    by_cases h : trim s = []
    · rw [h]
      exact (List.all_eq_true.mpr ((trim_eq_nil_iff s).mp h)).symm
    · rw [List.isEmpty_eq_false.mpr h]
      symm
      rw [Bool.eq_false_iff]
      intro hall
      exact h ((trim_eq_nil_iff s).mpr (List.all_eq_true.mp hall))

theorem tick_eq (x : Val) (h : isBlankCell x = false) :
    trim x.coalesceEmpty.toStr = trim x.toStr := by
  cases x with
  | undefined => exact absurd h (by decide)
  | null => exact absurd h (by decide)
  | num n => rfl
  | str s => rfl

theorem pickRows_eq (rows : List Row) (t w : Nat) :
    ∀ (fuel i : Nat) (out : List Holding),
      pickRows rows t w fuel i out =
        out ++ ((rows.drop i).take fuel).filterMap (holdingOfRow t w) := by
  intro fuel
  induction fuel with
  | zero => intro i out; simp [pickRows]
  | succ f ih =>
    intro i out
    rw [pickRows]
    by_cases hi : i < rows.length
    · have hd : rows.drop i = rows[i] :: rows.drop (i + 1) := List.drop_eq_getElem_cons hi
      have hg : rows.getD i none = rows[i] := by
        simp [List.getD_eq_getElem?_getD, List.getElem?_eq_getElem hi]
      rw [hg, hd, List.take_succ_cons, List.filterMap_cons]
      cases hr : rows[i] with
      | none =>
        simp only [holdingOfRow]
        exact ih _ _
      | some r =>
        simp only [holdingOfRow, tick_isEmpty]
        by_cases hb : isBlankCell (cellAt r t) = true
        · simp only [hb, if_true]
          exact ih _ _
        · have hb' : isBlankCell (cellAt r t) = false := by simpa using hb
          simp only [hb', Bool.false_eq_true, if_false]
          rw [ih, tick_eq _ hb']
          simp
    · have hd : rows.drop i = [] := List.drop_eq_nil_of_le (by omega)
      have hd' : rows.drop (i + 1) = [] := List.drop_eq_nil_of_le (by omega)
      have hg : rows.getD i none = none := by
        simp [List.getD_eq_getElem?_getD, List.getElem?_eq_none (by omega : rows.length ≤ i)]
      rw [hg]
      simp only
      rw [ih, hd, hd']
      simp

theorem starL_of_isSome (p : Char → Bool) (k : MState → Option MState) (cap : Option JSString)
    (pos : Nat) (rest : JSString) (h : (k ⟨pos, rest, cap⟩).isSome = true) :
    starL p k cap pos rest = k ⟨pos, rest, cap⟩ := by
  cases rest with
  | nil => rfl
  | cons x xs =>
    simp only [starL]
    split_ifs
    · obtain ⟨m, hm⟩ := Option.isSome_iff_exists.mp h
      rw [hm]
      rfl
    · rfl

theorem starG_append (p : Char → Bool) (k : MState → Option MState) (cap : Option JSString) :
    ∀ (a r : JSString) (pos : Nat), (∀ c ∈ a, p c = true) → (∀ c ∈ r.head?, p c = false) →
      (k ⟨pos + a.length, r, cap⟩).isSome = true →
      starG p k cap pos (a ++ r) = k ⟨pos + a.length, r, cap⟩ := by
  intro a
  induction a with
  | nil =>
    intro r pos _ hr hk
    cases r with
    | nil => rfl
    | cons x xs =>
      have hx : p x = false := hr x (by simp)
      simp [starG, hx]
  | cons y ys ih =>
    intro r pos ha hr hk
    have hy : p y = true := ha y (List.mem_cons_self _ _)
    have hk' : (k ⟨pos + 1 + ys.length, r, cap⟩).isSome = true := by
      simpa [Nat.add_assoc, Nat.add_comm 1] using hk
    have := ih r (pos + 1) (fun c hc => ha c (List.mem_cons_of_mem _ hc)) hr hk'
    obtain ⟨m, hm⟩ := Option.isSome_iff_exists.mp hk'
    have e : pos + (y :: ys).length = pos + 1 + ys.length := by
      simp only [List.length_cons]; omega
    show starG p k cap pos (y :: (ys ++ r)) = _
    rw [starG, if_pos hy, this, e, hm]
    rfl

theorem starG_some (p : Char → Bool) (cap : Option JSString) :
    ∀ (rest : JSString) (pos : Nat),
      ∃ n, starG p some cap pos rest = some ⟨n, rest.dropWhile p, cap⟩ := by
  intro rest
  induction rest with
  | nil => intro pos; exact ⟨pos, rfl⟩
  | cons x xs ih =>
    intro pos
    by_cases hx : p x = true
    · obtain ⟨n, hn⟩ := ih (pos + 1)
      exact ⟨n, by simp [starG, hx, hn]⟩
    · exact ⟨pos, by simp [starG, hx]⟩

theorem canon_false (x : Char) : Re.canon false x = x := rfl

theorem run_dotDigits_none (k : MState → Option MState) (cap : Option JSString) (pos : Nat)
    (r : JSString) (hr : ∀ c rest, r = '.' :: c :: rest → isDigit c = false) :
    Re.run false (.seq (.chr '.') (Re.plus .digit)) ⟨pos, r, cap⟩ k = none := by
  simp only [Re.plus, run_seq, run_chr, run_digit, canon_false]
  match r, hr with
  | [], _ => rfl
  | [x], _ =>
    simp only [Re.stepChar]
    split_ifs <;> rfl
  | x :: c :: rest, hr =>
    simp only [Re.stepChar]
    by_cases hx : x = '.'
    · subst hx
      have := hr c rest rfl
      simp [this]
    · simp [hx]

theorem run_unsigned_int (k : MState → Option MState) (cap : Option JSString) (pos : Nat)
    (i r : JSString) (hi : i ≠ []) (hid : ∀ c ∈ i, isDigit c = true)
    (hr1 : ∀ c ∈ r.head?, isDigit c = false)
    (hr2 : ∀ c rest, r = '.' :: c :: rest → isDigit c = false)
    (hk : (k ⟨pos + i.length, r, cap⟩).isSome = true) :
    Re.run false unsignedNumberRe ⟨pos, i ++ r, cap⟩ k = k ⟨pos + i.length, r, cap⟩ := by
  obtain ⟨d, ds, rfl⟩ := List.exists_cons_of_ne_nil hi
  have hd : isDigit d = true := hid d (List.mem_cons_self _ _)
  have hds : ∀ c ∈ ds, isDigit c = true := fun c hc => hid c (List.mem_cons_of_mem _ hc)
  have e : pos + (d :: ds).length = pos + 1 + ds.length := by
    simp only [List.length_cons]; omega
  rw [e] at hk ⊢
  have hF : ∀ p, Re.run false (.opt (.seq (.chr '.') (Re.plus .digit))) ⟨p, r, cap⟩ k =
      k ⟨p, r, cap⟩ := by
    intro p
    rw [run_opt, run_dotDigits_none k cap p r hr2]
    rfl
  unfold unsignedNumberRe
  simp only [Re.plus, run_seq, run_digit, run_star_digit] at hF ⊢
  simp only [Re.stepChar, List.cons_append, hd, if_true]
  rw [starG_append isDigit _ cap ds r (pos + 1) hds hr1]
  · exact hF _
  · simp only [hF]
    exact hk

theorem run_unsigned_frac (k : MState → Option MState) (cap : Option JSString) (pos : Nat)
    (i f r : JSString) (hi : i ≠ []) (hid : ∀ c ∈ i, isDigit c = true)
    (hf : f ≠ []) (hfd : ∀ c ∈ f, isDigit c = true)
    (hr1 : ∀ c ∈ r.head?, isDigit c = false)
    (hk : (k ⟨pos + i.length + 1 + f.length, r, cap⟩).isSome = true) :
    Re.run false unsignedNumberRe ⟨pos, i ++ '.' :: (f ++ r), cap⟩ k =
      k ⟨pos + i.length + 1 + f.length, r, cap⟩ := by
  obtain ⟨d, ds, rfl⟩ := List.exists_cons_of_ne_nil hi
  obtain ⟨g, gs, rfl⟩ := List.exists_cons_of_ne_nil hf
  have hd : isDigit d = true := hid d (List.mem_cons_self _ _)
  have hds : ∀ c ∈ ds, isDigit c = true := fun c hc => hid c (List.mem_cons_of_mem _ hc)
  have hg : isDigit g = true := hfd g (List.mem_cons_self _ _)
  have hgs : ∀ c ∈ gs, isDigit c = true := fun c hc => hfd c (List.mem_cons_of_mem _ hc)
  have e : pos + (d :: ds).length + 1 + (g :: gs).length = pos + 1 + ds.length + 1 + 1 + gs.length := by
    simp only [List.length_cons]; omega
  rw [e] at hk ⊢
  have hF : Re.run false (.opt (.seq (.chr '.') (Re.plus .digit)))
      ⟨pos + 1 + ds.length, '.' :: (g :: gs ++ r), cap⟩ k =
      k ⟨pos + 1 + ds.length + 1 + 1 + gs.length, r, cap⟩ := by
    simp only [Re.plus, run_opt, run_seq, run_chr, run_digit, run_star_digit, canon_false]
    simp only [Re.stepChar, List.cons_append, hg, if_true, decide_True]
    rw [starG_append isDigit _ cap gs r _ hgs hr1 hk]
    obtain ⟨m, hm⟩ := Option.isSome_iff_exists.mp hk
    rw [hm]
    rfl
  unfold unsignedNumberRe
  simp only [Re.plus, run_seq, run_digit, run_star_digit] at hF ⊢
  simp only [Re.stepChar, List.cons_append, hd, if_true]
  rw [starG_append isDigit _ cap ds ('.' :: (g :: (gs ++ r))) (pos + 1) hds (by simp; decide)]
  · exact hF
  · simp only [List.cons_append] at hF
    rw [hF]
    exact hk

theorem run_unsigned_numeral (k : MState → Option MState) (cap : Option JSString) (pos : Nat)
    (i : JSString) (fo : Option JSString) (r : JSString) (hs : NumeralShape i fo r)
    (hk : (k ⟨pos + (dotDigits i fo).length, r, cap⟩).isSome = true) :
    Re.run false unsignedNumberRe ⟨pos, dotDigits i fo ++ r, cap⟩ k =
      k ⟨pos + (dotDigits i fo).length, r, cap⟩ := by
  cases fo with
  | none =>
    simp only [dotDigits, dotFraction, List.append_nil] at hk ⊢
    exact run_unsigned_int k cap pos i r hs.int_ne hs.int_digits hs.rest_head (hs.rest_dot rfl) hk
  | some f =>
    obtain ⟨hf, hfd⟩ := hs.frac_ok f rfl
    have e : pos + (dotDigits i (some f)).length = pos + i.length + 1 + f.length := by
      simp only [dotDigits, dotFraction, List.length_append, List.length_cons]; omega
    rw [e] at hk ⊢
    have e2 : dotDigits i (some f) ++ r = i ++ '.' :: (f ++ r) := by
      simp [dotDigits, dotFraction]
    rw [e2]
    exact run_unsigned_frac k cap pos i f r hs.int_ne hs.int_digits hf hfd hs.rest_head hk

theorem run_signed_numeral (k : MState → Option MState) (cap : Option JSString) (pos : Nat)
    (neg : Bool) (i : JSString) (fo : Option JSString) (r : JSString)
    (hs : NumeralShape i fo r)
    (hk : (k ⟨pos + (dotNumeral neg i fo).length, r, cap⟩).isSome = true) :
    Re.run false signedNumberRe ⟨pos, dotNumeral neg i fo ++ r, cap⟩ k =
      k ⟨pos + (dotNumeral neg i fo).length, r, cap⟩ := by
  unfold signedNumberRe
  rw [run_seq, run_opt, run_chr]
  cases neg with
  | true =>
    have e : pos + (dotNumeral true i fo).length = pos + 1 + (dotDigits i fo).length := by
      simp only [dotNumeral, if_true, List.length_append, List.length_cons, List.length_nil]
      omega
    rw [e] at hk ⊢
    have h1 := run_unsigned_numeral k cap (pos + 1) i fo r hs hk
    simp only [dotNumeral, if_true, List.cons_append, List.nil_append, Re.stepChar, canon_false,
      decide_True, h1]
    obtain ⟨m, hm⟩ := Option.isSome_iff_exists.mp hk
    rw [hm]
    rfl
  | false =>
    have e : pos + (dotNumeral false i fo).length = pos + (dotDigits i fo).length := by
      simp [dotNumeral]
    rw [e] at hk ⊢
    have h1 := run_unsigned_numeral k cap pos i fo r hs hk
    obtain ⟨d, ds, hd⟩ := List.exists_cons_of_ne_nil hs.int_ne
    have hdd : isDigit d = true := hs.int_digits d (by rw [hd]; exact List.mem_cons_self _ _)
    have hne : d ≠ '-' := by
      rintro rfl
      exact absurd hdd (by decide)
    have e3 : dotNumeral false i fo ++ r = d :: (ds ++ dotFraction fo ++ r) := by
      simp [dotNumeral, dotDigits, hd]
    have e4 : dotDigits i fo ++ r = d :: (ds ++ dotFraction fo ++ r) := by
      simp [dotDigits, hd]
    rw [e3]
    simp only [Re.stepChar, canon_false, hne, decide_False, Bool.false_eq_true, if_false]
    rw [← e4]
    exact h1

theorem execFrom_of_run_some (re : RegExp) (pos : Nat) (s : JSString) (m : MState)
    (h : Re.run re.ignoreCase re.re ⟨pos, s, none⟩ some = some m) :
    re.execFrom pos s = some (pos, m) := by
  cases s with
  | nil => rw [RegExp.execFrom, h]
  | cons x xs => rw [RegExp.execFrom, h]

theorem firstNumberRe_replace (neg : Bool) (i : JSString) (fo : Option JSString) (r : JSString)
    (hs : NumeralShape i fo r) :
    firstNumberRe.replaceWithGroup1 (dotNumeral neg i fo ++ r) =
      dotNumeral neg i fo ++ r.dropWhile (fun x => !isLineTerminator x) := by
  have hrun : ∃ n, Re.run false firstNumberRe.re ⟨0, dotNumeral neg i fo ++ r, none⟩ some =
      some ⟨n, r.dropWhile (fun x => !isLineTerminator x), some (dotNumeral neg i fo)⟩ := by
    simp only [firstNumberRe, run_seq, run_group, run_lazyStar_dot, run_star_dot]
    have hcap : List.take ((dotNumeral neg i fo ++ r).length - r.length) (dotNumeral neg i fo ++ r)
        = dotNumeral neg i fo := by
      have : (dotNumeral neg i fo ++ r).length - r.length = (dotNumeral neg i fo).length := by
        simp
      rw [this, List.take_left]
    obtain ⟨n, hn⟩ := starG_some (fun x => !isLineTerminator x) (some (dotNumeral neg i fo)) r
      (0 + (dotNumeral neg i fo).length)
    refine ⟨n, ?_⟩
    rw [starL_of_isSome]
    · rw [run_signed_numeral _ none 0 neg i fo r hs]
      · simp only [hcap]
        exact hn
      · simp only [hcap, hn, Option.isSome_some]
    · rw [run_signed_numeral _ none 0 neg i fo r hs]
      · simp only [hcap, hn, Option.isSome_some]
      · simp only [hcap, hn, Option.isSome_some]
  obtain ⟨n, hn⟩ := hrun
  unfold RegExp.replaceWithGroup1
  rw [execFrom_of_run_some firstNumberRe 0 _ _ hn]
  simp

theorem starL_isSome (p : Char → Bool) (k : MState → Option MState) (cap : Option JSString) :
    ∀ (rest : JSString) (pos : Nat),
      (starL p k cap pos rest).isSome = true →
        ∃ a b, rest = a ++ b ∧ (k ⟨pos + a.length, b, cap⟩).isSome = true := by
  intro rest
  induction rest with
  | nil =>
    intro pos h
    exact ⟨[], [], rfl, by simpa [starL] using h⟩
  | cons x xs ih =>
    intro pos h
    simp only [starL] at h
    split_ifs at h
    · rw [isSome_orElse', Bool.or_eq_true] at h
      rcases h with h | h
      · exact ⟨[], x :: xs, rfl, by simpa using h⟩
      · obtain ⟨a, b, hab, hk⟩ := ih (pos + 1) h
        exact ⟨x :: a, b, by simp [hab], by simpa [Nat.add_assoc, Nat.add_comm 1] using hk⟩
    · exact ⟨[], x :: xs, rfl, by simpa using h⟩

theorem run_unsigned_none (k : MState → Option MState) (cap : Option JSString) (pos : Nat)
    (l : JSString) (h : ∀ c ∈ l.head?, isDigit c = false) :
    Re.run false unsignedNumberRe ⟨pos, l, cap⟩ k = none := by
  unfold unsignedNumberRe
  simp only [Re.plus, run_seq, run_digit]
  cases l with
  | nil => rfl
  | cons x xs =>
    have hx : isDigit x = false := h x (by simp)
    simp [Re.stepChar, hx]

theorem run_signed_none (k : MState → Option MState) (cap : Option JSString) (pos : Nat)
    (l : JSString) (h : ∀ c ∈ l, isDigit c = false) :
    Re.run false signedNumberRe ⟨pos, l, cap⟩ k = none := by
  unfold signedNumberRe
  rw [run_seq, run_opt, run_chr]
  have h2 : Re.run false unsignedNumberRe ⟨pos, l, cap⟩ k = none :=
    run_unsigned_none k cap pos l (by
      intro c hc
      cases l with
      | nil => simp at hc
      | cons x xs =>
        simp at hc
        subst hc
        exact h _ (List.mem_cons_self _ _))
  rw [h2]
  cases l with
  | nil => rfl
  | cons x xs =>
    simp only [Re.stepChar]
    split_ifs
    · rw [run_unsigned_none k cap (pos + 1) xs (by
        intro c hc
        cases xs with
        | nil => simp at hc
        | cons y ys =>
          simp at hc
          subst hc
          exact h _ (List.mem_cons_of_mem _ (List.mem_cons_self _ _)))]
      rfl
    · rfl

theorem firstNumberRe_replace_nodigit (l : JSString) (h : ∀ c ∈ l, isDigit c = false) :
    firstNumberRe.replaceWithGroup1 l = l := by
  have hnone : firstNumberRe.execFrom 0 l = none := by
    rw [← Option.not_isSome_iff_eq_none]
    intro hs
    obtain ⟨a, b, hab, hr⟩ := (execFrom_isSome firstNumberRe l 0).mp hs
    simp only [firstNumberRe, run_seq, run_group, run_lazyStar_dot] at hr
    obtain ⟨a', b', hab', hk⟩ := starL_isSome _ _ _ _ _ hr
    rw [run_signed_none] at hk
    · simp at hk
    · intro c hc
      exact h c (by rw [hab, hab']; simp [hc])
  unfold RegExp.replaceWithGroup1
  rw [hnone]

theorem mem_replaceFirstChar (c : Char) (r : JSString) :
    ∀ (s : JSString) (x : Char), x ∈ replaceFirstChar c r s → x ∈ s ∨ x ∈ r := by
  intro s
  induction s with
  | nil => intro x hx; simp [replaceFirstChar] at hx
  | cons y ys ih =>
    intro x hx
    simp only [replaceFirstChar] at hx
    split_ifs at hx
    · rcases List.mem_append.mp hx with h | h
      · exact Or.inr h
      · exact Or.inl (List.mem_cons_of_mem _ h)
    · rcases List.mem_cons.mp hx with h | h
      · exact Or.inl (by rw [h]; exact List.mem_cons_self _ _)
      · rcases ih x h with h | h
        · exact Or.inl (List.mem_cons_of_mem _ h)
        · exact Or.inr h

theorem mem_trim (s : JSString) (x : Char) (hx : x ∈ trim s) : x ∈ s := by
  unfold trim trimEnd trimStart at hx
  rw [List.mem_reverse] at hx
  have h1 := (List.dropWhile_sublist isWhiteSpace).subset hx
  rw [List.mem_reverse] at h1
  exact (List.dropWhile_sublist isWhiteSpace).subset h1

theorem parseUnsigned_nodigit (u : JSString) (h : ∀ c ∈ u, isDigit c = false) :
    (parseUnsigned u).isFinite = false := by
  unfold parseUnsigned
  split_ifs
  · rfl
  · have hi : u.takeWhile isDigit = [] := by
      cases u with
      | nil => rfl
      | cons x xs => simp [List.takeWhile, h x (List.mem_cons_self _ _)]
    have hd : u.dropWhile isDigit = u := by
      cases u with
      | nil => rfl
      | cons x xs => simp [List.dropWhile, h x (List.mem_cons_self _ _)]
    simp only [hi, hd]
    split
    · rename_i r hr
      have hf : r.takeWhile isDigit = [] := by
        cases r with
        | nil => rfl
        | cons x xs =>
          have : isDigit x = false := h x (by simp)
          simp [List.takeWhile, this]
      simp [hf, JSNum.isFinite]
    · simp [JSNum.isFinite]

theorem neg_isFinite (n : JSNum) : n.neg.isFinite = n.isFinite := by
  cases n <;> rfl

theorem parseFloat_nodigit (s : JSString) (h : ∀ c ∈ s, isDigit c = false) :
    (parseFloat s).isFinite = false := by
  have ht : ∀ c ∈ trimStart s, isDigit c = false := fun c hc =>
    h c ((List.dropWhile_sublist isWhiteSpace).subset hc)
  unfold parseFloat
  split
  · rename_i u hu
    rw [neg_isFinite]
    exact parseUnsigned_nodigit u (fun c hc => ht c (by rw [hu]; exact List.mem_cons_of_mem _ hc))
  · rename_i u hu
    exact parseUnsigned_nodigit u (fun c hc => ht c (by rw [hu]; exact List.mem_cons_of_mem _ hc))
  · exact parseUnsigned_nodigit _ ht

theorem normalizeWeight_nodigit (s : JSString) (h : ∀ c ∈ s, isDigit c = false) :
    normalizeWeight (.str s) = .str [] := by
  cases s with
  | nil => rfl
  | cons c cs =>
    have h1 : ∀ x ∈ replaceFirstChar ',' ['.'] (trim (c :: cs)), isDigit x = false := by
      intro x hx
      rcases mem_replaceFirstChar _ _ _ _ hx with hx | hx
      · exact h x (mem_trim _ _ hx)
      · simp at hx
        subst hx
        decide
    have h3 : ∀ x ∈ replaceFirstChar '%' [] (replaceFirstChar ',' ['.'] (trim (c :: cs))),
        isDigit x = false := by
      intro x hx
      rcases mem_replaceFirstChar _ _ _ _ hx with hx | hx
      · exact h1 x hx
      · simp at hx
    simp only [normalizeWeight]
    rw [firstNumberRe_replace_nodigit _ h1, parseFloat_nodigit _ h3]
    rfl

theorem normalizeWeight_str_cases (s : JSString) :
    normalizeWeight (.str s) = .str [] ∨
      ∃ q : ℚ, normalizeWeight (.str s) = normalizeWeight (.num (.fin q)) := by
  cases s with
  | nil => exact Or.inl rfl
  | cons c cs =>
    simp only [normalizeWeight]
    cases hn : parseFloat (replaceFirstChar '%' []
        (firstNumberRe.replaceWithGroup1 (replaceFirstChar ',' ['.'] (trim (c :: cs))))) with
    | fin q => exact Or.inr ⟨q, by simp [JSNum.isFinite]⟩
    | nan => exact Or.inl (by simp [JSNum.isFinite])
    | posInf => exact Or.inl (by simp [JSNum.isFinite])
    | negInf => exact Or.inl (by simp [JSNum.isFinite])

theorem not_ws_of_digit (c : Char) (h : isDigit c = true) : isWhiteSpace c = false := by
  simp only [isDigit, Bool.and_eq_true, decide_eq_true_eq] at h
  simp only [isWhiteSpace, Bool.or_eq_false_iff, Bool.and_eq_false_imp, decide_eq_false_iff_not,
    decide_eq_true_eq]
  omega

theorem not_digit_of_lt (c : Char) (h : isLineTerminator c = true) : isDigit c = false := by
  simp only [isLineTerminator, Bool.or_eq_true, decide_eq_true_eq] at h
  simp only [isDigit, Bool.and_eq_false_imp, decide_eq_false_iff_not, decide_eq_true_eq]
  omega

theorem replaceFirstChar_append_of_not_mem (c : Char) (r : JSString) :
    ∀ (a b : JSString), c ∉ a →
      replaceFirstChar c r (a ++ b) = a ++ replaceFirstChar c r b := by
  intro a
  induction a with
  | nil => intro b _; rfl
  | cons x xs ih =>
    intro b h
    have hx : x ≠ c := fun e => h (by rw [e]; exact List.mem_cons_self _ _)
    have hxs : c ∉ xs := fun e => h (List.mem_cons_of_mem _ e)
    show replaceFirstChar c r (x :: (xs ++ b)) = x :: (xs ++ replaceFirstChar c r b)
    rw [replaceFirstChar, if_neg hx, ih b hxs]

theorem takeWhile_digits_append (i r : JSString) (hi : ∀ c ∈ i, isDigit c = true)
    (hr : ∀ c ∈ r.head?, isDigit c = false) :
    (i ++ r).takeWhile isDigit = i ∧ (i ++ r).dropWhile isDigit = r := by
  induction i with
  | nil =>
    cases r with
    | nil => exact ⟨rfl, rfl⟩
    | cons x xs =>
      have hx : isDigit x = false := hr x (by simp)
      simp [List.takeWhile, List.dropWhile, hx]
  | cons y ys ih =>
    have hy : isDigit y = true := hi y (List.mem_cons_self _ _)
    obtain ⟨h1, h2⟩ := ih (fun c hc => hi c (List.mem_cons_of_mem _ hc))
    simp [List.takeWhile, List.dropWhile, hy, h1, h2]

theorem exponentValue_of_lt (p : JSString) (hp : ∀ c ∈ p.head?, isLineTerminator c = true) :
    exponentValue p = 0 := by
  cases p with
  | nil => rfl
  | cons c r =>
    have hc : isLineTerminator c = true := hp c (by simp)
    have h1 : c ≠ 'e' := by rintro rfl; exact absurd hc (by decide)
    have h2 : c ≠ 'E' := by rintro rfl; exact absurd hc (by decide)
    simp [exponentValue, h1, h2]

theorem parseUnsigned_numeral (i : JSString) (fo : Option JSString) (p : JSString)
    (hi : i ≠ []) (hid : ∀ c ∈ i, isDigit c = true)
    (hf : ∀ f ∈ fo, f ≠ [] ∧ ∀ c ∈ f, isDigit c = true)
    (hp : ∀ c ∈ p.head?, isLineTerminator c = true) :
    parseUnsigned (dotDigits i fo ++ p) = .fin (decimalValue i (fo.getD [])) := by
  obtain ⟨d, ds, hd⟩ := List.exists_cons_of_ne_nil hi
  have hdd : isDigit d = true := hid d (by rw [hd]; exact List.mem_cons_self _ _)
  have hI : d ≠ 'I' := by rintro rfl; exact absurd hdd (by decide)
  have hpd : ∀ c ∈ p.head?, isDigit c = false := fun c hc => not_digit_of_lt c (hp c hc)
  have hinf : ("Infinity".toList.isPrefixOf (dotDigits i fo ++ p)) = false := by
    have : dotDigits i fo ++ p = d :: (ds ++ dotFraction fo ++ p) := by simp [dotDigits, hd]
    rw [this]
    show List.isPrefixOf ('I' :: "nfinity".toList) _ = false
    simp [List.isPrefixOf, Ne.symm hI]
  unfold parseUnsigned
  rw [hinf]
  simp only [Bool.false_eq_true, if_false]
  cases fo with
  | none =>
    have e : dotDigits i none ++ p = i ++ p := by simp [dotDigits, dotFraction]
    obtain ⟨h1, h2⟩ := takeWhile_digits_append i p hid hpd
    rw [e, h1, h2]
    have hne : i.isEmpty = false := by cases i <;> simp_all
    split
    · exfalso
      have := hp '.' (by simp)
      exact absurd this (by decide)
    · simp [hne, exponentValue_of_lt p hp]
  | some f =>
    obtain ⟨hfne, hfd⟩ := hf f rfl
    have e : dotDigits i (some f) ++ p = i ++ ('.' :: (f ++ p)) := by
      simp [dotDigits, dotFraction]
    obtain ⟨h1, h2⟩ := takeWhile_digits_append i ('.' :: (f ++ p)) hid (by simp; decide)
    obtain ⟨h3, h4⟩ := takeWhile_digits_append f p hfd hpd
    rw [e, h1, h2]
    have hne : f.isEmpty = false := by cases f <;> simp_all
    simp [h3, h4, hne, exponentValue_of_lt p hp]

theorem parseFloat_numeral (neg : Bool) (i : JSString) (fo : Option JSString) (p : JSString)
    (hi : i ≠ []) (hid : ∀ c ∈ i, isDigit c = true)
    (hf : ∀ f ∈ fo, f ≠ [] ∧ ∀ c ∈ f, isDigit c = true)
    (hp : ∀ c ∈ p.head?, isLineTerminator c = true) :
    parseFloat (dotNumeral neg i fo ++ p) = .fin (dotValue neg i fo) := by
  have hu := parseUnsigned_numeral i fo p hi hid hf hp
  cases neg with
  | true =>
    have e : dotNumeral true i fo ++ p = '-' :: (dotDigits i fo ++ p) := by simp [dotNumeral]
    have ht : trimStart ('-' :: (dotDigits i fo ++ p)) = '-' :: (dotDigits i fo ++ p) := by
      simp [trimStart, List.dropWhile, show isWhiteSpace '-' = false by decide]
    rw [e]
    unfold parseFloat
    rw [ht]
    simp only [hu, JSNum.neg, dotValue, if_true]
  | false =>
    obtain ⟨d, ds, hd⟩ := List.exists_cons_of_ne_nil hi
    have hdd : isDigit d = true := hid d (by rw [hd]; exact List.mem_cons_self _ _)
    have e : dotNumeral false i fo ++ p = d :: (ds ++ dotFraction fo ++ p) := by
      simp [dotNumeral, dotDigits, hd]
    have e' : dotDigits i fo ++ p = d :: (ds ++ dotFraction fo ++ p) := by
      simp [dotDigits, hd]
    have ht : trimStart (d :: (ds ++ dotFraction fo ++ p)) = d :: (ds ++ dotFraction fo ++ p) := by
      simp [trimStart, List.dropWhile, not_ws_of_digit d hdd]
    have h1 : d ≠ '-' := by rintro rfl; exact absurd hdd (by decide)
    have h2 : d ≠ '+' := by rintro rfl; exact absurd hdd (by decide)
    rw [e]
    unfold parseFloat
    rw [ht]
    split
    · rename_i u hu'
      exact absurd (List.cons.inj hu').1 h1
    · rename_i u hu'
      exact absurd (List.cons.inj hu').1 h2
    · rw [← e', hu]
      simp [dotValue]

theorem head_replaceComma (t : JSString) (h : ∀ c ∈ t.head?, isDigit c = false) :
    ∀ c ∈ (replaceFirstChar ',' ['.'] t).head?, isDigit c = false := by
  cases t with
  | nil => intro c hc; simp [replaceFirstChar] at hc
  | cons x xs =>
    intro c hc
    simp only [replaceFirstChar] at hc
    split_ifs at hc
    · simp at hc
      subst hc
      decide
    · simp at hc
      subst hc
      exact h _ (by simp)

theorem comma_not_mem_digits (i : JSString) (hid : ∀ c ∈ i, isDigit c = true) (x : Char)
    (hx : isDigit x = false) : x ∉ i := by
  intro h
  have := hid x h
  rw [hx] at this
  exact Bool.noConfusion this

theorem replaceComma_numeral (neg : Bool) (i : JSString) (frac : Option (Char × JSString))
    (trailing : JSString) (h : LeadingNumeral i frac trailing) :
    ∃ r, replaceFirstChar ',' ['.'] (numeralText neg i frac ++ trailing) =
        dotNumeral neg i (frac.map Prod.snd) ++ r ∧
      NumeralShape i (frac.map Prod.snd) r := by
  have hsign : ',' ∉ (if neg then ['-'] else []) ++ i := by
    intro hm
    rcases List.mem_append.mp hm with hm | hm
    · cases neg <;> simp at hm
    · exact comma_not_mem_digits i h.int_digits ',' (by decide) hm
  have e1 : numeralText neg i frac ++ trailing =
      ((if neg then ['-'] else []) ++ i) ++ (fracText frac ++ trailing) := by
    simp [numeralText]
  rw [e1, replaceFirstChar_append_of_not_mem _ _ _ _ hsign]
  match frac, h with
  | none, h =>
    refine ⟨replaceFirstChar ',' ['.'] trailing,
      by simp [fracText, dotNumeral, dotDigits, dotFraction], ?_⟩
    refine ⟨h.int_ne, h.int_digits, by simp, head_replaceComma _ h.no_digit_next, ?_⟩
    intro _ c rest hr
    match trailing, h, hr with
    | [], _, hr => simp [replaceFirstChar] at hr
    | [x], h, hr =>
      simp only [replaceFirstChar] at hr
      split_ifs at hr <;> simp at hr
    | x :: y :: ys, h, hr =>
      simp only [replaceFirstChar] at hr
      by_cases hx : x = ','
      · rw [if_pos hx] at hr
        simp at hr
        rw [← hr.1]
        exact h.no_fraction_next rfl x y ys rfl (Or.inr hx)
      · rw [if_neg hx] at hr
        by_cases hy : y = ','
        · rw [if_pos hy] at hr
          simp at hr
          rw [← hr.2.1]
          decide
        · rw [if_neg hy] at hr
          simp at hr
          rw [← hr.2.1]
          exact h.no_fraction_next rfl x y ys rfl (Or.inl hr.1)
  | some (sep, f), h =>
    obtain ⟨hsep, hfne, hfd⟩ := h.frac_ok (sep, f) rfl
    have hshape : ∀ r, (∀ c ∈ r.head?, isDigit c = false) →
        NumeralShape i (Option.map Prod.snd (some (sep, f))) r := by
      intro r hr
      refine ⟨h.int_ne, h.int_digits, ?_, hr, by simp⟩
      intro g hg
      simp at hg
      subst hg
      exact ⟨hfne, hfd⟩
    rcases hsep with hsep | hsep
    · simp only at hsep
      subst hsep
      refine ⟨replaceFirstChar ',' ['.'] trailing, ?_,
        hshape _ (head_replaceComma _ h.no_digit_next)⟩
      have hf : ',' ∉ f := comma_not_mem_digits f hfd ',' (by decide)
      have : fracText (some ('.', f)) ++ trailing = ('.' :: f) ++ trailing := rfl
      rw [this, replaceFirstChar_append_of_not_mem _ _ _ _ (by simp [hf])]
      simp [dotNumeral, dotDigits, dotFraction]
    · simp only at hsep
      subst hsep
      refine ⟨trailing, ?_, hshape _ h.no_digit_next⟩
      have : fracText (some (',', f)) ++ trailing = ',' :: (f ++ trailing) := rfl
      rw [this]
      simp [replaceFirstChar, dotNumeral, dotDigits, dotFraction]

theorem head_dropWhile_false (p : Char → Bool) :
    ∀ (l : JSString), ∀ c ∈ (l.dropWhile p).head?, p c = false := by
  intro l
  induction l with
  | nil => intro c hc; simp at hc
  | cons x xs ih =>
    intro c hc
    by_cases hx : p x = true
    · rw [List.dropWhile_cons_of_pos hx] at hc
      exact ih c hc
    · rw [List.dropWhile_cons_of_neg hx] at hc
      simp at hc
      subst hc
      simpa using hx

theorem normalizeWeight_numeral (s : JSString) (neg : Bool) (i : JSString)
    (frac : Option (Char × JSString)) (trailing : JSString)
    (h : LeadingNumeral i frac trailing)
    (hs : trim s = numeralText neg i frac ++ trailing) :
    normalizeWeight (.str s) = normalizeWeight (.num (.fin (numeralValue neg i frac))) := by
  obtain ⟨r, hr, hshape⟩ := replaceComma_numeral neg i frac trailing h
  have hpost : ∀ c ∈ (r.dropWhile (fun x => !isLineTerminator x)).head?,
      isLineTerminator c = true := by
    intro c hc
    have := head_dropWhile_false (fun x => !isLineTerminator x) r c hc
    simpa using this
  have hpost' : ∀ c ∈ (replaceFirstChar '%' []
      (r.dropWhile (fun x => !isLineTerminator x))).head?, isLineTerminator c = true := by
    cases hd : r.dropWhile (fun x => !isLineTerminator x) with
    | nil => intro c hc; simp [replaceFirstChar] at hc
    | cons x xs =>
      rw [hd] at hpost
      have hx : isLineTerminator x = true := hpost x (by simp)
      have hne : x ≠ '%' := by rintro rfl; exact absurd hx (by decide)
      intro c hc
      simp only [replaceFirstChar, if_neg hne] at hc
      simp at hc
      subst hc
      exact hx
  have hpct : '%' ∉ dotNumeral neg i (frac.map Prod.snd) := by
    intro hm
    simp only [dotNumeral, dotDigits, List.mem_append] at hm
    rcases hm with hm | hm | hm
    · cases neg <;> simp at hm
    · exact comma_not_mem_digits i h.int_digits '%' (by decide) hm
    · cases hfo : frac.map Prod.snd with
      | none => rw [hfo] at hm; simp [dotFraction] at hm
      | some f =>
        rw [hfo] at hm
        simp only [dotFraction, List.mem_cons] at hm
        rcases hm with hm | hm
        · exact absurd hm (by decide)
        · exact comma_not_mem_digits f (hshape.frac_ok f hfo).2 '%' (by decide) hm
  cases s with
  | nil =>
    exfalso
    have : trim ([] : JSString) = [] := rfl
    rw [this] at hs
    have hl := congrArg List.length hs
    simp only [numeralText, List.length_append, List.length_nil] at hl
    have := List.length_pos.mpr h.int_ne
    omega
  | cons c cs =>
    simp only [normalizeWeight]
    rw [hs, hr, firstNumberRe_replace neg i _ r hshape,
      replaceFirstChar_append_of_not_mem _ _ _ _ hpct,
      parseFloat_numeral neg i _ _ hshape.int_ne hshape.int_digits hshape.frac_ok hpost']
    simp [JSNum.isFinite, numeralValue]

theorem isWeightHeader_orEmpty (x : Val) :
    isWeightHeader (trim x.orEmpty.toStr) ↔ isWeightHeader (trim x.toStr) := by
  have hempty : ¬ isWeightHeader (trim ([] : JSString)) := by
    rw [← weightPatterns_any]; decide
  cases x with
  | undefined =>
    have h2 : ¬ isWeightHeader (trim Val.undefined.toStr) := by
      rw [← weightPatterns_any]; decide
    exact ⟨fun h => absurd h hempty, fun h => absurd h h2⟩
  | null =>
    have h2 : ¬ isWeightHeader (trim Val.null.toStr) := by
      rw [← weightPatterns_any]; decide
    exact ⟨fun h => absurd h hempty, fun h => absurd h h2⟩
  | num n =>
    cases n with
    | fin q =>
      by_cases hq : q = 0
      · subst hq
        have h1 : (Val.num (JSNum.fin 0)).orEmpty.toStr = [] := by
          simp [Val.orEmpty, Val.truthy, Val.toStr]
        have h2 : (Val.num (JSNum.fin 0)).toStr = "0".toList := by
          simp [Val.toStr, numToString]
        rw [h1, h2]
        have h3 : ¬ isWeightHeader (trim "0".toList) := by
          rw [← weightPatterns_any]; decide
        exact ⟨fun h => absurd h hempty, fun h => absurd h h3⟩
      · simp [Val.orEmpty, Val.truthy, hq]
    | nan =>
      have h2 : ¬ isWeightHeader (trim (Val.num JSNum.nan).toStr) := by
        rw [← weightPatterns_any]; decide
      exact ⟨fun h => absurd h hempty, fun h => absurd h h2⟩
    | posInf => exact Iff.rfl
    | negInf => exact Iff.rfl
  | str s =>
    cases s with
    | nil => exact Iff.rfl
    | cons c cs => simp [Val.orEmpty, Val.truthy]

theorem findHeader_spec (patterns : List RegExp) (P : JSString → Prop)
    (hP : ∀ h, patterns.any (fun re => re.test h) = true ↔ P h)
    (hE : ∀ x : Val, P (trim x.orEmpty.toStr) ↔ P (trim x.toStr)) (r0 : List Val) :
    (∀ i, findHeader (headerTexts r0) patterns = some i ↔
      (∃ x, r0[i]? = some x ∧ P (trim x.toStr)) ∧
      ∀ j x, j < i → r0[j]? = some x → ¬ P (trim x.toStr)) ∧
    (findHeader (headerTexts r0) patterns = none ↔ ∀ x ∈ r0, ¬ P (trim x.toStr)) := by
  constructor
  · intro i
    unfold findHeader
    rw [findHeaderFrom_eq_some _ _ hP]
    simp only [headerTexts, List.getElem?_map, Option.map_eq_some', Nat.zero_add]
    constructor
    · rintro ⟨j, rfl, ⟨h, ⟨x, hx, rfl⟩, hh⟩, hmin⟩
      refine ⟨⟨x, hx, (hE x).mp hh⟩, ?_⟩
      intro j' x' hj hx' hs
      exact hmin j' _ hj ⟨x', hx', rfl⟩ ((hE x').mpr hs)
    · rintro ⟨⟨x, hx, hs⟩, hmin⟩
      refine ⟨i, rfl, ⟨_, ⟨x, hx, rfl⟩, (hE x).mpr hs⟩, ?_⟩
      rintro j' h' hj ⟨x', hx', rfl⟩ hs'
      exact hmin j' x' hj hx' ((hE x').mp hs')
  · unfold findHeader
    rw [findHeaderFrom_eq_none _ _ hP]
    simp only [headerTexts, List.mem_map]
    constructor
    · intro hall x hx hs
      exact hall _ ⟨x, hx, rfl⟩ ((hE x).mpr hs)
    · rintro hall h ⟨x, hx, rfl⟩ hs
      exact hall x hx ((hE x).mp hs)

theorem symbolPatterns_any (h : JSString) :
    [symbolHeaderRe].any (fun re => re.test h) = true ↔ isSymbolHeader h := by
  simp [symbolHeaderRe_test]

theorem pickTickerWeight_cons (r0 : List Val) (rest : List Row) :
    pickTickerWeight (some r0 :: rest) =
      match findHeader (headerTexts r0) [symbolHeaderRe],
        findHeader (headerTexts r0) [weightHeaderRe, portfolioWeightRe] with
      | some t, some w => .ok (rest.filterMap (holdingOfRow t w))
      | _, _ => .error (.missingColumns (headerTexts r0)) := by
  simp only [pickTickerWeight]
  cases findHeader (headerTexts r0) [symbolHeaderRe] with
  | none => rfl
  | some t =>
    cases findHeader (headerTexts r0) [weightHeaderRe, portfolioWeightRe] with
    | none => rfl
    | some w =>
      simp only [pickRows_eq, List.length_cons, Nat.add_sub_cancel, List.nil_append]
      have : List.take rest.length (List.drop 1 (some r0 :: rest)) = rest := by simp
      rw [this]

theorem normalizeWeight_num_eq (n : JSNum) :
    ∃ r, normalizeWeight (.num n) = .num r := ⟨_, rfl⟩

theorem inUnitInterval_num (q : ℚ) :
    inUnitInterval (normalizeWeight (.num (.fin q))) ↔ 0 ≤ q ∧ q ≤ 100 := by
  unfold inUnitInterval
  by_cases h : 1 < q
  · have e : normalizeWeight (.num (.fin q)) = .num (.fin (q / 100)) := by
      simp [normalizeWeight, JSNum.gt, JSNum.div100, h]
    rw [e]
    constructor
    · rintro ⟨r, hr, h0, h1⟩
      simp only [Val.num.injEq, JSNum.fin.injEq] at hr
      subst hr
      constructor
      · linarith
      · linarith
    · rintro ⟨h0, h1⟩
      exact ⟨q / 100, rfl, by positivity, by linarith⟩
  · have e : normalizeWeight (.num (.fin q)) = .num (.fin q) := by
      simp [normalizeWeight, JSNum.gt, h]
    rw [e]
    constructor
    · rintro ⟨r, hr, h0, h1⟩
      simp only [Val.num.injEq, JSNum.fin.injEq] at hr
      subst hr
      exact ⟨h0, by linarith⟩
    · rintro ⟨h0, _⟩
      exact ⟨q, rfl, h0, not_lt.mp h⟩

theorem normalizeWeight_cases (v : Val) :
    normalizeWeight v = unknown ∨
      ∃ n r, normalizeWeight v = .num r ∧ normalizeWeight (.num n) = .num r ∧
        (v = .num n ∨ ∃ q, n = .fin q) := by
  cases v with
  | undefined => exact Or.inl rfl
  | null => exact Or.inl rfl
  | num n => exact Or.inr ⟨n, _, rfl, rfl, Or.inl rfl⟩
  | str s =>
    rcases normalizeWeight_str_cases s with h | ⟨q, hq⟩
    · exact Or.inl h
    · exact Or.inr ⟨.fin q, _, hq, rfl, Or.inr ⟨q, rfl⟩⟩

theorem pickTickerWeight_weight_source (rows : List Row) (out : List Holding)
    (h : pickTickerWeight rows = .ok out) :
    ∀ r ∈ out, ∃ cells w, some cells ∈ rows.tail ∧ r.Weight = normalizeWeight (cellAt cells w) := by
  cases rows with
  | nil =>
    simp only [pickTickerWeight, Except.ok.injEq] at h
    subst h
    intro r hr
    cases hr
  | cons r0 rest =>
    cases r0 with
    | none => cases h
    | some r0 =>
      rw [pickTickerWeight_cons] at h
      cases ht : findHeader (headerTexts r0) [symbolHeaderRe] with
      | none => rw [ht] at h; cases h
      | some t =>
        cases hw : findHeader (headerTexts r0) [weightHeaderRe, portfolioWeightRe] with
        | none => rw [ht, hw] at h; cases h
        | some w =>
          rw [ht, hw] at h
          simp only [Except.ok.injEq] at h
          subst h
          intro r hr
          obtain ⟨row, hrow, hrec⟩ := List.mem_filterMap.mp hr
          cases row with
          | none => simp [holdingOfRow] at hrec
          | some cells =>
            simp only [holdingOfRow] at hrec
            split_ifs at hrec
            simp only [Option.some.injEq] at hrec
            subst hrec
            exact ⟨cells, w, hrow, rfl⟩

theorem normalizeWeight_five : normalizeWeight (.str "5".toList) = .num (.fin (1 / 20)) := by
  have h := normalizeWeight_numeral "5".toList false "5".toList none []
    ⟨by decide, by decide, by simp, by simp, by simp⟩ (by decide)
  rw [h]
  have hv : numeralValue false "5".toList none = 5 := by
    have hd : digitsValue ("5".toList ++ []) = 5 := by decide
    simp only [numeralValue, dotValue, decimalValue, Option.map, Option.getD, hd]
    norm_num
  rw [hv]
  have : (1 : ℚ) < 5 := by norm_num
  simp only [normalizeWeight, JSNum.gt, this, decide_True, if_true, JSNum.div100]
  norm_num

theorem numToString_twentieth : numToString (.fin (1 / 20)) = "0.05".toList := by
  have h0 : ((1 : ℚ) / 20) ≠ 0 := by norm_num
  have h1 : ¬ ((1 : ℚ) / 20 < 0) := by norm_num
  have h2 : ((1 : ℚ) / 20).num = 1 := by norm_num
  have h3 : ((1 : ℚ) / 20).den = 20 := by norm_num
  simp only [numToString, h0, h1, if_false, posToString, h2, h3]
  decide

theorem scenario_rows :
    pickTickerWeight (csvToRows scenarioText) =
      .ok [{ Ticker := "AAA".toList, Weight := .num (.fin (1 / 20)) },
           { Ticker := "BBB".toList, Weight := .str [] }] := by
  have h : pickTickerWeight (csvToRows scenarioText) =
      .ok [{ Ticker := "AAA".toList, Weight := normalizeWeight (.str "5".toList) },
           { Ticker := "BBB".toList, Weight := normalizeWeight (.str []) }] := by
    rfl
  rw [h, normalizeWeight_five]
  rfl

theorem scenario_saved :
    saveCSV "XYZ".toList [{ Ticker := "AAA".toList, Weight := .num (.fin (1 / 20)) },
           { Ticker := "BBB".toList, Weight := .str [] }] =
      ("XYZ.csv".toList, "Ticker,Weight\nAAA,0.05\nBBB,".toList) := by
  simp only [saveCSV, List.map, Val.toStr, numToString_twentieth]
  decide

theorem scenario_written :
    writtenText "XYZ".toList scenarioText = .ok "Ticker,Weight\nAAA,0.05\nBBB,".toList := by
  unfold writtenText
  rw [scenario_rows]
  simp only [Except.map, scenario_saved]

theorem scenario_main (w : World) (now : JSString) (status : Nat)
    (hf : w.fetch (some scenarioUrl) = .ok { ok := true, status := status, body := scenarioText }) :
    main w scenarioConfig now =
      ([("XYZ.csv".toList, "Ticker,Weight\nAAA,0.05\nBBB,".toList)],
        { updatedAt := now, tickers := ["XYZ".toList] }) := by
  have hfh : (fetchHoldings w "XYZ".toList
      { source := some "csv".toList, url := some scenarioUrl }).result =
      pickTickerWeight (csvToRows scenarioText) := by
    have h1 : toLowerCase ((some "csv".toList : Option JSString).getD []) = "csv".toList := by
      decide
    have h2 : urlPresent (some scenarioUrl) = true := by decide
    simp only [fetchHoldings, h1, h2]
    simp only [fetchText, hf]
    rfl
  simp only [main, scenarioConfig, List.foldl, mainStep, hfh, scenario_rows, scenario_saved]
  rfl

theorem normalizeWeight_fin (q : ℚ) :
    normalizeWeight (.num (.fin q)) = .num (.fin (if 1 < q then q / 100 else q)) := by
  by_cases h : 1 < q
  · simp [normalizeWeight, JSNum.gt, JSNum.div100, h]
  · simp [normalizeWeight, JSNum.gt, h]

theorem normalizeWeight_example_comma :
    normalizeWeight (.str "12,5%".toList) = .num (.fin (1 / 8)) := by
  have h := normalizeWeight_numeral "12,5%".toList false "12".toList
    (some (',', "5".toList)) "%".toList
    ⟨by decide, by decide, by decide, by decide, by simp⟩ (by decide)
  have hv : numeralValue false "12".toList (some (',', "5".toList)) = 25 / 2 := by
    have hd : digitsValue ("12".toList ++ "5".toList) = 125 := by decide
    have hl : "5".toList.length = 1 := by decide
    simp only [numeralValue, dotValue, decimalValue, Option.map, Option.getD, hd, hl]
    norm_num
  rw [h, hv, normalizeWeight_fin]
  norm_num

theorem normalizeWeight_example_note :
    normalizeWeight (.str "1.23 (est.)".toList) = .num (.fin (123 / 10000)) := by
  have h := normalizeWeight_numeral "1.23 (est.)".toList false "1".toList
    (some ('.', "23".toList)) " (est.)".toList
    ⟨by decide, by decide, by decide, by decide, by simp⟩ (by decide)
  have hv : numeralValue false "1".toList (some ('.', "23".toList)) = 123 / 100 := by
    have hd : digitsValue ("1".toList ++ "23".toList) = 123 := by decide
    have hl : "23".toList.length = 2 := by decide
    simp only [numeralValue, dotValue, decimalValue, Option.map, Option.getD, hd, hl]
    norm_num
  rw [h, hv, normalizeWeight_fin]
  norm_num

theorem mainStep_eq (w : World) (st : RunState) (e : JSString × Info) :
    mainStep w st e =
      match savedRecords w e with
      | none => st
      | some rows => { files := st.files ++ [saveCSV e.1 rows], ok := st.ok ++ [e.1] } := by
  unfold mainStep savedRecords
  cases (fetchHoldings w e.1 e.2).result with
  | error err => rfl
  | ok rows =>
    simp only
    split_ifs <;> rfl

theorem foldl_mainStep (w : World) :
    ∀ (entries : List (JSString × Info)) (st : RunState),
      entries.foldl (mainStep w) st =
        { files := st.files ++
            entries.filterMap (fun e => (savedRecords w e).map (fun rows => saveCSV e.1 rows)),
          ok := st.ok ++ entries.filterMap (fun e => (savedRecords w e).map (fun _ => e.1)) } := by
  intro entries
  induction entries with
  | nil => intro st; simp
  | cons e es ih =>
    intro st
    rw [List.foldl_cons, ih, mainStep_eq]
    cases h : savedRecords w e with
    | none => simp [h]
    | some rows => simp [h]

theorem main_eq (w : World) (entries : List (JSString × Info)) (now : JSString) :
    main w entries now =
      (entries.filterMap (fun e => (savedRecords w e).map (fun rows => saveCSV e.1 rows)),
       { updatedAt := now,
         tickers := entries.filterMap (fun e => (savedRecords w e).map (fun _ => e.1)) }) := by
  simp only [main, foldl_mainStep, List.nil_append]

theorem tickers_eq_filter (w : World) (entries : List (JSString × Info)) :
    entries.filterMap (fun e => (savedRecords w e).map (fun _ => e.1)) =
      (entries.filter (fun e => (savedRecords w e).isSome)).map Prod.fst := by
  induction entries with
  | nil => rfl
  | cons e es ih =>
    cases h : savedRecords w e with
    | none => simp [List.filterMap_cons, List.filter_cons, h, ih]
    | some rows => simp [List.filterMap_cons, List.filter_cons, h, ih]

theorem tickers_subset (w : World) (entries : List (JSString × Info)) (now : JSString) :
    ∀ t ∈ (main w entries now).2.tickers, t ∈ entries.map Prod.fst := by
  intro t ht
  rw [main_eq, tickers_eq_filter] at ht
  obtain ⟨e, he, rfl⟩ := List.mem_map.mp ht
  exact List.mem_map.mpr ⟨e, (List.mem_filter.mp he).1, rfl⟩

theorem savedRecords_of_error (w : World) (e : JSString × Info) (err : Err)
    (h : (fetchHoldings w e.1 e.2).result = .error err) : savedRecords w e = none := by
  unfold savedRecords
  rw [h]

theorem main_skip (w : World) (pre post : List (JSString × Info)) (e : JSString × Info)
    (now : JSString) (h : savedRecords w e = none) :
    main w (pre ++ e :: post) now = main w (pre ++ post) now := by
  simp only [main_eq, List.filterMap_append, List.filterMap_cons, h, Option.map_none']

theorem fetchText_not_ok (w : World) (u : Option JSString) (status : Nat) (body : JSString)
    (hf : w.fetch u = .ok { ok := false, status := status, body := body }) :
    fetchText w u = .error (.http status u) := by
  simp [fetchText, hf]

theorem fetchHoldings_csv (w : World) (t : JSString) (u : Option JSString)
    (hu : urlPresent u = true) :
    fetchHoldings w t { source := some "csv".toList, url := u } =
      { fetched := [u],
        result := (fetchText w u).bind (fun text => pickTickerWeight (csvToRows text)) } := by
  have h1 : toLowerCase ((some "csv".toList : Option JSString).getD []) = "csv".toList := by
    decide
  simp only [fetchHoldings, h1, hu]
  rfl

theorem fetchHoldings_csv_missing (w : World) (t : JSString) (u : Option JSString)
    (hu : urlPresent u = false) :
    fetchHoldings w t { source := some "csv".toList, url := u } =
      { fetched := [], result := .error .csvUrlMissing } := by
  have h1 : toLowerCase ((some "csv".toList : Option JSString).getD []) = "csv".toList := by
    decide
  simp only [fetchHoldings, h1, hu]
  rfl

theorem fetchHoldings_ark (w : World) (t : JSString) (u : Option JSString) :
    fetchHoldings w t { source := some "ark".toList, url := u } =
      { fetched := [u],
        result := (fetchText w u).bind (fun text => pickTickerWeight (csvToRows text)) } := by
  have h1 : toLowerCase ((some "ark".toList : Option JSString).getD []) = "ark".toList := by
    decide
  simp only [fetchHoldings, h1]
  rfl

theorem pickTickerWeight_error (rows : List Row) (e : Err)
    (h : pickTickerWeight rows = .error e) : ∀ s, e ≠ .unknownSource s := by
  intro s hs
  subst hs
  cases rows with
  | nil => cases h
  | cons r rest =>
    cases r with
    | none => cases h
    | some r0 =>
      rw [pickTickerWeight_cons] at h
      cases ht : findHeader (headerTexts r0) [symbolHeaderRe] with
      | none => rw [ht] at h; cases h
      | some t =>
        cases hw : findHeader (headerTexts r0) [weightHeaderRe, portfolioWeightRe] with
        | none => rw [ht, hw] at h; cases h
        | some w => rw [ht, hw] at h; cases h

theorem fetchText_error (w : World) (hw : w.ownErrors) (u : Option JSString) (e : Err)
    (h : fetchText w u = .error e) : ∀ s, e ≠ .unknownSource s := by
  intro s hs
  subst hs
  unfold fetchText at h
  cases hf : w.fetch u with
  | error e' =>
    rw [hf] at h
    obtain ⟨m, hm⟩ := hw.1 u e' hf
    subst hm
    cases h
  | ok r =>
    rw [hf] at h
    simp only at h
    split_ifs at h
    cases h

theorem fetchArrayBuffer_error (w : World) (hw : w.ownErrors) (u : Option JSString) (e : Err)
    (h : fetchArrayBuffer w u = .error e) : ∀ s, e ≠ .unknownSource s := by
  intro s hs
  subst hs
  unfold fetchArrayBuffer at h
  cases hf : w.fetch u with
  | error e' =>
    rw [hf] at h
    obtain ⟨m, hm⟩ := hw.1 u e' hf
    subst hm
    cases h
  | ok r =>
    rw [hf] at h
    simp only at h
    split_ifs at h
    cases h

theorem csv_pipeline_error (w : World) (hw : w.ownErrors) (u : Option JSString) (e : Err)
    (h : (fetchText w u).bind (fun text => pickTickerWeight (csvToRows text)) = .error e) :
    ∀ s, e ≠ .unknownSource s := by
  cases hf : fetchText w u with
  | error e' =>
    rw [hf] at h
    cases h
    exact fetchText_error w hw u _ hf
  | ok text =>
    rw [hf] at h
    exact pickTickerWeight_error _ e h

theorem xlsx_pipeline_error (w : World) (hw : w.ownErrors) (u : Option JSString) (e : Err)
    (h : (fetchArrayBuffer w u).bind (fun ab =>
      (w.xlsxToRows ab).bind (fun rows => pickTickerWeight rows)) = .error e) :
    ∀ s, e ≠ .unknownSource s := by
  cases hf : fetchArrayBuffer w u with
  | error e' =>
    rw [hf] at h
    cases h
    exact fetchArrayBuffer_error w hw u _ hf
  | ok ab =>
    rw [hf] at h
    simp only [Except.bind] at h
    cases hx : w.xlsxToRows ab with
    | error e' =>
      rw [hx] at h
      cases h
      obtain ⟨m, hm⟩ := hw.2 ab _ hx
      intro s hs
      rw [hs] at hm
      cases hm
    | ok rows =>
      rw [hx] at h
      exact pickTickerWeight_error _ e h

theorem fetchHoldings_unknown (w : World) (t : JSString) (info : Info)
    (h : toLowerCase (info.source.getD []) ∉ knownSources) :
    fetchHoldings w t info =
      { fetched := [], result := .error (.unknownSource (toLowerCase (info.source.getD []))) } := by
  simp only [knownSources, List.mem_cons, List.mem_singleton, not_or, List.mem_nil_iff,
    or_false] at h
  obtain ⟨h1, h2, h3, h4, h5⟩ := h
  simp only [fetchHoldings, h1, h2, h3, h4, h5, or_self, if_false]

theorem fetchHoldings_known (w : World) (hw : w.ownErrors) (t : JSString) (info : Info)
    (h : toLowerCase (info.source.getD []) ∈ knownSources) :
    ∀ s, (fetchHoldings w t info).result ≠ .error (.unknownSource s) := by
  intro s hr
  simp only [knownSources, List.mem_cons, List.mem_singleton, List.mem_nil_iff, or_false] at h
  unfold fetchHoldings at hr
  simp only at hr
  split_ifs at hr with c1 c2 c3 c4 c5
  · exact xlsx_pipeline_error w hw _ _ hr s rfl
  · exact xlsx_pipeline_error w hw _ _ hr s rfl
  · cases hr
  · exact csv_pipeline_error w hw _ _ hr s rfl
  · exact csv_pipeline_error w hw _ _ hr s rfl
  · rcases h with h | h | h | h | h
    · exact c1 (Or.inl h)
    · exact c1 (Or.inr h)
    · exact c2 h
    · exact c3 h
    · exact c5 h

theorem scenarioWorld_ownErrors : scenarioWorld.ownErrors := by
  constructor
  · intro u e h
    cases h
  · intro b e h
    cases h

theorem splitOnP_parts (p : Char → Bool) :
    ∀ (l : JSString), ∀ s ∈ l.splitOnP p, ∀ y ∈ s, p y = false ∧ y ∈ l := by
  intro l
  induction l with
  | nil =>
    intro s hs y hy
    simp at hs
    subst hs
    cases hy
  | cons a as ih =>
    intro s hs y hy
    rw [List.splitOnP_cons] at hs
    by_cases hp : p a = true
    · rw [if_pos hp] at hs
      rcases List.mem_cons.mp hs with h | h
      · subst h
        cases hy
      · obtain ⟨h1, h2⟩ := ih s h y hy
        exact ⟨h1, List.mem_cons_of_mem _ h2⟩
    · rw [if_neg hp] at hs
      cases hsp : List.splitOnP p as with
      | nil => rw [hsp] at hs; cases hs
      | cons hd tl =>
        rw [hsp] at hs
        simp only [List.modifyHead_cons, List.mem_cons] at hs
        rcases hs with h | h
        · subst h
          rcases List.mem_cons.mp hy with h | h
          · subst h
            exact ⟨by simpa using hp, List.mem_cons_self _ _⟩
          · obtain ⟨h1, h2⟩ := ih hd (by rw [hsp]; exact List.mem_cons_self _ _) y h
            exact ⟨h1, List.mem_cons_of_mem _ h2⟩
        · obtain ⟨h1, h2⟩ := ih s (by rw [hsp]; exact List.mem_cons_of_mem _ h) y hy
          exact ⟨h1, List.mem_cons_of_mem _ h2⟩

theorem splitOn_parts (x : Char) (l : JSString) :
    ∀ s ∈ l.splitOn x, x ∉ s ∧ ∀ y ∈ s, y ∈ l := by
  intro s hs
  constructor
  · intro hx
    have := (splitOnP_parts (· == x) l s hs x hx).1
    simp at this
  · intro y hy
    exact (splitOnP_parts (· == x) l s hs y hy).2

theorem splitOn_ne_nil (x : Char) (l : JSString) : l.splitOn x ≠ [] :=
  List.splitOnP_ne_nil _ _

theorem rowText_cells (line : JSString) :
    rowText (some ((line.splitOn ',').map Val.str)) = line := by
  simp only [rowText, List.map_map]
  have : (Val.toStr ∘ Val.str) = id := by
    funext s
    rfl
  rw [this, List.map_id]
  exact List.intercalate_splitOn line ','

theorem csvToRows_eq (text : JSString) :
    csvToRows text =
      (nonEmptyLines (withoutCarriageReturns text)).map
        (fun line => some ((line.splitOn ',').map Val.str)) := rfl

theorem mem_nonEmptyLines (text line : JSString)
    (h : line ∈ nonEmptyLines (withoutCarriageReturns text)) :
    line ≠ [] ∧ '\n' ∉ line ∧ '\r' ∉ line := by
  unfold nonEmptyLines at h
  obtain ⟨h1, h2⟩ := List.mem_filter.mp h
  obtain ⟨h3, h4⟩ := splitOn_parts '\n' _ line h1
  refine ⟨?_, h3, ?_⟩
  · intro e
    subst e
    simp at h2
  · intro hr
    have := h4 _ hr
    simp [withoutCarriageReturns] at this

theorem formatDigits_not_ws (ds : JSString) (n : Int)
    (hds : ∀ c ∈ ds, isWhiteSpace c = false) :
    ∀ c ∈ formatDigits ds n, isWhiteSpace c = false := by
  have key : ∀ c, (c ∈ ds ∨ c = '0' ∨ c = '.' ∨ c = 'e' ∨ c = '+' ∨ c = '-' ∨
      c ∈ natDigits (n - 1).natAbs) → isWhiteSpace c = false := by
    rintro c (h | h | h | h | h | h | h)
    · exact hds c h
    · subst h; decide
    · subst h; decide
    · subst h; decide
    · subst h; decide
    · subst h; decide
    · exact natDigits_not_ws _ c h
  intro c hc
  apply key
  unfold formatDigits at hc
  simp only at hc
  split_ifs at hc
  all_goals
    simp only [List.mem_append, List.mem_cons, List.mem_replicate] at hc
  · rcases hc with h | h
    · exact Or.inl h
    · exact Or.inr (Or.inl h.2)
  · rcases hc with h | h | h
    · exact Or.inl (List.mem_of_mem_take h)
    · exact Or.inr (Or.inr (Or.inl h))
    · exact Or.inl (List.mem_of_mem_drop h)
  · rcases hc with h | h | h | h
    · exact Or.inr (Or.inl h)
    · exact Or.inr (Or.inr (Or.inl h))
    · exact Or.inr (Or.inl h.2)
    · exact Or.inl h
  · rcases hc with h | h | h | h
    · exact Or.inl h
    · exact Or.inr (Or.inr (Or.inr (Or.inl h)))
    · exact Or.inr (Or.inr (Or.inr (Or.inr (Or.inl h))))
    · exact Or.inr (Or.inr (Or.inr (Or.inr (Or.inr (Or.inr h)))))
  · rcases hc with h | h | h | h
    · exact Or.inl h
    · exact Or.inr (Or.inr (Or.inr (Or.inl h)))
    · exact Or.inr (Or.inr (Or.inr (Or.inr (Or.inr (Or.inl h)))))
    · exact Or.inr (Or.inr (Or.inr (Or.inr (Or.inr (Or.inr h)))))
  · rcases hc with h | h | h | h | h | h
    · exact Or.inl (List.mem_of_mem_take h)
    · exact Or.inr (Or.inr (Or.inl h))
    · exact Or.inl (List.mem_of_mem_drop h)
    · exact Or.inr (Or.inr (Or.inr (Or.inl h)))
    · exact Or.inr (Or.inr (Or.inr (Or.inr (Or.inl h))))
    · exact Or.inr (Or.inr (Or.inr (Or.inr (Or.inr (Or.inr h)))))
  · rcases hc with h | h | h | h | h | h
    · exact Or.inl (List.mem_of_mem_take h)
    · exact Or.inr (Or.inr (Or.inl h))
    · exact Or.inl (List.mem_of_mem_drop h)
    · exact Or.inr (Or.inr (Or.inr (Or.inl h)))
    · exact Or.inr (Or.inr (Or.inr (Or.inr (Or.inr (Or.inl h)))))
    · exact Or.inr (Or.inr (Or.inr (Or.inr (Or.inr (Or.inr h)))))

theorem numToString_not_ws (n : JSNum) : ∀ c ∈ numToString n, isWhiteSpace c = false := by
  cases n with
  | nan => decide
  | posInf => decide
  | negInf => decide
  | fin q =>
    have hp : ∀ q : ℚ, ∀ c ∈ posToString q, isWhiteSpace c = false := by
      intro q
      unfold posToString
      exact formatDigits_not_ws _ _ (significantDigits_spec _).2
    simp only [numToString]
    split_ifs
    · decide
    · intro c hc
      rcases List.mem_cons.mp hc with h | h
      · subst h; decide
      · exact hp _ c h
    · exact hp q

theorem weightField_no_lineFeed (v : Val) : '\n' ∉ weightField v := by
  intro h
  cases v with
  | num n =>
    have := numToString_not_ws n _ h
    exact absurd this (by decide)
  | undefined => cases h
  | null => cases h
  | str s => cases h

theorem saveCSV_text (ticker : JSString) (rows : List Holding)
    (hw : ∀ r ∈ rows, r.Weight = unknown ∨ ∃ n, r.Weight = .num n) :
    (saveCSV ticker rows).2 =
      "\n".toList.intercalate ("Ticker,Weight".toList :: rows.map recordLine) := by
  have : rows.map (fun r => r.Ticker ++ ',' :: r.Weight.toStr) = rows.map recordLine := by
    apply List.map_congr_left
    intro r hr
    rcases hw r hr with h | ⟨n, h⟩
    · simp [recordLine, h, unknown, weightField, Val.toStr]
    · simp [recordLine, h, weightField, Val.toStr]
  simp only [saveCSV, this]

theorem trim_edges (s : JSString) :
    (∀ c ∈ (trim s).head?, isWhiteSpace c = false) ∧
    (∀ c ∈ (trim s).getLast?, isWhiteSpace c = false) := by
  unfold trim trimEnd trimStart
  constructor
  · intro c hc
    rw [List.head?_reverse] at hc
    have hsuf : List.dropWhile isWhiteSpace (List.dropWhile isWhiteSpace s).reverse <:+
        (List.dropWhile isWhiteSpace s).reverse := List.dropWhile_suffix _
    obtain ⟨pre, hpre⟩ := hsuf
    have hne : List.dropWhile isWhiteSpace (List.dropWhile isWhiteSpace s).reverse ≠ [] := by
      intro h
      rw [h] at hc
      cases hc
    have h2 : (List.dropWhile isWhiteSpace s).reverse.getLast? = some c := by
      rw [← hpre, List.getLast?_append_of_ne_nil _ hne]
      exact hc
    rw [List.getLast?_reverse] at h2
    exact head_dropWhile_false isWhiteSpace s c h2
  · intro c hc
    rw [List.getLast?_reverse] at hc
    exact head_dropWhile_false isWhiteSpace _ c hc

theorem holdingOfRow_ticker (t w : Nat) (row : Row) (r : Holding)
    (h : holdingOfRow t w row = some r) :
    r.Ticker ≠ [] ∧ (∀ c ∈ r.Ticker.head?, isWhiteSpace c = false) ∧
      (∀ c ∈ r.Ticker.getLast?, isWhiteSpace c = false) := by
  cases row with
  | none => cases h
  | some cells =>
    simp only [holdingOfRow] at h
    split_ifs at h with hb
    simp only [Option.some.injEq] at h
    subst h
    have hb' : isBlankCell (cellAt cells t) = false := by simpa using hb
    refine ⟨?_, (trim_edges _).1, (trim_edges _).2⟩
    intro he
    have h1 := tick_isEmpty (cellAt cells t)
    have he' : trim (cellAt cells t).toStr = [] := he
    rw [tick_eq _ hb', he', hb'] at h1
    cases h1

theorem pickTickerWeight_ok_cases (rows : List Row) (out : List Holding)
    (h : pickTickerWeight rows = .ok out) :
    out = [] ∨ ∃ r0 rest t w, rows = some r0 :: rest ∧ out = rest.filterMap (holdingOfRow t w) := by
  cases rows with
  | nil =>
    simp only [pickTickerWeight, Except.ok.injEq] at h
    exact Or.inl h.symm
  | cons r rest =>
    cases r with
    | none => cases h
    | some r0 =>
      rw [pickTickerWeight_cons] at h
      cases ht : findHeader (headerTexts r0) [symbolHeaderRe] with
      | none => rw [ht] at h; cases h
      | some t =>
        cases hw : findHeader (headerTexts r0) [weightHeaderRe, portfolioWeightRe] with
        | none => rw [ht, hw] at h; cases h
        | some w =>
          rw [ht, hw] at h
          simp only [Except.ok.injEq] at h
          exact Or.inr ⟨r0, rest, t, w, rfl, h.symm⟩

theorem filterMap_hasSymbol (t w : Nat) (rest : List Row) :
    (rest.filter (hasSymbol t)).filterMap (holdingOfRow t w) =
      rest.filterMap (holdingOfRow t w) := by
  induction rest with
  | nil => rfl
  | cons row rows ih =>
    cases row with
    | none => simp [List.filter_cons, hasSymbol, holdingOfRow, ih]
    | some cells =>
      by_cases hb : isBlankCell (cellAt cells t) = true
      · simp [List.filter_cons, hasSymbol, holdingOfRow, hb, ih]
      · simp [List.filter_cons, hasSymbol, holdingOfRow, hb, ih]

theorem toUpperCase_append (a b : JSString) :
    toUpperCase (a ++ b) = toUpperCase a ++ toUpperCase b := List.map_append _ _ _

theorem symbol_not_weight (h : JSString) (hs : isSymbolHeader h) : ¬ isWeightHeader h := by
  have hU : toUpperCase h = toUpperCase "ticker".toList ∨
      toUpperCase h = toUpperCase "symbol".toList ∨
      toUpperCase h = toUpperCase "ticker symbol".toList ∨
      toUpperCase h = toUpperCase "code".toList := hs
  intro hw
  have hforms : toUpperCase "weight".toList <+: toUpperCase h ∨
      toUpperCase "(%)".toList <:+ toUpperCase h ∨
      toUpperCase "portfolio".toList <:+: toUpperCase h := by
    rcases hw with ⟨w, mid, rfl, hwt, -⟩ | ⟨p, ws1, w, ws2, rfl, -, -, -, -⟩ | hwt |
      ⟨a, p, ws, w, b, rfl, hp, -, -⟩
    · left
      rw [toUpperCase_append, hwt]
      exact List.prefix_append _ _
    · right; left
      simp only [toUpperCase_append, ← List.append_assoc]
      exact List.suffix_append _ _
    · left
      rw [hwt]
    · right; right
      rw [toUpperCase_append, toUpperCase_append, hp]
      exact ⟨toUpperCase a, toUpperCase (ws ++ (w ++ b)), by simp⟩
  rcases hU with e | e | e | e <;> rw [e] at hforms <;> revert hforms <;> decide

theorem toDouble_eval (q : ℚ) (n d m : ℕ) (k : ℤ) (hq : 0 < q) (hn : q.num = n)
    (hd : q.den = d) (h : roundPos n d = some (m, k)) :
    toDouble q = .fin ((m : ℚ) * (2 : ℚ) ^ k) := by
  have h0 : q ≠ 0 := ne_of_gt hq
  have hna : q.num.natAbs = n := by rw [hn]; rfl
  simp only [toDouble, h0, if_false, hna, hd, h, hq, if_true]

theorem toDouble_overflow (q : ℚ) (n d : ℕ) (hq : 0 < q) (hn : q.num = n)
    (hd : q.den = d) (h : roundPos n d = none) :
    toDouble q = .posInf := by
  have h0 : q ≠ 0 := ne_of_gt hq
  have hna : q.num.natAbs = n := by rw [hn]; rfl
  simp only [toDouble, h0, if_false, hna, hd, h, hq, if_true]

theorem normalizeWeight64_fin (q : ℚ) :
    normalizeWeight64 (.num (.fin q)) = .num (if 1 < q then toDouble (q / 100) else .fin q) := by
  by_cases h : 1 < q
  · simp [normalizeWeight64, JSNum.gt, JSNum.div64, JSNum.div100, JSNum.round, h]
  · simp [normalizeWeight64, JSNum.gt, h]

theorem cleaned_numeral (s : JSString) (neg : Bool) (i : JSString)
    (frac : Option (Char × JSString)) (trailing : JSString)
    (h : LeadingNumeral i frac trailing)
    (hs : trim s = numeralText neg i frac ++ trailing) :
    s ≠ [] ∧
    parseFloat (replaceFirstChar '%' [] (firstNumberRe.replaceWithGroup1
      (replaceFirstChar ',' ['.'] (trim s)))) = .fin (numeralValue neg i frac) := by
  obtain ⟨r, hr, hshape⟩ := replaceComma_numeral neg i frac trailing h
  have hpost : ∀ c ∈ (r.dropWhile (fun x => !isLineTerminator x)).head?,
      isLineTerminator c = true := by
    intro c hc
    have := head_dropWhile_false (fun x => !isLineTerminator x) r c hc
    simpa using this
  have hpost' : ∀ c ∈ (replaceFirstChar '%' []
      (r.dropWhile (fun x => !isLineTerminator x))).head?, isLineTerminator c = true := by
    cases hd : r.dropWhile (fun x => !isLineTerminator x) with
    | nil => intro c hc; simp [replaceFirstChar] at hc
    | cons x xs =>
      rw [hd] at hpost
      have hx : isLineTerminator x = true := hpost x (by simp)
      have hne : x ≠ '%' := by rintro rfl; exact absurd hx (by decide)
      intro c hc
      simp only [replaceFirstChar, if_neg hne] at hc
      simp at hc
      subst hc
      exact hx
  have hpct : '%' ∉ dotNumeral neg i (frac.map Prod.snd) := by
    intro hm
    simp only [dotNumeral, dotDigits, List.mem_append] at hm
    rcases hm with hm | hm | hm
    · cases neg <;> simp at hm
    · exact comma_not_mem_digits i h.int_digits '%' (by decide) hm
    · cases hfo : frac.map Prod.snd with
      | none => rw [hfo] at hm; simp [dotFraction] at hm
      | some f =>
        rw [hfo] at hm
        simp only [dotFraction, List.mem_cons] at hm
        rcases hm with hm | hm
        · exact absurd hm (by decide)
        · exact comma_not_mem_digits f (hshape.frac_ok f hfo).2 '%' (by decide) hm
  constructor
  · rintro rfl
    have : trim ([] : JSString) = [] := rfl
    rw [this] at hs
    have hl := congrArg List.length hs
    simp only [numeralText, List.length_append, List.length_nil] at hl
    have := List.length_pos.mpr h.int_ne
    omega
  · rw [hs, hr, firstNumberRe_replace neg i _ r hshape,
      replaceFirstChar_append_of_not_mem _ _ _ _ hpct,
      parseFloat_numeral neg i _ _ hshape.int_ne hshape.int_digits hshape.frac_ok hpost']
    rfl

theorem normalizeWeight64_str (s : JSString) (hne : s ≠ []) (q : ℚ)
    (hp : parseFloat (replaceFirstChar '%' [] (firstNumberRe.replaceWithGroup1
      (replaceFirstChar ',' ['.'] (trim s)))) = .fin q) :
    normalizeWeight64 (.str s) =
      if !(toDouble q).isFinite then .str []
      else .num (if (toDouble q).gt (.fin 1) then (toDouble q).div64 else toDouble q) := by
  cases s with
  | nil => exact absurd rfl hne
  | cons c cs =>
    simp only [normalizeWeight64, parseFloat64, hp, JSNum.round]

theorem normalizeWeight64_numeral (s : JSString) (neg : Bool) (i : JSString)
    (frac : Option (Char × JSString)) (trailing : JSString)
    (h : LeadingNumeral i frac trailing)
    (hs : trim s = numeralText neg i frac ++ trailing) :
    (∀ n : ℚ, toDouble (numeralValue neg i frac) = .fin n →
      normalizeWeight64 (.str s) = normalizeWeight64 (.num (.fin n))) ∧
    (toDouble (numeralValue neg i frac) = .posInf ∨
      toDouble (numeralValue neg i frac) = .negInf → normalizeWeight64 (.str s) = .str []) := by
  obtain ⟨hne, hp⟩ := cleaned_numeral s neg i frac trailing h hs
  have e := normalizeWeight64_str s hne _ hp
  constructor
  · intro n hn
    rw [e, hn]
    simp [JSNum.isFinite, normalizeWeight64]
  · rintro (hn | hn) <;> rw [e, hn] <;> rfl

theorem toDouble_013 :
    toDouble (13 / 1000) = .fin (7493989779944505 / 2 ^ 59) := by
  rw [toDouble_eval (13 / 1000) 13 1000
    7493989779944505 (-59) (by norm_num) (by norm_num) (by norm_num) (by decide)]
  norm_num

theorem toDouble_013_times :
    toDouble (100 * (7493989779944505 / 2 ^ 59)) = .fin (5854679515581645 / 2 ^ 52) := by
  rw [toDouble_eval (100 * (7493989779944505 / 2 ^ 59)) 187349744498612625 144115188075855872
    5854679515581645 (-52) (by norm_num) (by norm_num) (by norm_num) (by decide)]
  norm_num

theorem toDouble_013_back :
    toDouble (5854679515581645 / 2 ^ 52 / 100) = .fin (7493989779944506 / 2 ^ 59) := by
  rw [toDouble_eval (5854679515581645 / 2 ^ 52 / 100) 1170935903116329 90071992547409920
    7493989779944506 (-59) (by norm_num) (by norm_num) (by norm_num) (by decide)]
  norm_num

theorem toDouble_013_printed :
    toDouble (13000000000000001 / 1000000000000000000) = .fin (7493989779944506 / 2 ^ 59) := by
  rw [toDouble_eval (13000000000000001 / 1000000000000000000) 13000000000000001 1000000000000000000
    7493989779944506 (-59) (by norm_num) (by norm_num) (by norm_num) (by decide)]
  norm_num

theorem toDouble_half :
    toDouble (1 / 2) = .fin (1 / 2) := by
  rw [toDouble_eval (1 / 2) 1 2
    4503599627370496 (-53) (by norm_num) (by norm_num) (by norm_num) (by decide)]
  norm_num

theorem toDouble_quarter :
    toDouble (1 / 4) = .fin (1 / 4) := by
  rw [toDouble_eval (1 / 4) 1 4
    4503599627370496 (-54) (by norm_num) (by norm_num) (by norm_num) (by decide)]
  norm_num

theorem toDouble_one :
    toDouble (1) = .fin (1) := by
  rw [toDouble_eval (1) 1 1
    4503599627370496 (-52) (by norm_num) (by norm_num) (by norm_num) (by decide)]
  norm_num

theorem toDouble_two :
    toDouble (2) = .fin (2) := by
  rw [toDouble_eval (2) 2 1
    4503599627370496 (-51) (by norm_num) (by norm_num) (by norm_num) (by decide)]
  norm_num

theorem toDouble_fifty :
    toDouble (50) = .fin (50) := by
  rw [toDouble_eval (50) 50 1
    7036874417766400 (-47) (by norm_num) (by norm_num) (by norm_num) (by decide)]
  norm_num

theorem toDouble_fifty_div :
    toDouble (50 / 100) = .fin (1 / 2) := by
  rw [toDouble_eval (50 / 100) 1 2
    4503599627370496 (-53) (by norm_num) (by norm_num) (by norm_num) (by decide)]
  norm_num

theorem toDouble_twentyfive :
    toDouble (100 * (1 / 4)) = .fin (100 * (1 / 4)) := by
  rw [toDouble_eval (100 * (1 / 4)) 25 1
    7036874417766400 (-48) (by norm_num) (by norm_num) (by norm_num) (by decide)]
  norm_num

theorem toDouble_fiftieth :
    toDouble (2 / 100) = .fin (5764607523034235 / 2 ^ 58) := by
  rw [toDouble_eval (2 / 100) 1 50
    5764607523034235 (-58) (by norm_num) (by norm_num) (by norm_num) (by decide)]
  norm_num

theorem toDouble_comma :
    toDouble (25 / 2) = .fin (25 / 2) := by
  rw [toDouble_eval (25 / 2) 25 2
    7036874417766400 (-49) (by norm_num) (by norm_num) (by norm_num) (by decide)]
  norm_num

theorem toDouble_eighth :
    toDouble (25 / 2 / 100) = .fin (1 / 8) := by
  rw [toDouble_eval (25 / 2 / 100) 1 8
    4503599627370496 (-55) (by norm_num) (by norm_num) (by norm_num) (by decide)]
  norm_num

theorem toDouble_note :
    toDouble (123 / 100) = .fin (5539427541665710 / 2 ^ 52) := by
  rw [toDouble_eval (123 / 100) 123 100
    5539427541665710 (-52) (by norm_num) (by norm_num) (by norm_num) (by decide)]
  norm_num

theorem toDouble_note_div :
    toDouble (5539427541665710 / 2 ^ 52 / 100) = .fin (7090467253332109 / 2 ^ 59) := by
  rw [toDouble_eval (5539427541665710 / 2 ^ 52 / 100) 553942754166571 45035996273704960
    7090467253332109 (-59) (by norm_num) (by norm_num) (by norm_num) (by decide)]
  norm_num

theorem toDouble_note_printed :
    toDouble (123 / 10000) = .fin (7090467253332109 / 2 ^ 59) := by
  rw [toDouble_eval (123 / 10000) 123 10000
    7090467253332109 (-59) (by norm_num) (by norm_num) (by norm_num) (by decide)]
  norm_num

theorem toDouble_long :
    toDouble (10000000000000000001 / 10000000000000000000) = .fin (1) := by
  rw [toDouble_eval (10000000000000000001 / 10000000000000000000) 10000000000000000001 10000000000000000000
    4503599627370496 (-52) (by norm_num) (by norm_num) (by norm_num) (by decide)]
  norm_num

theorem toDouble_ne_nan (q : ℚ) : toDouble q ≠ .nan := by
  unfold toDouble
  by_cases h0 : q = 0
  · simp [h0]
  · simp only [h0, if_false]
    cases roundPos q.num.natAbs q.den with
    | none => by_cases hq : 0 < q <;> simp [hq]
    | some p => simp

theorem toDouble_eval_neg (q : ℚ) (n d m : ℕ) (k : ℤ) (hq : q < 0) (hn : q.num = -(n : ℤ))
    (hd : q.den = d) (h : roundPos n d = some (m, k)) :
    toDouble q = .fin (-(m : ℚ) * (2 : ℚ) ^ k) := by
  have h0 : q ≠ 0 := ne_of_lt hq
  have hna : q.num.natAbs = n := by rw [hn]; simp
  have hq' : ¬ (0 < q) := not_lt.mpr (le_of_lt hq)
  simp only [toDouble, h0, if_false, hna, hd, h, hq']

theorem toDouble_neg375 : toDouble (-(15 / 4)) = .fin (-(15 / 4)) := by
  rw [toDouble_eval_neg (-(15 / 4)) 15 4 8444249301319680 (-51) (by norm_num) (by norm_num)
    (by norm_num) (by decide)]
  norm_num

theorem nines_digit (n : Nat) : ∀ c ∈ List.replicate n '9', isDigit c = true :=
  fun c hc => by rw [List.eq_of_mem_replicate hc]; rfl

theorem nines_shape (n : Nat) : LeadingNumeral (List.replicate (n + 1) '9') none [] :=
  ⟨fun h => (by cases h), nines_digit _, fun p hp => (by cases hp), fun c hc => (by cases hc),
    fun _ sep c rest h => (by cases h)⟩

theorem numeralText_plain (i : JSString) : numeralText false i none ++ [] = i := by
  simp [numeralText, fracText]

theorem nines_value (n : Nat) :
    numeralValue false (List.replicate n '9') none =
      ((digitsValue (List.replicate n '9') : ℕ) : ℚ) := by
  simp only [numeralValue, dotValue, decimalValue, Option.map, Option.getD, List.append_nil,
    List.length_nil, pow_zero, div_one]
  rfl

set_option maxRecDepth 100000 in
theorem nines_overflow :
    toDouble (numeralValue false (List.replicate 400 '9') none) = .posInf := by
  rw [nines_value]
  refine toDouble_overflow _ (digitsValue (List.replicate 400 '9')) 1 ?_ (Rat.num_natCast _)
    (Rat.den_natCast _) (by decide)
  have : 0 < digitsValue (List.replicate 400 '9') := by decide
  exact_mod_cast this

theorem trim_nines (n : Nat) : trim (List.replicate n '9') = List.replicate n '9' := by
  have h : ∀ n, List.dropWhile isWhiteSpace (List.replicate n '9') = List.replicate n '9' := by
    intro n
    cases n with
    | zero => rfl
    | succ k =>
      rw [List.replicate_succ, List.dropWhile_cons_of_neg]
      decide
  unfold trim trimStart trimEnd
  rw [h, List.reverse_replicate, h, List.reverse_replicate]

theorem normalizeWeight64_comma :
    normalizeWeight64 (.str "12,5%".toList) = .num (.fin (1 / 8)) := by
  have h := (normalizeWeight64_numeral "12,5%".toList false "12".toList
    (some (',', "5".toList)) "%".toList
    ⟨by decide, by decide, by decide, by decide, by simp⟩ (by decide)).1
  have hv : numeralValue false "12".toList (some (',', "5".toList)) = 25 / 2 := by
    have hd : digitsValue ("12".toList ++ "5".toList) = 125 := by decide
    have hl : "5".toList.length = 1 := by decide
    simp only [numeralValue, dotValue, decimalValue, Option.map, Option.getD, hd, hl]
    norm_num
  rw [hv] at h
  rw [h _ toDouble_comma, normalizeWeight64_fin, if_pos (by norm_num), toDouble_eighth]

theorem normalizeWeight64_note :
    normalizeWeight64 (.str "1.23 (est.)".toList) = .num (toDouble (123 / 10000)) := by
  have h := (normalizeWeight64_numeral "1.23 (est.)".toList false "1".toList
    (some ('.', "23".toList)) " (est.)".toList
    ⟨by decide, by decide, by decide, by decide, by simp⟩ (by decide)).1
  have hv : numeralValue false "1".toList (some ('.', "23".toList)) = 123 / 100 := by
    have hd : digitsValue ("1".toList ++ "23".toList) = 123 := by decide
    have hl : "23".toList.length = 2 := by decide
    simp only [numeralValue, dotValue, decimalValue, Option.map, Option.getD, hd, hl]
    norm_num
  rw [hv] at h
  rw [h _ toDouble_note, normalizeWeight64_fin, if_pos (by norm_num), toDouble_note_div,
    toDouble_note_printed]

theorem normalizeWeight64_long :
    normalizeWeight64 (.str "1.0000000000000000001".toList) = .num (.fin 1) := by
  have h := (normalizeWeight64_numeral "1.0000000000000000001".toList false "1".toList
    (some ('.', "0000000000000000001".toList)) []
    ⟨by decide, by decide, by decide, by decide, by simp⟩ (by decide)).1
  have hv : numeralValue false "1".toList (some ('.', "0000000000000000001".toList)) =
      10000000000000000001 / 10000000000000000000 := by
    have hd : digitsValue ("1".toList ++ "0000000000000000001".toList) =
      10000000000000000001 := by decide
    have hl : "0000000000000000001".toList.length = 19 := by decide
    simp only [numeralValue, dotValue, decimalValue, Option.map, Option.getD, hd, hl]
    norm_num
  rw [hv] at h
  rw [h _ toDouble_long, normalizeWeight64_fin, if_neg (by norm_num)]

theorem mainStepOn_eq (fs : FileSystem) (w : World) (st : RunState) (e : JSString × Info) :
    mainStepOn fs w st e =
      match updatedFile fs w e with
      | none => st
      | some file => { files := st.files ++ [file], ok := st.ok ++ [e.1] } := by
  unfold mainStepOn updatedFile savedRecords
  cases (fetchHoldings w e.1 e.2).result with
  | error err => rfl
  | ok rows =>
    simp only
    split_ifs
    · rfl
    · simp only
      cases saveCSVOn fs e.1 rows <;> rfl

theorem foldl_mainStepOn (fs : FileSystem) (w : World) :
    ∀ (entries : List (JSString × Info)) (st : RunState),
      entries.foldl (mainStepOn fs w) st =
        { files := st.files ++ entries.filterMap (updatedFile fs w),
          ok := st.ok ++ entries.filterMap (fun e => (updatedFile fs w e).map (fun _ => e.1)) } := by
  intro entries
  induction entries with
  | nil => intro st; simp
  | cons e es ih =>
    intro st
    rw [List.foldl_cons, ih, mainStepOn_eq]
    cases h : updatedFile fs w e with
    | none => simp [h]
    | some file => simp [h]

theorem updated_eq_filter (fs : FileSystem) (w : World) (entries : List (JSString × Info)) :
    entries.filterMap (fun e => (updatedFile fs w e).map (fun _ => e.1)) =
      (entries.filter (fun e => (updatedFile fs w e).isSome)).map Prod.fst := by
  induction entries with
  | nil => rfl
  | cons e es ih =>
    cases h : updatedFile fs w e with
    | none => simp [List.filterMap_cons, List.filter_cons, h, ih]
    | some rows => simp [List.filterMap_cons, List.filter_cons, h, ih]

theorem mainOn_ok (fs : FileSystem) (w : World) (entries : List (JSString × Info))
    (now : JSString) (out : List (JSString × JSString) × Manifest)
    (h : mainOn fs w entries now = .ok out) :
    out = (entries.filterMap (updatedFile fs w),
      { updatedAt := now,
        tickers := (entries.filter (fun e => (updatedFile fs w e).isSome)).map Prod.fst }) := by
  unfold mainOn at h
  rw [foldl_mainStepOn, updated_eq_filter] at h
  simp only [List.nil_append] at h
  split at h
  · cases h
  · split at h
    · cases h
    · simp only [Except.ok.injEq] at h
      exact h.symm

theorem mainOn_returns (fs : FileSystem) (w : World) (entries : List (JSString × Info))
    (now : JSString) (hm : fs.mkdirSync = .ok ()) (hw : ∀ m, fs.writeManifest m = .ok ()) :
    ∃ out, mainOn fs w entries now = .ok out := by
  unfold mainOn
  rw [hm]
  simp only [hw]
  exact ⟨_, rfl⟩

theorem updatedFile_isSome (fs : FileSystem) (w : World) (e : JSString × Info) :
    (updatedFile fs w e).isSome = true ↔
      ∃ rows, (fetchHoldings w e.1 e.2).result = .ok rows ∧ rows ≠ [] ∧
        fs.writeFileSync (saveCSV e.1 rows).1 (saveCSV e.1 rows).2 = .ok () := by
  unfold updatedFile savedRecords saveCSVOn
  cases (fetchHoldings w e.1 e.2).result with
  | error err => simp
  | ok rows =>
    cases rows with
    | nil => simp
    | cons r rs =>
      cases hw : fs.writeFileSync (saveCSV e.1 (r :: rs)).1 (saveCSV e.1 (r :: rs)).2 with
      | error err => simp [hw]
      | ok u => simp [hw]

theorem mainOn_accepting (w : World) (entries : List (JSString × Info)) (now : JSString) :
    mainOn acceptingFS w entries now = .ok (main w entries now) := by
  have hstep : mainStepOn acceptingFS w = mainStep w := by
    funext st e
    unfold mainStepOn mainStep saveCSVOn acceptingFS
    rfl
  unfold mainOn main
  rw [hstep]
  rfl

theorem slash_updated :
    (slashConfig.filter (fun e => (updatedFile flatFS scenarioWorld e).isSome)).map Prod.fst =
      ["XYZ".toList] := by
  have h1 : updatedFile flatFS scenarioWorld
      ("BRK/B".toList, { source := some "csv".toList, url := some scenarioUrl }) = none := by
    have hs : savedRecords scenarioWorld
        ("BRK/B".toList, { source := some "csv".toList, url := some scenarioUrl }) =
        some [{ Ticker := "AAA".toList, Weight := .num (.fin (1 / 20)) },
           { Ticker := "BBB".toList, Weight := .str [] }] := by
      have hr : (fetchHoldings scenarioWorld "BRK/B".toList
          { source := some "csv".toList, url := some scenarioUrl }).result =
          pickTickerWeight (csvToRows scenarioText) := rfl
      simp only [savedRecords, hr, scenario_rows]
      rfl
    have hn : (saveCSV "BRK/B".toList [{ Ticker := "AAA".toList, Weight := .num (.fin (1 / 20)) },
           { Ticker := "BBB".toList, Weight := .str [] }]).1 = "BRK/B.csv".toList := by
      simp only [saveCSV]
      decide
    simp only [updatedFile, hs, saveCSVOn, flatFS, hn]
    decide
  have h2 : (updatedFile flatFS scenarioWorld
      ("XYZ".toList, { source := some "csv".toList, url := some scenarioUrl })).isSome = true := by
    have hs : savedRecords scenarioWorld
        ("XYZ".toList, { source := some "csv".toList, url := some scenarioUrl }) =
        some [{ Ticker := "AAA".toList, Weight := .num (.fin (1 / 20)) },
           { Ticker := "BBB".toList, Weight := .str [] }] := by
      have hr : (fetchHoldings scenarioWorld "XYZ".toList
          { source := some "csv".toList, url := some scenarioUrl }).result =
          pickTickerWeight (csvToRows scenarioText) := rfl
      simp only [savedRecords, hr, scenario_rows]
      rfl
    simp only [updatedFile, hs, saveCSVOn, flatFS, scenario_saved]
    decide
  simp only [slashConfig, List.filter_cons, h1, h2, List.filter_nil]
  rfl

/-! ## The claims -/

/-- C1: for every finite numeric input `v`, `normalizeWeight v` is `v / 100` when `v > 1`, and
`v` itself when `0 ≤ v ≤ 1`; the value 1 is passed through unscaled. -/
theorem normalizeWeight_number (v : ℚ) :
    (1 < v → normalizeWeight (.num (.fin v)) = .num (.fin (v / 100))) ∧
    (0 ≤ v → v ≤ 1 → normalizeWeight (.num (.fin v)) = .num (.fin v)) ∧
    normalizeWeight (.num (.fin 1)) = .num (.fin 1) := by
  refine ⟨fun h => ?_, fun _ h => ?_, ?_⟩
  · simp [normalizeWeight, JSNum.gt, JSNum.div100, h]
  · simp [normalizeWeight, JSNum.gt, not_lt.mpr h]
  · simp [normalizeWeight, JSNum.gt]

/-- Witness of C1 at the inputs 5 and 1/2. -/
theorem normalizeWeight_number_witness :
    normalizeWeight (.num (.fin 5)) = .num (.fin (5 / 100)) ∧
    normalizeWeight (.num (.fin (1 / 2))) = .num (.fin (1 / 2)) :=
  ⟨(normalizeWeight_number 5).1 (by norm_num),
   (normalizeWeight_number (1 / 2)).2.1 (by norm_num) (by norm_num)⟩

/-- C2, counterexample: the numeric cell 150 is normalised to 1.5, which is neither "unknown"
nor a number in [0, 1], and `pickTickerWeight` returns a record with that weight. -/
theorem normalizeWeight_range_counterexample :
    normalizeWeight (.num (.fin 150)) = .num (.fin (3 / 2)) ∧
    normalizeWeight (.num (.fin 150)) ≠ unknown ∧
    ¬ inUnitInterval (normalizeWeight (.num (.fin 150))) ∧
    pickTickerWeight [some [.str "Ticker".toList, .str "Weight".toList],
      some [.str "A".toList, .num (.fin 150)]] =
      .ok [{ Ticker := "A".toList, Weight := .num (.fin (3 / 2)) }] := by
  have h : (1 : ℚ) < 150 := by norm_num
  have e : normalizeWeight (.num (.fin 150)) = .num (.fin (3 / 2)) := by
    simp only [normalizeWeight, JSNum.gt, h, decide_True, if_true, JSNum.div100]
    norm_num
  refine ⟨e, ?_, ?_, ?_⟩
  · rw [e]
    simp [unknown]
  · rw [inUnitInterval_num]
    norm_num
  · have h2 : pickTickerWeight [some [.str "Ticker".toList, .str "Weight".toList],
        some [.str "A".toList, .num (.fin 150)]] =
        .ok [{ Ticker := "A".toList, Weight := normalizeWeight (.num (.fin 150)) }] := by
      rw [pickTickerWeight_cons,
        show findHeader (headerTexts [.str "Ticker".toList, .str "Weight".toList])
          [symbolHeaderRe] = some 0 by decide,
        show findHeader (headerTexts [.str "Ticker".toList, .str "Weight".toList])
          [weightHeaderRe, portfolioWeightRe] = some 1 by decide]
      rfl
    rw [h2, e]

/-- C2, amended: `normalizeWeight` returns "unknown" or a number, which is the result for the
numeric cell itself or, for a text cell, for some finite number; for a finite number `q` the
result lies in [0, 1] exactly when `0 ≤ q ≤ 100`; every record returned by `pickTickerWeight`
has a weight that is "unknown" or a number and is `normalizeWeight` of a cell of a data row. -/
theorem normalizeWeight_range :
    (∀ v : Val, normalizeWeight v = unknown ∨
      ∃ n r, normalizeWeight v = .num r ∧ normalizeWeight (.num n) = .num r ∧
        (v = .num n ∨ ∃ q, n = .fin q)) ∧
    (∀ q : ℚ, inUnitInterval (normalizeWeight (.num (.fin q))) ↔ 0 ≤ q ∧ q ≤ 100) ∧
    (∀ (rows : List Row) (out : List Holding), pickTickerWeight rows = .ok out →
      ∀ r ∈ out, (r.Weight = unknown ∨ ∃ n, r.Weight = .num n) ∧
        ∃ cells w, some cells ∈ rows.tail ∧ r.Weight = normalizeWeight (cellAt cells w)) := by
  refine ⟨normalizeWeight_cases, inUnitInterval_num, ?_⟩
  intro rows out h r hr
  obtain ⟨cells, w, hc, hw⟩ := pickTickerWeight_weight_source rows out h r hr
  refine ⟨?_, cells, w, hc, hw⟩
  rw [hw]
  rcases normalizeWeight_cases (cellAt cells w) with hu | ⟨n, r', h1, -, -⟩
  · exact Or.inl hu
  · exact Or.inr ⟨r', h1⟩

/-- Witness of the amended C2 at the number 50 and at a two-row table. -/
theorem normalizeWeight_range_witness :
    inUnitInterval (normalizeWeight (.num (.fin 50))) ∧
    ((Val.str [] = unknown ∨ ∃ n, Val.str [] = .num n) ∧
      ∃ cells w,
        some cells ∈ [some [Val.str "Ticker".toList, .str "Weight".toList],
          some [.str "A".toList, .str "n/a".toList]].tail ∧
        Val.str [] = normalizeWeight (cellAt cells w)) :=
  ⟨(normalizeWeight_range.2.1 50).mpr ⟨by norm_num, by norm_num⟩,
   normalizeWeight_range.2.2
     [some [.str "Ticker".toList, .str "Weight".toList], some [.str "A".toList, .str "n/a".toList]]
     [{ Ticker := "A".toList, Weight := .str [] }] (by decide)
     { Ticker := "A".toList, Weight := .str [] } (List.mem_singleton.mpr rfl)⟩

/-- C3: when the header row `r0` resolves to the columns `t` and `w`, `pickTickerWeight` returns
the records of the data rows in input order: an absent row and a row whose cell `t` is
absent, empty or white space only are dropped, and every other row gives its trimmed cell
`t` with `normalizeWeight` of its cell `w`. The header row gives no record, nothing is
reordered and repeated symbols are kept. -/
theorem pickTickerWeight_rows (r0 : List Val) (rest : List Row) (t w : Nat)
    (ht : findHeader (headerTexts r0) [symbolHeaderRe] = some t)
    (hw : findHeader (headerTexts r0) [weightHeaderRe, portfolioWeightRe] = some w) :
    pickTickerWeight (some r0 :: rest) = .ok (rest.filterMap (holdingOfRow t w)) := by
  rw [pickTickerWeight_cons, ht, hw]

/-- Witness of C3 at a table with an absent row, a blank symbol, a short row and a repeated
symbol. -/
theorem pickTickerWeight_rows_witness :
    pickTickerWeight
      (some [.str "Ticker".toList, .str "Weight".toList] ::
        [none, some [.str " AAA ".toList, .str []], some [.str "  ".toList, .str "7".toList],
         some [.num (.fin 3)], some [.str "AAA".toList, .null]]) =
      .ok (List.filterMap (holdingOfRow 0 1)
        [none, some [.str " AAA ".toList, .str []], some [.str "  ".toList, .str "7".toList],
         some [.num (.fin 3)], some [.str "AAA".toList, .null]]) :=
  pickTickerWeight_rows _ _ 0 1 (by decide) (by decide)

/-- C4, counterexample: the text written for the scenario is not the text that ends with a
line terminator. -/
theorem endToEnd_counterexample :
    writtenText "XYZ".toList scenarioText ≠
      .ok "Ticker,Weight\nAAA,0.05\nBBB,\n".toList := by
  rw [scenario_written]
  decide

/-- C4, amended: for the scenario configuration and fetched text, the text written to `XYZ.csv`
is the header line, `AAA,0.05` and `BBB,` joined by line feeds, without a final line
terminator; that file is the only one written and the manifest lists `XYZ`. -/
theorem endToEnd_scenario (w : World) (now : JSString) (status : Nat)
    (hf : w.fetch (some scenarioUrl) =
      .ok { ok := true, status := status, body := scenarioText }) :
    writtenText "XYZ".toList scenarioText = .ok "Ticker,Weight\nAAA,0.05\nBBB,".toList ∧
    (main w scenarioConfig now).1 =
      [("XYZ.csv".toList, "Ticker,Weight\nAAA,0.05\nBBB,".toList)] ∧
    "XYZ".toList ∈ (main w scenarioConfig now).2.tickers := by
  rw [scenario_main w now status hf]
  exact ⟨scenario_written, rfl, by simp⟩

/-- Witness of the amended C4 for a world whose fetch answers 200 with the scenario text. -/
theorem endToEnd_scenario_witness :
    writtenText "XYZ".toList scenarioText = .ok "Ticker,Weight\nAAA,0.05\nBBB,".toList ∧
    (main scenarioWorld scenarioConfig "2024-01-01T00:00:00.000Z".toList).1 =
      [("XYZ.csv".toList, "Ticker,Weight\nAAA,0.05\nBBB,".toList)] ∧
    "XYZ".toList ∈
      (main scenarioWorld scenarioConfig "2024-01-01T00:00:00.000Z".toList).2.tickers :=
  endToEnd_scenario scenarioWorld _ 200 rfl

/-- C5, counterexample: the numeral of 400 nines is a decimal numeral beyond the finite
range of a double; `normalizeWeight` of the text is "unknown", whereas `normalizeWeight` of
the number that the numeral denotes, `Infinity`, is `Infinity` (`normalizeWeight64` is
`normalizeWeight` with the rounding of the engine). -/
theorem normalizeWeight_numeral_overflow_counterexample :
    LeadingNumeral (List.replicate 400 '9') none [] ∧
    trim (List.replicate 400 '9') = numeralText false (List.replicate 400 '9') none ++ [] ∧
    toDouble (numeralValue false (List.replicate 400 '9') none) = .posInf ∧
    normalizeWeight64 (.str (List.replicate 400 '9')) = unknown ∧
    normalizeWeight64 (.num .posInf) = .num .posInf ∧
    normalizeWeight64 (.str (List.replicate 400 '9')) ≠
      normalizeWeight64 (.num (toDouble (numeralValue false (List.replicate 400 '9') none))) := by
  have ht : trim (List.replicate 400 '9') =
      numeralText false (List.replicate 400 '9') none ++ [] := by
    rw [trim_nines, numeralText_plain]
  have hu : normalizeWeight64 (.str (List.replicate 400 '9')) = unknown :=
    (normalizeWeight64_numeral _ false _ none [] (nines_shape 399) ht).2 (Or.inl nines_overflow)
  have hi : normalizeWeight64 (.num .posInf) = .num .posInf := rfl
  refine ⟨nines_shape 399, ht, nines_overflow, hu, hi, ?_⟩
  rw [hu, nines_overflow, hi]
  intro h
  cases h

/-- C5, amended: when the trimmed text starts with a decimal numeral (an optional minus
sign, digits, optionally `.` or `,` and digits) taken maximally, the numeral is read as the
nearest double `n`; when `n` is finite, `normalizeWeight` of the text is `normalizeWeight` of
the number `n`, that is `n / 100` when `n > 1` and `n` otherwise; when the numeral is beyond
the finite range, the result is "unknown". The text `12,5%` gives 0.125, the text
`1.23 (est.)` gives 0.0123, and `1.0000000000000000001` is read as 1 and gives 1. Stated
for `normalizeWeight64`, which is `normalizeWeight` with the rounding of the engine. -/
theorem normalizeWeight_leading_numeral :
    (∀ (s : JSString) (neg : Bool) (i : JSString) (frac : Option (Char × JSString))
        (trailing : JSString),
      LeadingNumeral i frac trailing → trim s = numeralText neg i frac ++ trailing →
        (∀ n : ℚ, toDouble (numeralValue neg i frac) = .fin n →
          normalizeWeight64 (.str s) = normalizeWeight64 (.num (.fin n)) ∧
          normalizeWeight64 (.str s) = .num (if 1 < n then toDouble (n / 100) else .fin n)) ∧
        (toDouble (numeralValue neg i frac) = .posInf ∨
          toDouble (numeralValue neg i frac) = .negInf →
            normalizeWeight64 (.str s) = unknown) ∧
        toDouble (numeralValue neg i frac) ≠ .nan) ∧
    normalizeWeight64 (.str "12,5%".toList) = .num (.fin (1 / 8)) ∧
    normalizeWeight64 (.str "1.23 (est.)".toList) = .num (toDouble (123 / 10000)) ∧
    normalizeWeight64 (.str "1.0000000000000000001".toList) = .num (.fin 1) := by
  refine ⟨?_, normalizeWeight64_comma, normalizeWeight64_note, normalizeWeight64_long⟩
  intro s neg i frac trailing h hs
  have e := normalizeWeight64_numeral s neg i frac trailing h hs
  refine ⟨fun n hn => ⟨e.1 n hn, ?_⟩, e.2, toDouble_ne_nan _⟩
  rw [e.1 n hn, normalizeWeight64_fin]

/-- Witness of the amended C5 at a text with surrounding white space, a minus sign, a
decimal comma and a second line. -/
theorem normalizeWeight_leading_numeral_witness :
    normalizeWeight64 (.str "  -3,75 pct\nof fund ".toList) =
      normalizeWeight64 (.num (.fin (-(15 / 4)))) ∧
    normalizeWeight64 (.str "  -3,75 pct\nof fund ".toList) =
      .num (if 1 < (-(15 / 4) : ℚ) then toDouble (-(15 / 4) / 100) else .fin (-(15 / 4))) :=
  (normalizeWeight_leading_numeral.1 "  -3,75 pct\nof fund ".toList true "3".toList
    (some (',', "75".toList)) " pct\nof fund".toList
    ⟨by decide, by decide, by decide, by decide, by simp⟩ (by decide)).1 (-(15 / 4))
    (by
      have hv : numeralValue true "3".toList (some (',', "75".toList)) = -(15 / 4) := by
        have hd : digitsValue ("3".toList ++ "75".toList) = 375 := by decide
        have hl : "75".toList.length = 2 := by decide
        simp only [numeralValue, dotValue, decimalValue, Option.map, Option.getD, hd, hl]
        norm_num
      rw [hv]
      exact toDouble_neg375)

/-- C6: `normalizeWeight` is a total function; it returns "unknown" for `null`, for
`undefined`, for the empty string and for every string without a decimal digit, and for
every string the result is "unknown" or a finite number. -/
theorem normalizeWeight_unknown :
    normalizeWeight .null = unknown ∧
    normalizeWeight .undefined = unknown ∧
    normalizeWeight (.str []) = unknown ∧
    (∀ s : JSString, (∀ c ∈ s, isDigit c = false) → normalizeWeight (.str s) = unknown) ∧
    (∀ s : JSString, normalizeWeight (.str s) = unknown ∨
      ∃ q : ℚ, normalizeWeight (.str s) = .num (.fin q)) := by
  refine ⟨rfl, rfl, rfl, normalizeWeight_nodigit, ?_⟩
  intro s
  rcases normalizeWeight_str_cases s with h | ⟨q, hq⟩
  · exact Or.inl h
  · exact Or.inr ⟨_, by rw [hq, normalizeWeight_fin]⟩

/-- Witness of C6 at a text without digits. -/
theorem normalizeWeight_unknown_witness :
    normalizeWeight (.str "n/a -- (Infinity%)".toList) = unknown :=
  normalizeWeight_unknown.2.2.2.1 "n/a -- (Infinity%)".toList (by decide)

/-- C7, counterexample: the magnitude of -5 is greater than 1, yet `normalizeWeight (-5)` is
-5 itself and not -5/100. -/
theorem normalizeWeight_magnitude_counterexample :
    1 < |(-5 : ℚ)| ∧
    normalizeWeight (.num (.fin (-5))) = .num (.fin (-5)) ∧
    normalizeWeight (.num (.fin (-5))) ≠ .num (.fin (-5 / 100)) := by
  have h : ¬ ((1 : ℚ) < -5) := by norm_num
  refine ⟨by norm_num, ?_, ?_⟩
  · simp [normalizeWeight, JSNum.gt, h]
  · simp [normalizeWeight, JSNum.gt, h]
    norm_num

/-- C7, amended: the test is on the value, not on the magnitude: for a numeric `v > 1` the
result is `v / 100`; for every numeric `v ≤ 1`, negative values included, it is `v`. -/
theorem normalizeWeight_signed (v : ℚ) :
    (1 < v → normalizeWeight (.num (.fin v)) = .num (.fin (v / 100))) ∧
    (v ≤ 1 → normalizeWeight (.num (.fin v)) = .num (.fin v)) := by
  refine ⟨fun h => ?_, fun h => ?_⟩
  · simp [normalizeWeight, JSNum.gt, JSNum.div100, h]
  · simp [normalizeWeight, JSNum.gt, not_lt.mpr h]

/-- Witness of the amended C7 at the inputs 250 and -5. -/
theorem normalizeWeight_signed_witness :
    normalizeWeight (.num (.fin 250)) = .num (.fin (250 / 100)) ∧
    normalizeWeight (.num (.fin (-5))) = .num (.fin (-5)) :=
  ⟨(normalizeWeight_signed 250).1 (by norm_num), (normalizeWeight_signed (-5)).2 (by norm_num)⟩

/-- C8: `pickTickerWeight` fails with the missing-columns error carrying `hdr` exactly when the
table has a header row `r0`, `hdr` is the list of its trimmed texts, and no cell of `r0` is
accepted as symbol header or no cell of `r0` is accepted as weight header. The table without
rows gives the empty sequence; the header `Symbol`, `Weight (%)` resolves to the columns 0
and 1; the header `Name`, `Value` fails. -/
theorem pickTickerWeight_missingColumns :
    (∀ (rows : List Row) (hdr : List JSString),
      pickTickerWeight rows = .error (.missingColumns hdr) ↔
        ∃ r0 rest, rows = some r0 :: rest ∧ hdr = headerTexts r0 ∧
          ((∀ x ∈ r0, ¬ isSymbolHeader (trim x.toStr)) ∨
           (∀ x ∈ r0, ¬ isWeightHeader (trim x.toStr)))) ∧
    pickTickerWeight [] = .ok [] ∧
    findHeader (headerTexts [.str "Symbol".toList, .str "Weight (%)".toList])
      [symbolHeaderRe] = some 0 ∧
    findHeader (headerTexts [.str "Symbol".toList, .str "Weight (%)".toList])
      [weightHeaderRe, portfolioWeightRe] = some 1 ∧
    pickTickerWeight [some [.str "Name".toList, .str "Value".toList]] =
      .error (.missingColumns ["Name".toList, "Value".toList]) := by
  refine ⟨?_, rfl, by decide, by decide, by decide⟩
  intro rows hdr
  cases rows with
  | nil =>
    constructor
    · intro h; cases h
    · rintro ⟨r0, rest, h, -⟩; cases h
  | cons r rest =>
    cases r with
    | none =>
      constructor
      · intro h; cases h
      · rintro ⟨r0, rest', h, -⟩; cases h
    | some r0 =>
      have hS := (findHeader_spec [symbolHeaderRe] isSymbolHeader symbolPatterns_any
        isSymbolHeader_orEmpty r0).2
      have hW := (findHeader_spec [weightHeaderRe, portfolioWeightRe] isWeightHeader
        weightPatterns_any isWeightHeader_orEmpty r0).2
      rw [pickTickerWeight_cons]
      constructor
      · intro h
        refine ⟨r0, rest, rfl, ?_, ?_⟩
        · cases ht : findHeader (headerTexts r0) [symbolHeaderRe] with
          | none =>
            rw [ht] at h
            simp only [Except.error.injEq, Err.missingColumns.injEq] at h
            exact h.symm
          | some t =>
            cases hw : findHeader (headerTexts r0) [weightHeaderRe, portfolioWeightRe] with
            | none =>
              rw [ht, hw] at h
              simp only [Except.error.injEq, Err.missingColumns.injEq] at h
              exact h.symm
            | some w =>
              rw [ht, hw] at h
              cases h
        · cases ht : findHeader (headerTexts r0) [symbolHeaderRe] with
          | none => exact Or.inl (hS.mp ht)
          | some t =>
            cases hw : findHeader (headerTexts r0) [weightHeaderRe, portfolioWeightRe] with
            | none => exact Or.inr (hW.mp hw)
            | some w =>
              rw [ht, hw] at h
              cases h
      · rintro ⟨r0', rest', hr, rfl, hno⟩
        obtain ⟨rfl, rfl⟩ : r0 = r0' ∧ rest = rest' := by
          simpa using hr
        rcases hno with hno | hno
        · rw [hS.mpr hno]
        · rw [hW.mpr hno]
          cases findHeader (headerTexts r0) [symbolHeaderRe] <;> rfl

/-- Witness of C8 at a table whose header has a symbol cell and no weight cell. -/
theorem pickTickerWeight_missingColumns_witness :
    ∃ r0 rest, [some [Val.str "Ticker".toList, .str "Name".toList], none] = some r0 :: rest ∧
      ["Ticker".toList, "Name".toList] = headerTexts r0 ∧
      ((∀ x ∈ r0, ¬ isSymbolHeader (trim x.toStr)) ∨
       (∀ x ∈ r0, ¬ isWeightHeader (trim x.toStr))) :=
  (pickTickerWeight_missingColumns.1 [some [.str "Ticker".toList, .str "Name".toList], none]
    ["Ticker".toList, "Name".toList]).mp (by decide)

/-- C9: the symbol column is the smallest index whose header cell, stringified and trimmed,
equals one of `ticker`, `symbol`, `ticker symbol`, `code` ignoring letter case; the result
is not found (`none`, the -1 of the program) exactly when no cell does. -/
theorem symbol_column_first_match (r0 : List Val) :
    (∀ i, findHeader (headerTexts r0) [symbolHeaderRe] = some i ↔
      (∃ x, r0[i]? = some x ∧ isSymbolHeader (trim x.toStr)) ∧
      ∀ j x, j < i → r0[j]? = some x → ¬ isSymbolHeader (trim x.toStr)) ∧
    (findHeader (headerTexts r0) [symbolHeaderRe] = none ↔
      ∀ x ∈ r0, ¬ isSymbolHeader (trim x.toStr)) :=
  findHeader_spec [symbolHeaderRe] isSymbolHeader symbolPatterns_any isSymbolHeader_orEmpty r0

/-- Witness of C9 at a header whose second and third cells are both symbol headers. -/
theorem symbol_column_first_match_witness :
    (∃ x, [Val.str "Name".toList, .str " SYMBOL ".toList, .str "Ticker".toList][1]? = some x ∧
      isSymbolHeader (trim x.toStr)) ∧
    ∀ j x, j < 1 →
      [Val.str "Name".toList, .str " SYMBOL ".toList, .str "Ticker".toList][j]? = some x →
      ¬ isSymbolHeader (trim x.toStr) :=
  ((symbol_column_first_match
      [.str "Name".toList, .str " SYMBOL ".toList, .str "Ticker".toList]).1 1).mp (by decide)

/-- C10, counterexample: the cell `Weight change %` is chosen as weight column, before a later
cell `Weight`, although it is not the word "weight" followed only by a percent sign or a
parenthesised percent sign; and the cell `Weight % (%)`, which has that form, is not accepted. -/
theorem weight_column_counterexample :
    findHeader (headerTexts [.str "Name".toList, .str "Weight change %".toList,
      .str "Weight".toList]) [weightHeaderRe, portfolioWeightRe] = some 1 ∧
    proseWeightForm (trim (Val.str "Weight change %".toList).toStr) = false ∧
    proseWeightForm "Weight % (%)".toList = true ∧
    findHeader (headerTexts [.str "Weight % (%)".toList])
      [weightHeaderRe, portfolioWeightRe] = none := by
  decide

/-- C10, amended: the weight column is the smallest index (column order decides, not pattern
order) whose trimmed header cell, ignoring letter case, starts with `weight` and ends with
`%` with no line terminator in between, or is an optional `%`, white space, `weight`, white
space and `(%)`, or is `weight` alone, or contains `portfolio`, optional white space and
`weight`; no cell of another form is chosen, and the result is not found exactly when no
cell has one of these forms. -/
theorem weight_column_first_match (r0 : List Val) :
    (∀ i, findHeader (headerTexts r0) [weightHeaderRe, portfolioWeightRe] = some i ↔
      (∃ x, r0[i]? = some x ∧ isWeightHeader (trim x.toStr)) ∧
      ∀ j x, j < i → r0[j]? = some x → ¬ isWeightHeader (trim x.toStr)) ∧
    (findHeader (headerTexts r0) [weightHeaderRe, portfolioWeightRe] = none ↔
      ∀ x ∈ r0, ¬ isWeightHeader (trim x.toStr)) :=
  findHeader_spec [weightHeaderRe, portfolioWeightRe] isWeightHeader weightPatterns_any
    isWeightHeader_orEmpty r0

/-- Witness of the amended C10 at a header whose second cell is `% Weight (%)`. -/
theorem weight_column_first_match_witness :
    (∃ x, [Val.str "Name".toList, .str "% Weight (%)".toList, .str "Weight".toList][1]? = some x ∧
      isWeightHeader (trim x.toStr)) ∧
    ∀ j x, j < 1 →
      [Val.str "Name".toList, .str "% Weight (%)".toList, .str "Weight".toList][j]? = some x →
      ¬ isWeightHeader (trim x.toStr) :=
  ((weight_column_first_match
      [.str "Name".toList, .str "% Weight (%)".toList, .str "Weight".toList]).1 1).mp (by decide)

/-- C11: every record returned by `pickTickerWeight` has a symbol that is non-empty and has
neither leading nor trailing white space; the rows that are absent or whose symbol cell is
absent, empty or white space only produce no record (removing them leaves the result
unchanged), so a table with resolvable headers whose data rows all have such a symbol cell
yields the empty sequence, as does the table whose only data row has an empty symbol cell. -/
theorem holding_symbol_trimmed :
    (∀ (rows : List Row) (out : List Holding), pickTickerWeight rows = .ok out →
      ∀ r ∈ out, r.Ticker ≠ [] ∧ (∀ c ∈ r.Ticker.head?, isWhiteSpace c = false) ∧
        (∀ c ∈ r.Ticker.getLast?, isWhiteSpace c = false)) ∧
    (∀ (r0 : List Val) (rest : List Row),
      pickTickerWeight (some r0 :: rest) =
        pickTickerWeight (some r0 :: rest.filter
          (hasSymbol ((findHeader (headerTexts r0) [symbolHeaderRe]).getD 0)))) ∧
    (∀ (r0 : List Val) (rest : List Row) (t w : Nat),
      findHeader (headerTexts r0) [symbolHeaderRe] = some t →
      findHeader (headerTexts r0) [weightHeaderRe, portfolioWeightRe] = some w →
      (∀ row ∈ rest, hasSymbol t row = false) →
      pickTickerWeight (some r0 :: rest) = .ok []) ∧
    pickTickerWeight [some [.str "Ticker".toList, .str "Weight".toList],
      some [.str [], .str "5".toList]] = .ok [] := by
  refine ⟨?_, ?_, ?_, by decide⟩
  · intro rows out h r hr
    rcases pickTickerWeight_ok_cases rows out h with he | ⟨r0, rest, t, w, -, he⟩
    · subst he
      cases hr
    · subst he
      obtain ⟨row, -, hrow⟩ := List.mem_filterMap.mp hr
      exact holdingOfRow_ticker t w row r hrow
  · intro r0 rest
    rw [pickTickerWeight_cons, pickTickerWeight_cons]
    cases ht : findHeader (headerTexts r0) [symbolHeaderRe] with
    | none => rfl
    | some t =>
      cases hw : findHeader (headerTexts r0) [weightHeaderRe, portfolioWeightRe] with
      | none => rfl
      | some w =>
        simp only [Option.getD_some, filterMap_hasSymbol]
  · intro r0 rest t w ht hw hall
    rw [pickTickerWeight_cons, ht, hw]
    have : rest.filter (hasSymbol t) = [] := by
      rw [List.filter_eq_nil_iff]
      intro row hrow
      rw [hall row hrow]
      simp
    show Except.ok (List.filterMap (holdingOfRow t w) rest) = Except.ok []
    rw [← filterMap_hasSymbol, this]
    rfl

/-- Witness of C11 at a table whose data row has the symbol cell `AAA` between white space. -/
theorem holding_symbol_trimmed_witness :
    ("AAA".toList ≠ [] ∧ (∀ c ∈ "AAA".toList.head?, isWhiteSpace c = false) ∧
      (∀ c ∈ "AAA".toList.getLast?, isWhiteSpace c = false)) :=
  holding_symbol_trimmed.1
    [some [.str "Ticker".toList, .str "Weight".toList], some [.str "  AAA\t".toList, .str []]]
    [{ Ticker := "AAA".toList, Weight := .str [] }] (by decide)
    { Ticker := "AAA".toList, Weight := .str [] } (List.mem_singleton.mpr rfl)

/-- C12, counterexample: a ticker whose fetched text is a header line without data rows is
processed without an error, its extraction giving the empty sequence of records, and yet the
manifest written by `main` does not list it (on a file system that accepts every write). -/
theorem manifest_empty_result_counterexample :
    completes headerOnlyWorld ("XYZ".toList, { source := some "csv".toList, url := some scenarioUrl })
      = true ∧
    (fetchHoldings headerOnlyWorld "XYZ".toList
      { source := some "csv".toList, url := some scenarioUrl }).result = .ok [] ∧
    (mainOn acceptingFS headerOnlyWorld scenarioConfig "2024-01-01T00:00:00.000Z".toList).map
      (fun out => out.2.tickers) = .ok [] := by
  decide

/-- C12, amended: the tickers of the manifest written by `main` are exactly the sub-list, in
processing order, of the tickers whose processing completed without an error, gave at least
one record, and whose file was written without an error; a ticker whose extraction gave the
empty sequence, or whose `saveCSV` threw, is left out. The manifest is written whenever the
data directory can be created and `index.json` can be written, and its timestamp is the
time of the run. -/
theorem manifest_tickers (fs : FileSystem) (w : World) (entries : List (JSString × Info))
    (now : JSString) :
    (∀ out, mainOn fs w entries now = .ok out →
      out.2.tickers = (entries.filter (fun e => (updatedFile fs w e).isSome)).map Prod.fst ∧
      out.2.updatedAt = now ∧
      out.1 = entries.filterMap (updatedFile fs w)) ∧
    (fs.mkdirSync = .ok () → (∀ m, fs.writeManifest m = .ok ()) →
      ∃ out, mainOn fs w entries now = .ok out) ∧
    (∀ e, (updatedFile fs w e).isSome = true ↔
      ∃ rows, (fetchHoldings w e.1 e.2).result = .ok rows ∧ rows ≠ [] ∧
        fs.writeFileSync (saveCSV e.1 rows).1 (saveCSV e.1 rows).2 = .ok ()) := by
  refine ⟨?_, mainOn_returns fs w entries now, updatedFile_isSome fs w⟩
  intro out h
  rw [mainOn_ok fs w entries now out h]
  exact ⟨rfl, rfl, rfl⟩

/-- Witness of the amended C12 at a configuration of the tickers `BRK/B` and `XYZ`, on a
file system that refuses the file `BRK/B.csv`: the manifest lists `XYZ` alone. -/
theorem manifest_tickers_witness :
    (mainOn flatFS scenarioWorld slashConfig "2024-01-01T00:00:00.000Z".toList).map
      (fun out => out.2.tickers) = .ok ["XYZ".toList] := by
  obtain ⟨out, h⟩ := (manifest_tickers flatFS scenarioWorld slashConfig
    "2024-01-01T00:00:00.000Z".toList).2.1 rfl (fun _ => rfl)
  have ht := ((manifest_tickers flatFS scenarioWorld slashConfig
    "2024-01-01T00:00:00.000Z".toList).1 out h).1
  rw [h, ← slash_updated, ← ht]
  rfl

/-- C13: when processing one ticker raises an error, the step of that ticker leaves the run
state unchanged, so the run goes on with every later ticker and writes the manifest; the
files and the manifest are those of the run without the failing ticker, hence no file is
written for it and (tickers being distinct keys) it is not in the manifest. A response that
is not ok, a missing url, an unknown source and missing columns each raise an error. -/
theorem failing_ticker_skipped :
    (∀ (w : World) (pre post : List (JSString × Info)) (e : JSString × Info) (now : JSString)
        (err : Err), (fetchHoldings w e.1 e.2).result = .error err →
      main w (pre ++ e :: post) now = main w (pre ++ post) now ∧
      (∀ st, mainStep w st e = st) ∧
      (e.1 ∉ (pre ++ post).map Prod.fst → e.1 ∉ (main w (pre ++ e :: post) now).2.tickers) ∧
      (main w (pre ++ e :: post) now).2.updatedAt = now) ∧
    (∀ (w : World) (t : JSString) (u : Option JSString) (status : Nat) (body : JSString),
      urlPresent u = true → w.fetch u = .ok { ok := false, status := status, body := body } →
      (fetchHoldings w t { source := some "csv".toList, url := u }).result =
        .error (.http status u)) ∧
    (∀ (w : World) (t : JSString),
      (fetchHoldings w t { source := some "csv".toList, url := none }).result =
        .error .csvUrlMissing) ∧
    (∀ (w : World) (t : JSString) (u : Option JSString),
      (fetchHoldings w t { source := some "xyz".toList, url := u }).result =
        .error (.unknownSource "xyz".toList)) ∧
    (∀ (w : World) (t : JSString) (u : Option JSString) (status : Nat),
      urlPresent u = true →
      w.fetch u = .ok { ok := true, status := status, body := "Name,Value\nA,1\n".toList } →
      (fetchHoldings w t { source := some "csv".toList, url := u }).result =
        .error (.missingColumns ["Name".toList, "Value".toList])) := by
  refine ⟨?_, ?_, ?_, ?_, ?_⟩
  · intro w pre post e now err h
    have hs := savedRecords_of_error w e err h
    refine ⟨main_skip w pre post e now hs, ?_, ?_, ?_⟩
    · intro st
      rw [mainStep_eq, hs]
    · intro hk hm
      rw [main_skip w pre post e now hs] at hm
      exact hk (tickers_subset w _ now _ hm)
    · rw [main_eq]
  · intro w t u status body hu hf
    rw [fetchHoldings_csv w t u hu, fetchText_not_ok w u status body hf]
    rfl
  · intro w t
    rw [fetchHoldings_csv_missing w t none rfl]
  · intro w t u
    rfl
  · intro w t u status hu hf
    rw [fetchHoldings_csv w t u hu]
    simp only [fetchText, hf]
    rfl

/-- Witness of C13 at a ticker whose fetch is answered with 404, configured before the
scenario ticker. -/
theorem failing_ticker_skipped_witness :
    main notFoundWorld ([] ++ missingEntry :: scenarioConfig) "2024-01-01T00:00:00.000Z".toList =
      main notFoundWorld ([] ++ scenarioConfig) "2024-01-01T00:00:00.000Z".toList :=
  (failing_ticker_skipped.1 notFoundWorld [] scenarioConfig missingEntry
    "2024-01-01T00:00:00.000Z".toList (.http 404 (some "http://x/missing.csv".toList))
    (by decide)).1

/-- C14, the behaviour of the code: without a url the `csv` source fails with the missing-url
error and calls `fetch` not at all, whereas the `ark` source calls `fetch` with the absent url
and returns what follows from its answer, which is not the missing-url error when the fetch
is answered; with a url present the two sources behave identically. -/
theorem ark_without_url :
    (∀ (w : World) (t : JSString),
      (fetchHoldings w t { source := some "csv".toList, url := none }).fetched = [] ∧
      (fetchHoldings w t { source := some "csv".toList, url := none }).result =
        .error .csvUrlMissing) ∧
    (∀ (w : World) (t : JSString),
      (fetchHoldings w t { source := some "ark".toList, url := none }).fetched = [none] ∧
      (fetchHoldings w t { source := some "ark".toList, url := none }).result =
        (fetchText w none).bind (fun text => pickTickerWeight (csvToRows text))) ∧
    (fetchHoldings scenarioWorld "ARKK".toList
      { source := some "ark".toList, url := none }).result ≠ .error .csvUrlMissing ∧
    (∀ (w : World) (t : JSString) (u : Option JSString), urlPresent u = true →
      fetchHoldings w t { source := some "ark".toList, url := u } =
        fetchHoldings w t { source := some "csv".toList, url := u }) := by
  refine ⟨?_, ?_, ?_, ?_⟩
  · intro w t
    rw [fetchHoldings_csv_missing w t none rfl]
    exact ⟨rfl, rfl⟩
  · intro w t
    rw [fetchHoldings_ark]
    exact ⟨rfl, rfl⟩
  · rw [fetchHoldings_ark]
    have : fetchText scenarioWorld none = .ok scenarioText := rfl
    simp only [this]
    show pickTickerWeight (csvToRows scenarioText) ≠ _
    rw [scenario_rows]
    intro h
    cases h
  · intro w t u hu
    rw [fetchHoldings_ark, fetchHoldings_csv w t u hu]

/-- C15: when the lower-cased source kind is none of `ssga`, `spdr`, `invesco`, `csv`, `ark`
(an absent or empty kind included), `fetchHoldings` fails with the unknown-source error
carrying that kind and calls `fetch` not at all; for every kind among the five it does not
fail with that error, the collaborators raising only errors of their own. -/
theorem unknown_source_error :
    (∀ (w : World) (t : JSString) (info : Info),
      toLowerCase (info.source.getD []) ∉ knownSources →
      (fetchHoldings w t info).result =
        .error (.unknownSource (toLowerCase (info.source.getD []))) ∧
      (fetchHoldings w t info).fetched = []) ∧
    (∀ (w : World) (t : JSString) (u : Option JSString),
      (fetchHoldings w t { source := none, url := u }).result = .error (.unknownSource []) ∧
      (fetchHoldings w t { source := some [], url := u }).result = .error (.unknownSource []) ∧
      (fetchHoldings w t { source := none, url := u }).fetched = [] ∧
      (fetchHoldings w t { source := some [], url := u }).fetched = []) ∧
    (∀ (w : World) (t : JSString) (info : Info), w.ownErrors →
      toLowerCase (info.source.getD []) ∈ knownSources →
      ∀ s, (fetchHoldings w t info).result ≠ .error (.unknownSource s)) := by
  refine ⟨?_, ?_, ?_⟩
  · intro w t info h
    rw [fetchHoldings_unknown w t info h]
    exact ⟨rfl, rfl⟩
  · intro w t u
    exact ⟨rfl, rfl, rfl, rfl⟩
  · intro w t info hw h
    exact fetchHoldings_known w hw t info h

/-- Witness of C15 at the source kinds `Morningstar` and `SPDR`. -/
theorem unknown_source_error_witness :
    (fetchHoldings scenarioWorld "XYZ".toList
        { source := some "Morningstar".toList, url := some scenarioUrl }).result =
      .error (.unknownSource "morningstar".toList) ∧
    (fetchHoldings scenarioWorld "XYZ".toList
      { source := some "SPDR".toList, url := none }).result ≠
      .error (.unknownSource "spdr".toList) :=
  ⟨(unknown_source_error.1 scenarioWorld "XYZ".toList
      { source := some "Morningstar".toList, url := some scenarioUrl } (by decide)).1,
   unknown_source_error.2.2 scenarioWorld "XYZ".toList
      { source := some "SPDR".toList, url := none } scenarioWorld_ownErrors (by decide) _⟩

/-- C16: `csvToRows` deletes every carriage return, splits at the line feeds, discards the
empty lines and splits each remaining line at every comma; every returned row is present and
non-empty and its cells are texts without comma, line feed or carriage return; joining the
cells of each row with commas gives back the non-empty lines, so joining the rows with line
feeds gives back the text without carriage returns and empty lines. Quotes are not honoured:
a quoted field with a comma is split. -/
theorem csvToRows_split_join (text : JSString) :
    csvToRows text =
      (nonEmptyLines (withoutCarriageReturns text)).map
        (fun line => some ((line.splitOn ',').map Val.str)) ∧
    (∀ row ∈ csvToRows text, ∃ cells, row = some cells ∧ cells ≠ [] ∧
      ∀ c ∈ cells, ∃ s, c = .str s ∧ ',' ∉ s ∧ '\n' ∉ s ∧ '\r' ∉ s) ∧
    (csvToRows text).map rowText = nonEmptyLines (withoutCarriageReturns text) ∧
    "\n".toList.intercalate ((csvToRows text).map rowText) =
      "\n".toList.intercalate (nonEmptyLines (withoutCarriageReturns text)) ∧
    csvToRows "\"a,b\",c\r\n\n".toList =
      [some [.str "\"a".toList, .str "b\"".toList, .str "c".toList]] := by
  have hmap : (csvToRows text).map rowText = nonEmptyLines (withoutCarriageReturns text) := by
    rw [csvToRows_eq, List.map_map]
    have : (rowText ∘ fun line => some ((List.splitOn ',' line).map Val.str)) = id := by
      funext line
      exact rowText_cells line
    rw [this, List.map_id]
  refine ⟨rfl, ?_, hmap, by rw [hmap], by decide⟩
  intro row hrow
  rw [csvToRows_eq] at hrow
  obtain ⟨line, hline, rfl⟩ := List.mem_map.mp hrow
  obtain ⟨-, hn, hr⟩ := mem_nonEmptyLines text line hline
  refine ⟨_, rfl, ?_, ?_⟩
  · intro h
    exact splitOn_ne_nil ',' line (List.map_eq_nil_iff.mp h)
  · intro c hc
    obtain ⟨s, hs, rfl⟩ := List.mem_map.mp hc
    obtain ⟨h1, h2⟩ := splitOn_parts ',' line s hs
    exact ⟨s, rfl, h1, fun h => hn (h2 _ h), fun h => hr (h2 _ h)⟩

/-- Witness of C16 at a text with carriage returns and an empty cell. -/
theorem csvToRows_split_join_witness :
    ∃ cells, some [Val.str "a".toList, .str [], .str "b".toList] = some cells ∧ cells ≠ [] ∧
      ∀ c ∈ cells, ∃ s, c = .str s ∧ ',' ∉ s ∧ '\n' ∉ s ∧ '\r' ∉ s :=
  (csvToRows_split_join "\r\na,,b\r\n".toList).2.1
    (some [.str "a".toList, .str [], .str "b".toList]) (by decide)

/-- C17, counterexample: `pickTickerWeight` returns a record whose symbol contains a line
feed (the symbol cell of a spreadsheet row), and the text that `saveCSV` writes for this one
record has three lines, not two. -/
theorem saveCSV_lines_counterexample :
    pickTickerWeight [some [.str "Ticker".toList, .str "Weight".toList],
      some [.str "A\nB".toList, .str []]] =
      .ok [{ Ticker := "A\nB".toList, Weight := .str [] }] ∧
    (saveCSV "X".toList [{ Ticker := "A\nB".toList, Weight := .str [] }]).2 =
      "Ticker,Weight\nA\nB,".toList ∧
    ((saveCSV "X".toList [{ Ticker := "A\nB".toList, Weight := .str [] }]).2.splitOn '\n').length
      = 3 := by
  decide

/-- C17, amended: for records whose weight is a number or unknown, `saveCSV` names the file
by the upper-cased ticker followed by `.csv` and writes the header `Ticker,Weight` followed
by one entry `symbol,weight` per record, in record order, joined by line feeds, the weight
being the printed number or the empty text for unknown; when no symbol contains a line feed
the lines of the text are the header and the entries, so the text has exactly 1 + n lines. -/
theorem saveCSV_lines (ticker : JSString) (rows : List Holding)
    (hw : ∀ r ∈ rows, r.Weight = unknown ∨ ∃ n, r.Weight = .num n) :
    (saveCSV ticker rows).1 = toUpperCase ticker ++ ".csv".toList ∧
    (saveCSV ticker rows).2 =
      "\n".toList.intercalate ("Ticker,Weight".toList :: rows.map recordLine) ∧
    ((∀ r ∈ rows, '\n' ∉ r.Ticker) →
      (saveCSV ticker rows).2.splitOn '\n' = "Ticker,Weight".toList :: rows.map recordLine ∧
      ((saveCSV ticker rows).2.splitOn '\n').length = 1 + rows.length) := by
  refine ⟨rfl, saveCSV_text ticker rows hw, ?_⟩
  intro ht
  have hsplit : (saveCSV ticker rows).2.splitOn '\n' =
      "Ticker,Weight".toList :: rows.map recordLine := by
    rw [saveCSV_text ticker rows hw]
    apply List.splitOn_intercalate
    · intro l hl
      rcases List.mem_cons.mp hl with h | h
      · subst h; decide
      · obtain ⟨r, hr, rfl⟩ := List.mem_map.mp h
        intro hm
        simp only [recordLine, List.mem_append, List.mem_cons] at hm
        rcases hm with h | h | h
        · exact ht r hr h
        · exact absurd h (by decide)
        · exact weightField_no_lineFeed _ h
    · simp
  refine ⟨hsplit, ?_⟩
  rw [hsplit]
  simp [Nat.add_comm]

/-- Witness of the amended C17 at two records with unknown weight. -/
theorem saveCSV_lines_witness :
    (saveCSV "xyz".toList [{ Ticker := "AAA".toList, Weight := .str [] },
      { Ticker := "BBB".toList, Weight := .str [] }]).2.splitOn '\n' =
      "Ticker,Weight".toList ::
        [{ Ticker := "AAA".toList, Weight := .str [] },
         ({ Ticker := "BBB".toList, Weight := .str [] } : Holding)].map recordLine ∧
    ((saveCSV "xyz".toList [{ Ticker := "AAA".toList, Weight := .str [] },
      { Ticker := "BBB".toList, Weight := .str [] }]).2.splitOn '\n').length = 1 + 2 :=
  (saveCSV_lines "xyz".toList [{ Ticker := "AAA".toList, Weight := .str [] },
      { Ticker := "BBB".toList, Weight := .str [] }]
    (by intro r hr; simp at hr; rcases hr with rfl | rfl <;> exact Or.inl rfl)).2.2 (by decide)

/-- C18: for every number `v` with `0 ≤ v ≤ 100`, `normalizeWeight v` lies in [0, 1] and is
a fixed point of `normalizeWeight`; for the input 150 the first application gives 1.5 and the
second changes the value again, to 0.015. -/
theorem normalizeWeight_idempotent :
    (∀ v : ℚ, 0 ≤ v → v ≤ 100 →
      inUnitInterval (normalizeWeight (.num (.fin v))) ∧
      normalizeWeight (normalizeWeight (.num (.fin v))) = normalizeWeight (.num (.fin v))) ∧
    normalizeWeight (.num (.fin 150)) = .num (.fin (3 / 2)) ∧
    normalizeWeight (normalizeWeight (.num (.fin 150))) = .num (.fin (3 / 200)) ∧
    normalizeWeight (normalizeWeight (.num (.fin 150))) ≠ normalizeWeight (.num (.fin 150)) := by
  have h150 : normalizeWeight (.num (.fin 150)) = .num (.fin (3 / 2)) := by
    rw [normalizeWeight_fin]
    norm_num
  have h32 : normalizeWeight (.num (.fin (3 / 2))) = .num (.fin (3 / 200)) := by
    rw [normalizeWeight_fin]
    norm_num
  refine ⟨?_, h150, by rw [h150, h32], ?_⟩
  · intro v h0 h100
    refine ⟨(inUnitInterval_num v).mpr ⟨h0, h100⟩, ?_⟩
    rw [normalizeWeight_fin v]
    by_cases h : 1 < v
    · rw [if_pos h, normalizeWeight_fin]
      have : ¬ (1 < v / 100) := by
        rw [not_lt]
        linarith
      rw [if_neg this]
    · rw [if_neg h, normalizeWeight_fin, if_neg h]
  · rw [h150, h32]
    intro h
    simp only [Val.num.injEq, JSNum.fin.injEq] at h
    norm_num at h

/-- Witness of C18 at the input 40. -/
theorem normalizeWeight_idempotent_witness :
    inUnitInterval (normalizeWeight (.num (.fin 40))) ∧
    normalizeWeight (normalizeWeight (.num (.fin 40))) = normalizeWeight (.num (.fin 40)) :=
  normalizeWeight_idempotent.1 40 (by norm_num) (by norm_num)

/-- C19, counterexample: the number `v = 0.013` lies between 0.01 and 1 and
`normalizeWeight v` is `v`, but `normalizeWeight (100 * v)` is 0.013000000000000001: the
product is rounded to 1.3, and its quotient by 100 is rounded to the double next above `v`
(`normalizeWeight64` is `normalizeWeight` with the rounding of the engine). -/
theorem normalizeWeight_times100_counterexample :
    toDouble (13 / 1000) = .fin (7493989779944505 / 2 ^ 59) ∧
    (1 : ℚ) / 100 < 7493989779944505 / 2 ^ 59 ∧ (7493989779944505 : ℚ) / 2 ^ 59 ≤ 1 ∧
    normalizeWeight64 (.num (toDouble (13 / 1000))) = .num (toDouble (13 / 1000)) ∧
    normalizeWeight64 (.num (toDouble (13 / 1000)).times100) =
      .num (toDouble (13000000000000001 / 1000000000000000000)) ∧
    normalizeWeight64 (.num (toDouble (13 / 1000)).times100) ≠ .num (toDouble (13 / 1000)) := by
  have h1 : normalizeWeight64 (.num (toDouble (13 / 1000)).times100) =
      .num (.fin (7493989779944506 / 2 ^ 59)) := by
    rw [toDouble_013]
    simp only [JSNum.times100]
    rw [toDouble_013_times, normalizeWeight64_fin, if_pos (by norm_num), toDouble_013_back]
  refine ⟨toDouble_013, by norm_num, by norm_num, ?_, ?_, ?_⟩
  · rw [toDouble_013, normalizeWeight64_fin, if_neg (by norm_num)]
  · rw [h1, toDouble_013_printed]
  · rw [h1, toDouble_013]
    intro h
    simp only [Val.num.injEq, JSNum.fin.injEq] at h
    norm_num at h

/-- C19, amended: `normalizeWeight` is neither injective nor monotone on numbers: every
number `v ≤ 1` is returned as it is, and for every number `v` with `0.01 < v ≤ 1` whose
product `100 * v` is exact, `normalizeWeight (100 * v) = normalizeWeight v = v`; so 0.5 is
returned unscaled and equals the result for 50, and `normalizeWeight 1 = 1` is greater than
`normalizeWeight 2 = 0.02`. Stated for `normalizeWeight64`, which is `normalizeWeight` with
the rounding of the engine. -/
theorem normalizeWeight_not_injective_not_monotone :
    (∀ v : ℚ, v ≤ 1 → normalizeWeight64 (.num (.fin v)) = .num (.fin v)) ∧
    (∀ v : ℚ, 1 / 100 < v → v ≤ 1 → isDouble v → isDouble (100 * v) →
      normalizeWeight64 (.num (JSNum.fin v).times100) = normalizeWeight64 (.num (.fin v)) ∧
      normalizeWeight64 (.num (.fin v)) = .num (.fin v)) ∧
    (isDouble (1 / 2) ∧ isDouble 50 ∧ isDouble 1 ∧ isDouble 2) ∧
    normalizeWeight64 (.num (.fin (1 / 2))) = .num (.fin (1 / 2)) ∧
    normalizeWeight64 (.num (.fin 50)) = .num (.fin (1 / 2)) ∧
    normalizeWeight64 (.num (.fin 1)) = .num (.fin 1) ∧
    normalizeWeight64 (.num (.fin 2)) = .num (toDouble (2 / 100)) ∧
    (∃ q : ℚ, toDouble (2 / 100) = .fin q ∧ q < 1) ∧
    ¬ Function.Injective (fun q : ℚ => normalizeWeight64 (.num (.fin q))) ∧
    (∃ a b x y : ℚ, isDouble a ∧ isDouble b ∧ a ≤ b ∧
      normalizeWeight64 (.num (.fin a)) = .num (.fin x) ∧
      normalizeWeight64 (.num (.fin b)) = .num (.fin y) ∧ y < x) := by
  have hle : ∀ v : ℚ, v ≤ 1 → normalizeWeight64 (.num (.fin v)) = .num (.fin v) := by
    intro v hv
    rw [normalizeWeight64_fin, if_neg (not_lt.mpr hv)]
  have hhalf := hle (1 / 2) (by norm_num)
  have h50 : normalizeWeight64 (.num (.fin 50)) = .num (.fin (1 / 2)) := by
    rw [normalizeWeight64_fin, if_pos (by norm_num), toDouble_fifty_div]
  have h1 := hle 1 (by norm_num)
  have h2 : normalizeWeight64 (.num (.fin 2)) = .num (toDouble (2 / 100)) := by
    rw [normalizeWeight64_fin, if_pos (by norm_num)]
  refine ⟨hle, ?_, ⟨toDouble_half, toDouble_fifty, toDouble_one, toDouble_two⟩, hhalf, h50, h1,
    h2, ⟨_, toDouble_fiftieth, by norm_num⟩, ?_, ?_⟩
  · intro v hlo hhi hv hp
    refine ⟨?_, hle v hhi⟩
    have hp' : toDouble (100 * v) = .fin (100 * v) := hp
    have hv' : toDouble v = .fin v := hv
    have h100 : 1 < 100 * v := by linarith
    have hq : 100 * v / 100 = v := by field_simp
    simp only [JSNum.times100]
    rw [hp', normalizeWeight64_fin, if_pos h100, hq, hv', hle v hhi]
  · intro hinj
    have : (50 : ℚ) = 1 / 2 :=
      hinj (by show normalizeWeight64 _ = normalizeWeight64 _; rw [h50, hhalf])
    norm_num at this
  · refine ⟨1, 2, 1, 5764607523034235 / 2 ^ 58, toDouble_one, toDouble_two, by norm_num, h1, ?_, ?_⟩
    · rw [h2, toDouble_fiftieth]
    · norm_num

/-- Witness of the amended C19 at the input 1/4, whose product with 100 is exact. -/
theorem normalizeWeight_not_injective_not_monotone_witness :
    normalizeWeight64 (.num (JSNum.fin (1 / 4)).times100) =
      normalizeWeight64 (.num (.fin (1 / 4))) ∧
    normalizeWeight64 (.num (.fin (1 / 4))) = .num (.fin (1 / 4)) :=
  normalizeWeight_not_injective_not_monotone.2.1 (1 / 4) (by norm_num) (by norm_num)
    toDouble_quarter toDouble_twentyfive

/-- C20: no header text is accepted both as a symbol header and as a weight header, by the
described forms and by the patterns of the code alike; so whenever both columns are resolved
the index of the symbol column differs from the index of the weight column, and both indices
are positions of the header row. -/
theorem symbol_weight_columns_distinct :
    (∀ h : JSString, isSymbolHeader h → ¬ isWeightHeader h) ∧
    (∀ h : JSString, symbolHeaderRe.test h = true →
      weightHeaderRe.test h = false ∧ portfolioWeightRe.test h = false) ∧
    (∀ (r0 : List Val) (t w : Nat),
      findHeader (headerTexts r0) [symbolHeaderRe] = some t →
      findHeader (headerTexts r0) [weightHeaderRe, portfolioWeightRe] = some w →
      t ≠ w ∧ t < (headerTexts r0).length ∧ w < (headerTexts r0).length ∧
        (headerTexts r0).length = r0.length) := by
  refine ⟨symbol_not_weight, ?_, ?_⟩
  · intro h hs
    have hn := symbol_not_weight h ((symbolHeaderRe_test h).mp hs)
    rw [← weightPatterns_any] at hn
    simp only [List.any_cons, List.any_nil, Bool.or_false, Bool.or_eq_true, not_or,
      Bool.not_eq_true] at hn
    exact hn
  · intro r0 t w ht hw
    obtain ⟨⟨x, hx, hxs⟩, -⟩ := ((findHeader_spec [symbolHeaderRe] isSymbolHeader
      symbolPatterns_any isSymbolHeader_orEmpty r0).1 t).mp ht
    obtain ⟨⟨y, hy, hyw⟩, -⟩ := ((findHeader_spec [weightHeaderRe, portfolioWeightRe]
      isWeightHeader weightPatterns_any isWeightHeader_orEmpty r0).1 w).mp hw
    have hlen : (headerTexts r0).length = r0.length := by simp [headerTexts]
    have htl : t < r0.length := (List.getElem?_eq_some.mp hx).1
    have hwl : w < r0.length := (List.getElem?_eq_some.mp hy).1
    refine ⟨?_, by omega, by omega, hlen⟩
    rintro rfl
    rw [hx] at hy
    cases hy
    exact symbol_not_weight _ hxs hyw

/-- Witness of C20 at the header row `Weight`, `Symbol`. -/
theorem symbol_weight_columns_distinct_witness :
    1 ≠ 0 ∧ 1 < (headerTexts [Val.str "Weight".toList, .str "Symbol".toList]).length ∧
      0 < (headerTexts [Val.str "Weight".toList, .str "Symbol".toList]).length ∧
      (headerTexts [Val.str "Weight".toList, .str "Symbol".toList]).length =
        [Val.str "Weight".toList, .str "Symbol".toList].length :=
  symbol_weight_columns_distinct.2.2 [.str "Weight".toList, .str "Symbol".toList] 1 0
    (by decide) (by decide)

end ETFHoldings
